import Mathlib

/-!
# LineDrawData: line tessellation and draw-buffer partitioning

A shallow embedding of `src/all/native/renderers/drawdatas/LineDrawData.cpp`.

Conventions of the embedding.

* `float` and `double` values are elements of a linearly ordered field `F` with a floor
  function (for instance `ℚ`). Arithmetic is exact, except where the rounding to `float`
  decides a discrete outcome of `init`: the `float` products that are converted to the `int`
  count `segments` (lines 271 and 326, with the `float` constants of lines 450-451) and the
  narrowing of the segment length to `float` (line 222) are rounded by `toFloat`, the
  rounding to the nearest IEEE 754 binary32 value.
* The `<cmath>` functions that have no exact counterpart in such a field (`atan2`, `sin`,
  `cos`, `sqrt`) and the constants of `utils/Const.h` are the fields of a record `CMath F`
  passed as a parameter. `std::fmod`, `std::ceil`, `std::abs` and the conversion
  `static_cast<int>` are exact operations and are defined.
* A `MapPos*` stored in a vertex array is the index of the position in `_poses`.
* `unsigned int` and `std::size_t` values are natural numbers, `int` values are integers;
  vertex counts are assumed to stay below `2^32`.
* `std::vector::push_back` appends at the end of a list; `reserve` and `shrink_to_fit`
  have no observable effect and are left out.
* A read outside the bounds of a vector performed by the buffer partitioner makes the
  partitioner return `none`.
-/

namespace LineDrawData

/-! ## Data model -/

/-- Modelled from the spec: `core/MapPos.h` is not part of the sources. A position of the
polyline, "ordered sequence of 2D positions in internal coordinates". -/
structure MapPos (F : Type) where
  x : F
  y : F
deriving DecidableEq

/-- Modelled from the spec: `core/MapVec.h` is not part of the sources. A direction vector,
the difference of two positions. The source gives the vectors it builds on lines 224-225 a
third component, always 0; the positions of the spec are 2D and that component is left
out. -/
structure MapVec (F : Type) where
  x : F
  y : F
deriving DecidableEq

/-- The type `cglib::vec2<float>` of normals and texture coordinates. -/
structure Vec2 (F : Type) where
  x : F
  y : F
deriving DecidableEq

/-- The functions of `<cmath>` and the constants of `utils/Const.h` used by `init` that are
not definable in exact field arithmetic. -/
structure CMath (F : Type) where
  atan2 : F → F → F
  sin : F → F
  cos : F → F
  sqrt : F → F
  RAD_TO_DEG : F
  DEG_TO_RAD : F

/-- The joint kinds of `styles/LineStyle.h` that `init` distinguishes (the spec calls
`LINE_JOINT_TYPE_STRAIGHT` the BEVEL joint). -/
inductive LineJointType where
  | LINE_JOINT_TYPE_NONE
  | LINE_JOINT_TYPE_STRAIGHT
  | LINE_JOINT_TYPE_ROUND
deriving DecidableEq

/-- The end-cap kinds of `styles/LineStyle.h`. -/
inductive LineEndType where
  | LINE_END_TYPE_NONE
  | LINE_END_TYPE_ROUND
deriving DecidableEq

/-- The fields of `LineStyle` read by `LineDrawData`; `bitmapHeight` is
`style.getBitmap()->getHeight()`. -/
structure LineStyle (F : Type) where
  width : F
  lineJointType : LineJointType
  lineEndType : LineEndType
  stretchFactor : F
  bitmapHeight : Nat
  clickWidth : F

/-- One output buffer: the entries at one position of `_coords`, `_normals`, `_texCoords`
and `_indices`. -/
structure DrawBuffer (F : Type) where
  coords : List Nat
  normals : List (Vec2 F)
  texCoords : List (Vec2 F)
  indices : List Nat

/-- The local variables of `init` that live across the iterations of the tessellation loop
(lines 203-210 and `texCoordY`). -/
structure TessState (F : Type) where
  coords : List Nat
  normals : List (Vec2 F)
  texCoords : List (Vec2 F)
  indices : List Nat
  firstLine : MapVec F
  lastLine : MapVec F
  prevPos : Option Nat
  vertexIndex : Nat
  texCoordY : F

/-- The local variables of the loop that computes the turn angles (lines 148-181). -/
structure AngleState (F : Type) where
  deltaAngles : List F
  prevAngle : F

/-- The state of the splitting loop of the partitioner (lines 406-441): the buffers already
closed, the buffer at the back of the output vectors, and `indexMap`. -/
structure PartState (F : Type) where
  done : List (DrawBuffer F)
  cur : DrawBuffer F
  indexMap : List (Nat × Nat)

section Defs

variable {F : Type} [LinearOrderedField F] [FloorRing F]

/-! ## Numeric helpers -/

/-- Rounding to the nearest integer, a tie going to the even one. -/
def roundHalfEven (v : F) : Int :=
  if 2 * (v - (Int.floor v : F)) < 1 then Int.floor v
  else if 2 * (v - (Int.floor v : F)) = 1 ∧ Int.floor v % 2 = 0 then Int.floor v
  else Int.floor v + 1

/-- The exponent of the unit in the last place of the `float` values near `v`: `e - 23` for
`2^e ≤ |v| < 2^(e+1)`, and `-149` throughout the subnormal range `|v| < 2^(-126)`. -/
def floatUlpExponent (v : F) : Int :=
  max (Int.log 2 |v|) (-126) - 23

/-- The conversion of a value to `float`, and the rounding of the result of a `float`
operation: the nearest IEEE 754 binary32 value, a tie going to the even significand, with
gradual underflow. A value beyond the largest `float` is rounded in the same way instead of
becoming an infinity. -/
def toFloat (v : F) : F :=
  ((roundHalfEven (v / 2 ^ floatUlpExponent v) : Int) : F) * 2 ^ floatUlpExponent v

/-- The constant `LineDrawData::LINE_ENDPOINT_TESSELATION_FACTOR = 0.004f` (line 450): the
`float` nearest to `0.004`. -/
def LINE_ENDPOINT_TESSELATION_FACTOR : F := toFloat (4 / 1000)

/-- The constant `LineDrawData::LINE_JOINT_TESSELATION_FACTOR = 0.0018f` (line 451): the
`float` nearest to `0.0018`. -/
def LINE_JOINT_TESSELATION_FACTOR : F := toFloat (18 / 10000)

/-- The conversion `static_cast<int>` of a floating-point value: truncation toward zero. The
source has undefined behaviour for a value outside the range of `int`; the embedding follows
it for values of magnitude below `2^31`. -/
def staticCastInt (v : F) : Int :=
  if 0 ≤ v then Int.floor v else Int.ceil v

/-- The function `std::fmod`: the remainder of `a / b` with the quotient truncated toward
zero. -/
def fmod (a b : F) : F :=
  a - b * ((staticCastInt (a / b) : Int) : F)

/-- Modelled from the spec: `MapPos::operator-` of `core/MapPos.h`, the vector from `b`
to `a`. -/
def MapPos.sub (a b : MapPos F) : MapVec F :=
  ⟨a.x - b.x, a.y - b.y⟩

/-- Modelled from the spec: `MapVec::length` of `core/MapVec.h`. -/
def MapVec.length (m : CMath F) (v : MapVec F) : F :=
  m.sqrt (v.x * v.x + v.y * v.y)

/-- Modelled from the spec: `MapVec::operator/=` of `core/MapVec.h`. -/
def MapVec.divScalar (v : MapVec F) (c : F) : MapVec F :=
  ⟨v.x / c, v.y / c⟩

/-- Modelled from the spec: `MapVec::operator*=` of `core/MapVec.h`. -/
def MapVec.mulScalar (v : MapVec F) (c : F) : MapVec F :=
  ⟨v.x * c, v.y * c⟩

/-- Modelled from the spec: `MapVec::getNormalized` of `core/MapVec.h`. -/
def MapVec.getNormalized (m : CMath F) (v : MapVec F) : MapVec F :=
  v.divScalar (v.length m)

/-- Modelled from the spec: `MapVec::rotate2D(sin, cos)` of `core/MapVec.h`, "rotating a
perpendicular vector" by the angle whose sine and cosine are given. -/
def MapVec.rotate2D (v : MapVec F) (sin cos : F) : MapVec F :=
  ⟨cos * v.x - sin * v.y, sin * v.x + cos * v.y⟩

/-- The conversion `cglib::vec2<float>(v.getX(), v.getY())`. -/
def MapVec.toVec2 (v : MapVec F) : Vec2 F :=
  ⟨v.x, v.y⟩

/-- The vectors pushed by a loop `for (j = 0; j < count; j++) { v.rotate2D(sin, cos); push(v); }`. -/
def rotations (sin cos : F) : MapVec F → Nat → List (MapVec F)
  | _, 0 => []
  | v, k + 1 => v.rotate2D sin cos :: rotations sin cos (v.rotate2D sin cos) k

/-! ## Turn angles (lines 148-181) -/

/-- The turn angle of lines 162-165. -/
def calcDeltaAngle (nextAngle prevAngle : F) : F :=
  let deltaAngle := fmod (nextAngle - prevAngle + 360) 360
  if deltaAngle ≥ 180 then deltaAngle - 360 else deltaAngle

/-- The heading of the segment from `pos` to `nextPos` (lines 158-159). -/
def calcNextAngle (m : CMath F) (pos nextPos : MapPos F) : F :=
  let nextLine := nextPos.sub pos
  m.atan2 nextLine.y nextLine.x * m.RAD_TO_DEG - 90

/-- One iteration of the loop of lines 151-180. The `break` of line 153 can only be taken in
the last iteration, where it is the same as skipping the body. -/
def angleLoopBody (m : CMath F) (poses : List (MapPos F)) (loopedLine : Bool)
    (st : AngleState F) (i : Nat) : AngleState F :=
  if !loopedLine && decide (i + 1 ≥ poses.length) then st
  else
    let pos := poses.getD i ⟨0, 0⟩
    let nextPos := if i + 1 < poses.length then poses.getD (i + 1) ⟨0, 0⟩ else poses.getD 1 ⟨0, 0⟩
    let nextAngle := calcNextAngle m pos nextPos
    let deltaAngles :=
      if i > 0 then st.deltaAngles.set (i - 1) (calcDeltaAngle nextAngle st.prevAngle)
      else st.deltaAngles
    { deltaAngles := deltaAngles, prevAngle := nextAngle }

/-- The state of the loop of lines 151-180 before the iteration at index `k`; it starts from
`deltaAngles(_poses.size() - 1)`, all zero, and `prevAngle = 0` (lines 148-149). -/
def angleLoop (m : CMath F) (poses : List (MapPos F)) (loopedLine : Bool) (k : Nat) :
    AngleState F :=
  (List.range k).foldl (angleLoopBody m poses loopedLine)
    { deltaAngles := List.replicate (poses.length - 1) 0, prevAngle := 0 }

/-- The vector `deltaAngles` after lines 148-181. -/
def calcDeltaAngles (m : CMath F) (poses : List (MapPos F)) (style : LineStyle F)
    (loopedLine : Bool) : List F :=
  if style.lineJointType ≠ LineJointType.LINE_JOINT_TYPE_NONE then
    (angleLoop m poses loopedLine poses.length).deltaAngles
  else List.replicate (poses.length - 1) 0

/-! ## Line body (lines 214-261) -/

/-- The vector `prevLine` of line 215 for the iteration at position index `i` with
`prevPos` the position of index `p`. -/
def calcPrevLine (poses : List (MapPos F)) (i p : Nat) : MapVec F :=
  (poses.getD i ⟨0, 0⟩).sub (poses.getD p ⟨0, 0⟩)

/-- The variable `float prevLineLength` of line 222: the length of `prevLine`, narrowed to
`float`. -/
def calcPrevLineLength (m : CMath F) (prevLine : MapVec F) : F :=
  toFloat (prevLine.length m)

/-- The vector `prevPerpVec1` after lines 222-226; line 223 divides `prevLine` by the
`float` `prevLineLength`. -/
def calcPrevPerpVec1 (m : CMath F) (style : LineStyle F) (prevLine : MapVec F) : MapVec F :=
  let unit := prevLine.divScalar (calcPrevLineLength m prevLine)
  (MapVec.mk (-unit.y) unit.x).mulScalar (style.width / 2)

/-- The vector `prevPerpVec2` after lines 222-227. -/
def calcPrevPerpVec2 (m : CMath F) (style : LineStyle F) (prevLine : MapVec F) : MapVec F :=
  let unit := prevLine.divScalar (calcPrevLineLength m prevLine)
  (MapVec.mk unit.y (-unit.x)).mulScalar (style.width / 2)

/-- The quantity `texCoordYScale` of line 198. -/
def texCoordYScale (style : LineStyle F) : F :=
  1 / (style.stretchFactor * (style.bitmapHeight : F))

/-- The line body of one iteration (lines 214-261): the quad of the segment from the
position of index `p` to the position of index `i`. -/
def lineBody (m : CMath F) (poses : List (MapPos F)) (style : LineStyle F) (i p : Nat)
    (st : TessState F) : TessState F :=
  let prevLine := calcPrevLine poses i p
  let firstLine := if i = 1 then prevLine else st.firstLine
  let lastLine := if i = poses.length - 1 then prevLine else st.lastLine
  let prevLineLength := calcPrevLineLength m prevLine
  let prevPerpVec1 := calcPrevPerpVec1 m style prevLine
  let prevPerpVec2 := calcPrevPerpVec2 m style prevLine
  let texCoordX : F := 1
  let useTexCoordY := style.bitmapHeight > 1
  let texCoordYOffset := prevLineLength * texCoordYScale style
  let texCoords : List (Vec2 F) :=
    if useTexCoordY then
      [⟨0, st.texCoordY⟩, ⟨texCoordX, st.texCoordY⟩,
       ⟨0, st.texCoordY + texCoordYOffset⟩, ⟨texCoordX, st.texCoordY + texCoordYOffset⟩]
    else
      [⟨0, 0⟩, ⟨texCoordX, 0⟩, ⟨0, 1⟩, ⟨texCoordX, 1⟩]
  { coords := st.coords ++ [p, p, i, i]
    normals := st.normals ++
      [prevPerpVec1.toVec2, prevPerpVec2.toVec2, prevPerpVec1.toVec2, prevPerpVec2.toVec2]
    texCoords := st.texCoords ++ texCoords
    indices := st.indices ++
      [st.vertexIndex + 0, st.vertexIndex + 1, st.vertexIndex + 2,
       st.vertexIndex + 1, st.vertexIndex + 3, st.vertexIndex + 2]
    firstLine := firstLine
    lastLine := lastLine
    prevPos := st.prevPos
    vertexIndex := st.vertexIndex + 4
    texCoordY := if useTexCoordY then st.texCoordY + texCoordYOffset else st.texCoordY }

/-! ## Line joints (lines 263-318) -/

/-- The number `segments` of lines 267-272. The argument of `std::ceil` on line 271 is a
product of three `float` values, evaluated from the left with each product rounded to
`float`; `std::ceil` returns an integral value, whose conversion by `static_cast<int>` is
exact (for a value below `2^31`). -/
def jointSegments (style : LineStyle F) (deltaAngle : F) : Int :=
  if style.lineJointType = LineJointType.LINE_JOINT_TYPE_STRAIGHT then
    (if deltaAngle ≠ 0 then 1 else 0)
  else
    Int.ceil (toFloat (toFloat (|deltaAngle| * style.width) * LINE_JOINT_TESSELATION_FACTOR))

/-- The indices pushed by lines 294-314 for a joint of `segments` wedges whose centre vertex
has index `vertexIndex`; `lastPos` is the test `i == _poses.size() - 1`. -/
def jointIndices (vertexIndex segments : Nat) (leftTurn lastPos : Bool) : List Nat :=
  (List.range segments).flatMap fun j =>
    if leftTurn then
      [vertexIndex,
       if j = segments - 1 then (if lastPos then 0 else vertexIndex + j + 1)
       else vertexIndex + j + 1,
       if j = 0 then vertexIndex - 2 else vertexIndex + j]
    else
      [vertexIndex,
       if j = 0 then vertexIndex - 1 else vertexIndex + j,
       if j = segments - 1 then (if lastPos then 1 else vertexIndex + j + 2)
       else vertexIndex + j + 1]

/-- The joint emitted when `segments > 0` (lines 274-316); `segments` is given as a natural
number. -/
def addJoint (m : CMath F) (poses : List (MapPos F)) (i : Nat) (deltaAngle : F)
    (segments : Nat) (prevPerpVec1 prevPerpVec2 : MapVec F) (st : TessState F) : TessState F :=
  let segmentDeltaAngle := deltaAngle / (segments : F)
  let sin := m.sin (segmentDeltaAngle * m.DEG_TO_RAD)
  let cos := m.cos (segmentDeltaAngle * m.DEG_TO_RAD)
  let leftTurn : Bool := decide (deltaAngle ≤ 0)
  let rotVec := if leftTurn then prevPerpVec1 else prevPerpVec2
  let fan := rotations sin cos rotVec (segments - 1)
  { st with
    coords := st.coords ++ [i] ++ fan.map (fun _ => i)
    normals := st.normals ++ [⟨0, 0⟩] ++ fan.map MapVec.toVec2
    texCoords := st.texCoords ++ [⟨1 / 2, st.texCoordY⟩] ++
      fan.map (fun _ => ⟨if leftTurn then 0 else 1, st.texCoordY⟩)
    indices := st.indices ++
      jointIndices st.vertexIndex segments leftTurn (decide (i = poses.length - 1))
    vertexIndex := st.vertexIndex + segments }

/-- The joint part of one iteration (lines 263-318), run after `lineBody`. -/
def lineJoint (m : CMath F) (poses : List (MapPos F)) (style : LineStyle F)
    (loopedLine : Bool) (deltaAngles : List F) (i p : Nat) (st : TessState F) : TessState F :=
  if (decide (i + 1 < poses.length) || loopedLine) &&
      decide (style.lineJointType ≠ LineJointType.LINE_JOINT_TYPE_NONE) then
    let deltaAngle := deltaAngles.getD (i - 1) 0
    let segments := jointSegments style deltaAngle
    if segments > 0 then
      let prevLine := calcPrevLine poses i p
      addJoint m poses i deltaAngle segments.toNat
        (calcPrevPerpVec1 m style prevLine) (calcPrevPerpVec2 m style prevLine) st
    else st
  else st

/-- One iteration of the tessellation loop (lines 211-322). -/
def tessLoopBody (m : CMath F) (poses : List (MapPos F)) (style : LineStyle F)
    (loopedLine : Bool) (deltaAngles : List F) (st : TessState F) (i : Nat) : TessState F :=
  match st.prevPos with
  | none => { st with prevPos := some i }
  | some p =>
    let st1 := lineBody m poses style i p st
    let st2 := lineJoint m poses style loopedLine deltaAngles i p st1
    { st2 with prevPos := some i }

/-! ## End caps (lines 324-389) -/

/-- The number `segments` of line 326 (and of line 185). The argument of `static_cast<int>`
is the product of the `int` 180, converted to `float`, and two `float` values, evaluated from
the left with each product rounded to `float`. -/
def endPointSegments (style : LineStyle F) : Int :=
  staticCastInt (toFloat (toFloat (180 * style.width) * LINE_ENDPOINT_TESSELATION_FACTOR))

/-- The angle `segmentDeltaAngle` of line 328: `180 / segments` is a division of two `int`
values, converted to `float` afterwards. -/
def endPointSegmentDeltaAngle (segments : Int) : F :=
  ((Int.tdiv 180 segments : Int) : F)

/-- The indices of the cap at the last position (lines 353-357). -/
def lastEndPointIndices (vertexIndex segments : Nat) : List Nat :=
  (List.range segments).flatMap fun j =>
    [vertexIndex,
     if j = 0 then vertexIndex - 1 else vertexIndex + j,
     if j = segments - 1 then vertexIndex - 2 else vertexIndex + j + 1]

/-- The indices of the cap at the first position (lines 381-385). -/
def firstEndPointIndices (vertexIndex segments : Nat) : List Nat :=
  (List.range segments).flatMap fun j =>
    [vertexIndex,
     if j = 0 then 0 else vertexIndex + j,
     if j = segments - 1 then 1 else vertexIndex + j + 1]

/-- The cap at the last position (lines 332-358). -/
def lastEndPoint (m : CMath F) (poses : List (MapPos F)) (style : LineStyle F)
    (segments : Nat) (sin cos : F) (st : TessState F) : TessState F :=
  let n := st.lastLine.getNormalized m
  let rotVec := (MapVec.mk n.y (-n.x)).mulScalar (style.width / 2)
  let uvRotVec : MapVec F := ⟨-1, 0⟩
  let last := poses.length - 1
  let fan := rotations sin cos rotVec (segments - 1)
  let uvFan := rotations sin cos uvRotVec (segments - 1)
  { st with
    coords := st.coords ++ [last] ++ fan.map (fun _ => last)
    normals := st.normals ++ [⟨0, 0⟩] ++ fan.map MapVec.toVec2
    texCoords := st.texCoords ++ [⟨1 / 2, st.texCoordY⟩] ++
      uvFan.map (fun u => ⟨u.x * (1 / 2) + 1 / 2, st.texCoordY⟩)
    indices := st.indices ++ lastEndPointIndices st.vertexIndex segments
    vertexIndex := st.vertexIndex + segments }

/-- The cap at the first position (lines 360-386). -/
def firstEndPoint (m : CMath F) (style : LineStyle F)
    (segments : Nat) (sin cos : F) (st : TessState F) : TessState F :=
  let n := st.firstLine.getNormalized m
  let rotVec := (MapVec.mk (-n.y) n.x).mulScalar (style.width / 2)
  let uvRotVec : MapVec F := ⟨1, 0⟩
  let fan := rotations sin cos rotVec (segments - 1)
  let uvFan := rotations sin cos uvRotVec (segments - 1)
  { st with
    coords := st.coords ++ [0] ++ fan.map (fun _ => 0)
    normals := st.normals ++ [⟨0, 0⟩] ++ fan.map MapVec.toVec2
    texCoords := st.texCoords ++ [⟨1 / 2, 0⟩] ++
      uvFan.map (fun u => ⟨u.x * (1 / 2) + 1 / 2, 0⟩)
    indices := st.indices ++ firstEndPointIndices st.vertexIndex segments
    vertexIndex := st.vertexIndex + segments }

/-- The end caps (lines 324-389). -/
def lineEndPoints (m : CMath F) (poses : List (MapPos F)) (style : LineStyle F)
    (loopedLine : Bool) (st : TessState F) : TessState F :=
  if !loopedLine && decide (style.lineEndType = LineEndType.LINE_END_TYPE_ROUND) then
    let segments := endPointSegments style
    if segments > 0 then
      let segmentDeltaAngle : F := endPointSegmentDeltaAngle segments
      let sin := m.sin (segmentDeltaAngle * m.DEG_TO_RAD)
      let cos := m.cos (segmentDeltaAngle * m.DEG_TO_RAD)
      firstEndPoint m style segments.toNat sin cos
        (lastEndPoint m poses style segments.toNat sin cos st)
    else st
  else st

/-! ## The tessellator (lines 142-389) -/

/-- The test of line 143. -/
def isLoopedLine (poses : List (MapPos F)) : Bool :=
  decide (poses.head? = poses.getLast?) && decide (poses.length > 2)

/-- The state of the tessellation loop before its first iteration (lines 196-210). -/
def tessInit : TessState F :=
  { coords := [], normals := [], texCoords := [], indices := []
    firstLine := ⟨0, 0⟩, lastLine := ⟨0, 0⟩, prevPos := none, vertexIndex := 0, texCoordY := 0 }

/-- The state of the tessellation loop of lines 211-322 before the iteration at index `k`. -/
def tessLoop (m : CMath F) (poses : List (MapPos F)) (style : LineStyle F) (k : Nat) :
    TessState F :=
  (List.range k).foldl
    (tessLoopBody m poses style (isLoopedLine poses)
      (calcDeltaAngles m poses style (isLoopedLine poses)))
    tessInit

/-- The accumulated `coords`, `normals`, `texCoords` and `indices` of `init` before the
partitioner runs (lines 142-389). -/
def tessellate (m : CMath F) (poses : List (MapPos F)) (style : LineStyle F) : TessState F :=
  lineEndPoints m poses style (isLoopedLine poses) (tessLoop m poses style poses.length)

/-! ## Buffer partitioner (lines 391-447) -/

/-- An empty buffer, as pushed by lines 391-394 and 412-423. -/
def DrawBuffer.empty : DrawBuffer F :=
  { coords := [], normals := [], texCoords := [], indices := [] }

/-- The body of the loop of lines 427-440 for one index. -/
def remapIndex (coords : List Nat) (normals texCoords : List (Vec2 F)) (index : Nat)
    (st : PartState F) : Option (PartState F) :=
  match st.indexMap.lookup index with
  | none =>
    match coords[index]?, normals[index]?, texCoords[index]? with
    | some c, some nrm, some t =>
      let newIndex := st.cur.coords.length
      some { done := st.done
             cur := { coords := st.cur.coords ++ [c]
                      normals := st.cur.normals ++ [nrm]
                      texCoords := st.cur.texCoords ++ [t]
                      indices := st.cur.indices ++ [newIndex] }
             indexMap := (index, newIndex) :: st.indexMap }
    | _, _, _ => none
  | some mapped =>
    some { st with cur := { st.cur with indices := st.cur.indices ++ [mapped] } }

/-- The overflow check of lines 410-425. -/
def checkOverflow (maxBuf : Nat) (st : PartState F) : PartState F :=
  if st.cur.indices.length + 3 > maxBuf then
    { done := st.done ++ [st.cur], cur := DrawBuffer.empty, indexMap := [] }
  else st

/-- The loop of lines 407-441 over the indices that remain to be processed. -/
def splitLoop (maxBuf : Nat) (coords : List Nat) (normals texCoords : List (Vec2 F)) :
    List Nat → PartState F → Option (PartState F)
  | [], st => some st
  | i0 :: i1 :: i2 :: rest, st =>
    (remapIndex coords normals texCoords i0 (checkOverflow maxBuf st)).bind fun s0 =>
    (remapIndex coords normals texCoords i1 s0).bind fun s1 =>
    (remapIndex coords normals texCoords i2 s1).bind fun s2 =>
    splitLoop maxBuf coords normals texCoords rest s2
  | _, _ => none

/-- The buffer partitioner (lines 391-447); `maxBuf` is `GLUtils::MAX_VERTEXBUFFER_SIZE`. -/
def partitionBuffers (maxBuf : Nat) (coords : List Nat) (normals texCoords : List (Vec2 F))
    (indices : List Nat) : Option (List (DrawBuffer F)) :=
  if indices.length ≤ maxBuf then
    some [{ coords := coords, normals := normals, texCoords := texCoords, indices := indices }]
  else
    (splitLoop maxBuf coords normals texCoords indices
      { done := [], cur := DrawBuffer.empty, indexMap := [] }).map fun st =>
      st.done ++ [st.cur]

/-- The function `LineDrawData::init` (lines 133-448): the output buffers for the
preprocessed positions `poses`. -/
def init (m : CMath F) (maxBuf : Nat) (poses : List (MapPos F)) (style : LineStyle F) :
    Option (List (DrawBuffer F)) :=
  if poses.length < 2 then some []
  else
    let t := tessellate m poses style
    partitionBuffers maxBuf t.coords t.normals t.texCoords t.indices

/-! ## Constructors, click scale and offset (lines 19-70 and 126-131) -/

/-- The members of a `LineDrawData` that the functions below write: `_clickScale`, `_poses`,
the parallel vectors `_coords`, `_normals`, `_texCoords`, `_indices` (one `DrawBuffer` per
position) and the flag set by `setIsOffset` of the base class `VectorElementDrawData`. The
colour and the bitmap are copies of style values and are left out; the bitmap height that
`init` reads is `LineStyle.bitmapHeight`. -/
structure DrawData (F : Type) where
  clickScale : F
  poses : List (MapPos F)
  buffers : List (DrawBuffer F)
  isOffset : Bool

/-- The constant `LineDrawData::CLICK_WIDTH_COEF = 0.5f` (line 453). -/
def CLICK_WIDTH_COEF : F := 1 / 2

/-- The expression `std::max(1.0f, 1 + (IDEAL_CLICK_WIDTH - style.getWidth()) *
CLICK_WIDTH_COEF / style.getWidth())` of lines 22 and 46. The constant `IDEAL_CLICK_WIDTH`
is declared in `LineDrawData.h`, which is not part of the sources, and is a parameter. -/
def calcClickScale (IDEAL_CLICK_WIDTH : F) (style : LineStyle F) : F :=
  max 1 (1 + (IDEAL_CLICK_WIDTH - style.width) * CLICK_WIDTH_COEF / style.width)

/-- The initialiser of `_clickScale` in the constructor from a `LineGeometry` (line 22). -/
def lineClickScale (IDEAL_CLICK_WIDTH : F) (style : LineStyle F) : F :=
  if style.clickWidth = -1 then calcClickScale IDEAL_CLICK_WIDTH style else style.clickWidth

/-- The initialiser of `_clickScale` in the constructor from a `PolygonGeometry`
(line 46). -/
def polygonClickScale (IDEAL_CLICK_WIDTH : F) (style : LineStyle F) : F :=
  calcClickScale IDEAL_CLICK_WIDTH style

/-- One iteration of the loops of lines 32-37 and 55-60: the position at index `i`, mapped
by `toInternal`, is pushed unless it equals the back of `_poses`. For the loop of lines 55-60,
which does not project, `toInternal` is the identity. -/
def removeDuplicatesBody (toInternal : MapPos F → MapPos F) (poses : List (MapPos F))
    (acc : List (MapPos F)) (i : Nat) : List (MapPos F) :=
  let pos := toInternal (poses.getD i ⟨0, 0⟩)
  if i = 0 ∨ acc.getLast? ≠ some pos then acc ++ [pos] else acc

/-- The vector `_poses` before the iteration at index `k` of the loops of lines 32-37 and
55-60. -/
def removeDuplicatesLoop (toInternal : MapPos F → MapPos F) (poses : List (MapPos F))
    (k : Nat) : List (MapPos F) :=
  (List.range k).foldl (removeDuplicatesBody toInternal poses) []

/-- The vector `_poses` built by the constructor from a `LineGeometry` (lines 29-37);
`toInternal` is `projection.toInternal`. -/
def linePoses (toInternal : MapPos F → MapPos F) (poses : List (MapPos F)) :
    List (MapPos F) :=
  removeDuplicatesLoop toInternal poses poses.length

/-- The vector `_poses` built by the constructor from a `PolygonGeometry` (lines 53-66). -/
def polygonPoses (internalPoses : List (MapPos F)) : List (MapPos F) :=
  let poses := removeDuplicatesLoop (fun p => p) internalPoses internalPoses.length
  match internalPoses.head? with
  | none => poses
  | some pos => if poses.getLast? ≠ some pos then poses ++ [pos] else poses

/-- The constructor `LineDrawData(const LineGeometry&, const LineStyle&, const Projection&)`
(lines 19-41). -/
def ofLineGeometry (m : CMath F) (maxBuf : Nat) (IDEAL_CLICK_WIDTH : F)
    (toInternal : MapPos F → MapPos F) (poses : List (MapPos F)) (style : LineStyle F) :
    Option (DrawData F) :=
  (init m maxBuf (linePoses toInternal poses) style).map fun buffers =>
    { clickScale := lineClickScale IDEAL_CLICK_WIDTH style
      poses := linePoses toInternal poses
      buffers := buffers
      isOffset := false }

/-- The constructor `LineDrawData(const PolygonGeometry&, const std::vector<MapPos>&,
const LineStyle&, const Projection&)` (lines 43-70). -/
def ofPolygonGeometry (m : CMath F) (maxBuf : Nat) (IDEAL_CLICK_WIDTH : F)
    (internalPoses : List (MapPos F)) (style : LineStyle F) : Option (DrawData F) :=
  (init m maxBuf (polygonPoses internalPoses) style).map fun buffers =>
    { clickScale := polygonClickScale IDEAL_CLICK_WIDTH style
      poses := polygonPoses internalPoses
      buffers := buffers
      isOffset := false }

/-- The accessor `LineDrawData::getClickScale` (lines 106-108). -/
def getClickScale (d : DrawData F) : F :=
  d.clickScale

/-- The function `LineDrawData::offsetHorizontally` (lines 126-131). -/
def offsetHorizontally (offset : F) (d : DrawData F) : DrawData F :=
  { d with
    poses := d.poses.map fun pos => { pos with x := pos.x + offset }
    isOffset := true }

/-! ## Copy constructor (lines 72-97) -/

/-- The local variables of the inner loop of the copy constructor (lines 87-94): `prevPos`
(`none` is `nullptr`), `index`, and the vector `_coords.back()` built so far. -/
structure CopyState where
  prevPos : Option Nat
  index : Int
  coords : List Nat

/-- One iteration of the loop of lines 89-95 for the source pointer `pos`. Two pointers into
the `_poses` of the source are equal exactly when they are the same index. The first
iteration always increments `index` (no pointer into `_poses` is null), so `index` is never
negative when `&_poses[index]` is pushed and `Int.toNat` is exact. -/
def copyCoordsBody (st : CopyState) (pos : Nat) : CopyState :=
  let changed : Bool := decide (some pos ≠ st.prevPos)
  let prevPos := if changed then some pos else st.prevPos
  let index := if changed then st.index + 1 else st.index
  { prevPos := prevPos, index := index, coords := st.coords ++ [index.toNat] }

/-- The vector pushed to `_coords` by the copy constructor for one vector `coords` of the
source (lines 85-95). -/
def copyCoords (coords : List Nat) : List Nat :=
  (coords.foldl copyCoordsBody { prevPos := none, index := -1, coords := [] }).coords

/-- The copy constructor `LineDrawData(const LineDrawData&)` (lines 72-97). The base class is
constructed afresh from the colour of the source, so the offset flag is the one of a new
object. -/
def copy (d : DrawData F) : DrawData F :=
  { clickScale := d.clickScale
    poses := d.poses
    buffers := d.buffers.map fun b =>
      { coords := copyCoords b.coords, normals := b.normals, texCoords := b.texCoords,
        indices := b.indices }
    isOffset := false }

/-! ## Specification-side definitions -/

/-- The (origin position, normal, texture coordinate) triple that index `k` denotes in the
vertex arrays `coords`, `normals`, `texCoords`; `none` when `k` is out of range. -/
def resolveIndex (coords : List Nat) (normals texCoords : List (Vec2 F)) (k : Nat) :
    Option (Nat × Vec2 F × Vec2 F) :=
  match coords[k]?, normals[k]?, texCoords[k]? with
  | some c, some nrm, some t => some (c, nrm, t)
  | _, _, _ => none

/-- The sequence of triples denoted by an index list. -/
def resolveIndices (coords : List Nat) (normals texCoords : List (Vec2 F))
    (indices : List Nat) : List (Option (Nat × Vec2 F × Vec2 F)) :=
  indices.map (resolveIndex coords normals texCoords)

/-- The sequence of triples drawn by a buffer: its index list resolved through its own
vertex arrays. -/
def DrawBuffer.resolve (b : DrawBuffer F) : List (Option (Nat × Vec2 F × Vec2 F)) :=
  resolveIndices b.coords b.normals b.texCoords b.indices

/-- The invariant of the splitting loop: the vertex arrays of the current buffer have one
length, every index of the current buffer is in range, and `indexMap` sends an original
index to a vertex of the current buffer that carries the same data. -/
def PartInv (coords : List Nat) (normals texCoords : List (Vec2 F)) (st : PartState F) : Prop :=
  st.cur.normals.length = st.cur.coords.length ∧
  st.cur.texCoords.length = st.cur.coords.length ∧
  (∀ v ∈ st.cur.indices, v < st.cur.coords.length) ∧
  (∀ k v, st.indexMap.lookup k = some v →
    v < st.cur.coords.length ∧ st.cur.coords[v]? = coords[k]? ∧
    st.cur.normals[v]? = normals[k]? ∧ st.cur.texCoords[v]? = texCoords[k]?)

/-- Well-formedness of the accumulated lists: the three vertex arrays have `vertexIndex`
entries each and the index list consists of whole triangles. -/
def TessWF (st : TessState F) : Prop :=
  st.coords.length = st.vertexIndex ∧ st.normals.length = st.vertexIndex ∧
  st.texCoords.length = st.vertexIndex ∧ st.indices.length % 3 = 0

/-- The number of wedges of the joint emitted by the iteration at position index `i`
(the tests of lines 264 and 273 with the `segments` of lines 267-272); zero when the
iteration emits no joint. -/
def jointWedges (poses : List (MapPos F)) (style : LineStyle F) (loopedLine : Bool)
    (deltaAngles : List F) (i : Nat) : Nat :=
  if (decide (i + 1 < poses.length) || loopedLine) &&
      decide (style.lineJointType ≠ LineJointType.LINE_JOINT_TYPE_NONE) then
    (jointSegments style (deltaAngles.getD (i - 1) 0)).toNat
  else 0

/-- The heading of the segment that leaves position `i`, "atan2(d.y, d.x) in degrees, minus
90"; at the last position of a loop the segment that leaves is the first segment. -/
def heading (m : CMath F) (poses : List (MapPos F)) (i : Nat) : F :=
  calcNextAngle m (poses.getD i ⟨0, 0⟩)
    (if i + 1 < poses.length then poses.getD (i + 1) ⟨0, 0⟩ else poses.getD 1 ⟨0, 0⟩)

/-- The turn angle at position `i`, "normalize(heading[i] - heading[i-1])". -/
def turnAngle (m : CMath F) (poses : List (MapPos F)) (i : Nat) : F :=
  calcDeltaAngle (heading m poses i) (heading m poses (i - 1))

/-- The rim of the fan of a joint with centre vertex `c` and `s` wedges, following the spec:
it starts at the end vertex of the incoming quad `c-4 .. c-1` (local vertex 2 for a turn
angle `≤ 0`, local vertex 3 otherwise), runs through the fan vertices `c+1 .. c+s-1`, and
ends at the start vertex on the same side of the outgoing quad, whose first vertex is `out`
(local vertex 0 for a turn angle `≤ 0`, local vertex 1 otherwise). -/
def jointRim (c s out : Nat) (leftTurn : Bool) (k : Nat) : Nat :=
  if k = 0 then (c - 4) + (if leftTurn then 2 else 3)
  else if k < s then c + k
  else out + (if leftTurn then 0 else 1)

/-- The triangles of a fan around `c` along the rim `rim`: wedge `j` joins the centre with
the rim vertices `j` and `j + 1`, listed in the winding order of the turn direction. -/
def fanTriangles (c s : Nat) (leftTurn : Bool) (rim : Nat → Nat) : List Nat :=
  (List.range s).flatMap fun j =>
    if leftTurn then [c, rim (j + 1), rim j] else [c, rim j, rim (j + 1)]

/-- The accumulated lists of `b` are those of `a` with further entries appended. -/
def TessExtends (a b : TessState F) : Prop :=
  (∃ cs, b.coords = a.coords ++ cs) ∧ (∃ ns, b.normals = a.normals ++ ns) ∧
  (∃ ts, b.texCoords = a.texCoords ++ ts) ∧ (∃ js, b.indices = a.indices ++ js)

/-- The sequence `l` with every element that equals its immediate predecessor `prev`
removed, "collapsing any position equal to its immediate predecessor". -/
def dropRepeatsAfter {α : Type} [DecidableEq α] (prev : α) : List α → List α
  | [] => []
  | b :: l => if b = prev then dropRepeatsAfter b l else b :: dropRepeatsAfter b l

/-- The sequence with every element that equals its immediate predecessor removed; the
first element has no predecessor and is kept. -/
def dropRepeats {α : Type} [DecidableEq α] : List α → List α
  | [] => []
  | a :: l => a :: dropRepeatsAfter a l

/-- The sequence spelled out by a list of runs: each pair `(a, k)` stands for `k + 1`
consecutive copies of `a`. -/
def expandRuns {α : Type} (runs : List (α × Nat)) : List α :=
  runs.flatMap fun r => List.replicate (r.2 + 1) r.1

/-- The buffer `b` holds the original indices `chunk`, remapped: vertex `v` of `b` is a copy
of the original vertex `origs[v]`, no original vertex is copied twice, exactly the original
vertices that occur in `chunk` are copied, and the index list of `b` is `chunk` with every
original index replaced by the position of its copy. -/
def Remapped (coords : List Nat) (normals texCoords : List (Vec2 F)) (chunk origs : List Nat)
    (b : DrawBuffer F) : Prop :=
  origs.Nodup ∧ (∀ x, x ∈ origs ↔ x ∈ chunk) ∧
  b.coords.length = origs.length ∧ b.normals.length = origs.length ∧
  b.texCoords.length = origs.length ∧
  (∀ v x : Nat, origs[v]? = some x →
    b.coords[v]? = coords[x]? ∧ b.normals[v]? = normals[x]? ∧
    b.texCoords[v]? = texCoords[x]?) ∧
  b.indices.map (fun v => origs[v]?) = chunk.map some

/-- The invariant of the splitting loop that describes `indexMap`: the current buffer holds
the remapped original indices `chunk`, and `indexMap` sends an original index to the
position of its copy. -/
def RemapInv (coords : List Nat) (normals texCoords : List (Vec2 F)) (chunk : List Nat)
    (st : PartState F) : Prop :=
  ∃ origs, Remapped coords normals texCoords chunk origs st.cur ∧
    ∀ k v : Nat, st.indexMap.lookup k = some v ↔ origs[v]? = some k

/-- The Euclidean distance of two positions. -/
def distance (m : CMath F) (a b : MapPos F) : F :=
  m.sqrt ((b.x - a.x) * (b.x - a.x) + (b.y - a.y) * (b.y - a.y))

/-- The length of segment `k`, the distance from position `k - 1` to position `k`, as a
`float`. -/
def segmentLength (m : CMath F) (poses : List (MapPos F)) (k : Nat) : F :=
  toFloat (distance m (poses.getD (k - 1) ⟨0, 0⟩) (poses.getD k ⟨0, 0⟩))

/-- The quantity `S(k)` of the spec: "the sum of the lengths of segments 1..k divided by
(stretchFactor * bitmapHeight)", with `S(0) = 0`. -/
def texS (m : CMath F) (poses : List (MapPos F)) (style : LineStyle F) (k : Nat) : F :=
  ((List.range k).map (fun j => segmentLength m poses (j + 1))).sum /
    (style.stretchFactor * (style.bitmapHeight : F))

/-- The start index of run `j` in the sequence spelled out by `runs`: the total length of
the runs before it. -/
def runStart {α : Type} (runs : List (α × Nat)) (j : Nat) : Nat :=
  ((runs.take j).map (fun r => r.2 + 1)).sum

/-! ## Sample inputs -/

/-- A sample position sequence with repeated positions,
`[(0,0), (0,0), (10,0), (10,0), (10,10)]`. -/
def sampleRepeats : List (MapPos ℚ) := [⟨0, 0⟩, ⟨0, 0⟩, ⟨10, 0⟩, ⟨10, 0⟩, ⟨10, 10⟩]



/-- A sample interpretation of the `<cmath>` parameters over `ℚ`, with angles measured in
degrees throughout (so both conversion constants are 1). It is exact on the directions of the
coordinate axes and on right angles, which is all that the axis-parallel sample polylines
below exercise. -/
def axisMath : CMath ℚ :=
  { atan2 := fun y x =>
      if y = 0 then (if 0 ≤ x then 0 else 180) else if 0 < y then 90 else -90
    sin := fun a => if a = 90 then 1 else if a = -90 then -1 else 0
    cos := fun a => if a = 90 then 0 else if a = -90 then 0 else if a = 180 then -1 else 1
    sqrt := fun v => (Nat.sqrt v.num.toNat : ℚ) / (Nat.sqrt v.den : ℚ)
    RAD_TO_DEG := 1
    DEG_TO_RAD := 1 }

/-- A sample style: the given width, joint kind and end-cap kind, stretch factor 1, a bitmap
of height 1 and no click-width override. -/
def sampleStyle (width : ℚ) (joint : LineJointType) (cap : LineEndType) : LineStyle ℚ :=
  { width := width, lineJointType := joint, lineEndType := cap, stretchFactor := 1,
    bitmapHeight := 1, clickWidth := -1 }

/-- The two-point line `[(0,0), (5,0)]` of the spec's cap scenario. -/
def sampleLine : List (MapPos ℚ) := [⟨0, 0⟩, ⟨5, 0⟩]

/-- The three-point polyline `[(0,0), (10,0), (10,10)]` of the spec's bevel scenario. -/
def sampleCorner : List (MapPos ℚ) := [⟨0, 0⟩, ⟨10, 0⟩, ⟨10, 10⟩]

/-- The closed square `[(0,0), (10,0), (10,10), (0,10), (0,0)]`. -/
def sampleLoop : List (MapPos ℚ) := [⟨0, 0⟩, ⟨10, 0⟩, ⟨10, 10⟩, ⟨0, 10⟩, ⟨0, 0⟩]

/-- The open polyline `[(0,0), (1,0), (-1,0)]`, which reverses its direction at its interior
vertex. -/
def sampleReversal : List (MapPos ℚ) := [⟨0, 0⟩, ⟨1, 0⟩, ⟨-1, 0⟩]

/-- Two distinct positions at the distance `2^-160`, `[(0,0), (2^-160, 0)]`. -/
def sampleTiny : List (MapPos ℚ) := [⟨0, 0⟩, ⟨1 / 2 ^ 160, 0⟩]

end Defs

end LineDrawData

/-! # TorqueFeatureIterator: iteration over runs of equal values

A shallow embedding of the class `TorqueFeatureDecoder::TorqueFeatureIterator` of
`src/libs/mapnikvt/src/mapnikvt/TorqueFeatureDecoder.cpp`. The member `_elements` is a
parameter of every function; the values compared by `!=` are elements of a type with
decidable equality (no NaN). -/

namespace TorqueFeatureIterator

/-- Modelled from the spec: the struct `TorqueFeatureDecoder::Element` is declared in
`TorqueFeatureDecoder.h`, which is not part of the sources; its members are those written by
`emplace_back(x, y, value)` (line 134) and read by the iterator. -/
structure Element (V : Type) where
  x : Int
  y : Int
  value : V

/-- The members `_index0` and `_index1` of the iterator (lines 64-65). -/
structure State where
  index0 : Nat
  index1 : Nat
deriving DecidableEq

/-- The loop `while (++_index1 < _elements.size()) { if (_elements[_index0].value !=
_elements[_index1].value) break; }` of lines 13-17 and 26-30, entered with
`_index1 = index1`: the value of `_index1` when the loop is left. -/
def scan {V : Type} [DecidableEq V] (elements : List (Element V)) (index0 index1 : Nat) : Nat :=
  if index1 + 1 < elements.length then
    if (elements[index0]?).map Element.value ≠ (elements[index1 + 1]?).map Element.value then
      index1 + 1
    else scan elements index0 (index1 + 1)
  else index1 + 1
termination_by elements.length - index1

/-- The constructor of the iterator (lines 12-18), from `_index0 = 0` and `_index1 = 0`. -/
def construct {V : Type} [DecidableEq V] (elements : List (Element V)) : State :=
  { index0 := 0, index1 := scan elements 0 0 }

/-- The function `valid` (lines 20-22). -/
def valid {V : Type} (elements : List (Element V)) (st : State) : Bool :=
  decide (st.index0 < elements.length)

/-- The function `advance` (lines 24-31). -/
def advance {V : Type} [DecidableEq V] (elements : List (Element V)) (st : State) : State :=
  { index0 := st.index1, index1 := scan elements st.index1 st.index1 }

/-- The indices `i` of the elements read by the loop of `getGeometry` (lines 54-60),
`for (i = _index0; i < _index1; i++)`. -/
def getGeometryIndices (st : State) : List Nat :=
  List.range' st.index0 (st.index1 - st.index0)

/-- The state of the iterator after construction and `j` calls of `advance`. -/
def stateAfter {V : Type} [DecidableEq V] (elements : List (Element V)) (j : Nat) : State :=
  (advance elements)^[j] (construct elements)

end TorqueFeatureIterator

namespace LineDrawData

/-! ## Lemmas on the rounding to `float` -/

section FloatLemmas

set_option linter.unusedSectionVars false

variable {F : Type} [LinearOrderedField F] [FloorRing F]

theorem log_two_eq (r : F) (e : Int) (h1 : (2 : F) ^ e ≤ r) (h2 : r < (2 : F) ^ (e + 1)) :
    Int.log 2 r = e := by
  have hr : 0 < r := lt_of_lt_of_le (zpow_pos (by norm_num) e) h1
  have a : e ≤ Int.log 2 r := by
    rw [← Int.zpow_le_iff_le_log (by norm_num) hr]
    simpa using h1
  have b : Int.log 2 r < e + 1 := by
    rw [← Int.lt_zpow_iff_log_lt (by norm_num) hr]
    simpa using h2
  omega

theorem roundHalfEven_nonneg (v : F) (hv : 0 ≤ v) : 0 ≤ roundHalfEven v := by
  have h := Int.floor_nonneg.mpr hv
  unfold roundHalfEven
  split_ifs <;> omega

theorem toFloat_nonneg (v : F) (hv : 0 ≤ v) : 0 ≤ toFloat v := by
  unfold toFloat
  have hp : (0 : F) < 2 ^ floatUlpExponent v := zpow_pos (by norm_num) _
  have h := roundHalfEven_nonneg (v / 2 ^ floatUlpExponent v) (div_nonneg hv (le_of_lt hp))
  exact mul_nonneg (by exact_mod_cast h) (le_of_lt hp)

theorem roundHalfEven_down (v : F) (n : Int) (h1 : (n : F) ≤ v) (h2 : 2 * (v - n) < 1) :
    roundHalfEven v = n := by
  have hf : Int.floor v = n := by
    rw [Int.floor_eq_iff]
    constructor
    · exact h1
    · linarith
  unfold roundHalfEven
  rw [hf, if_pos h2]

theorem roundHalfEven_up (v : F) (n : Int) (h1 : v < (n : F) + 1) (h2 : 1 < 2 * (v - n)) :
    roundHalfEven v = n + 1 := by
  have hf : Int.floor v = n := by
    rw [Int.floor_eq_iff]
    constructor
    · linarith
    · exact h1
  unfold roundHalfEven
  rw [hf, if_neg (by linarith), if_neg (by intro h; linarith [h.1])]

theorem toFloat_eq (v : F) (e k : Int) (h1 : (2 : F) ^ e ≤ v) (h2 : v < (2 : F) ^ (e + 1))
    (he : -126 ≤ e) (hk : roundHalfEven (v / 2 ^ (e - 23)) = k) :
    toFloat v = (k : F) * 2 ^ (e - 23) := by
  have hv : 0 < v := lt_of_lt_of_le (zpow_pos (by norm_num) e) h1
  have hu : floatUlpExponent v = e - 23 := by
    unfold floatUlpExponent
    rw [abs_of_pos hv, log_two_eq v e h1 h2, max_eq_left he]
  unfold toFloat
  rw [hu, hk]

theorem toFloat_subnormal (v : F) (k : Int) (h1 : 0 < v) (h2 : v < (2 : F) ^ (-126 : Int))
    (hk : roundHalfEven (v / 2 ^ (-149 : Int)) = k) :
    toFloat v = (k : F) * 2 ^ (-149 : Int) := by
  have hu : floatUlpExponent v = -149 := by
    unfold floatUlpExponent
    rw [abs_of_pos h1]
    have hl : Int.log 2 v ≤ -126 := by
      by_contra hc
      have h4 := Int.zpow_log_le_self (R := F) (b := 2) (by norm_num) h1
      have h5 : ((2 : ℕ) : F) ^ (-126 : Int) ≤ ((2 : ℕ) : F) ^ Int.log 2 v :=
        zpow_le_zpow_right₀ (by norm_num) (by omega)
      have h6 : ((2 : ℕ) : F) = 2 := by norm_num
      rw [h6] at h4 h5
      linarith
    rw [max_eq_right hl]
    rfl
  unfold toFloat
  rw [hu, hk]

theorem endpoint_factor_eq : (LINE_ENDPOINT_TESSELATION_FACTOR : F) = 8589935 / 2 ^ 31 := by
  unfold LINE_ENDPOINT_TESSELATION_FACTOR
  rw [toFloat_eq (4 / 1000 : F) (-8) 8589935 (by norm_num) (by norm_num) (by norm_num)
    (roundHalfEven_up _ 8589934 (by norm_num) (by norm_num))]
  norm_num

theorem joint_factor_eq : (LINE_JOINT_TESSELATION_FACTOR : F) = 15461882 / 2 ^ 33 := by
  unfold LINE_JOINT_TESSELATION_FACTOR
  rw [toFloat_eq (18 / 10000 : F) (-10) 15461882 (by norm_num) (by norm_num) (by norm_num)
    (roundHalfEven_down _ 15461882 (by norm_num) (by norm_num))]
  norm_num

theorem endPointSegments_eval (style : LineStyle F) (a b : F) (s : Int)
    (h1 : toFloat (180 * style.width) = a) (h2 : toFloat (a * (8589935 / 2 ^ 31)) = b)
    (h3 : (s : F) ≤ b) (h4 : b < (s : F) + 1) (h5 : 0 ≤ b) : endPointSegments style = s := by
  unfold endPointSegments staticCastInt
  rw [endpoint_factor_eq, h1, h2, if_pos h5, Int.floor_eq_iff]
  exact ⟨h3, h4⟩

theorem jointSegments_round_eval (style : LineStyle F) (deltaAngle a b : F) (s : Int)
    (hk : style.lineJointType = LineJointType.LINE_JOINT_TYPE_ROUND)
    (h1 : toFloat (|deltaAngle| * style.width) = a)
    (h2 : toFloat (a * (15461882 / 2 ^ 33)) = b)
    (h3 : (s : F) - 1 < b) (h4 : b ≤ (s : F)) : jointSegments style deltaAngle = s := by
  unfold jointSegments
  rw [if_neg (by rw [hk]; decide), joint_factor_eq, h1, h2, Int.ceil_eq_iff]
  exact ⟨h3, h4⟩

theorem toFloat_360 : toFloat (180 * 2 : F) = 360 := by
  rw [toFloat_eq (180 * 2 : F) 8 11796480 (by norm_num) (by norm_num) (by norm_num)
    (roundHalfEven_down _ 11796480 (by norm_num) (by norm_num))]
  norm_num

theorem toFloat_360_factor : toFloat ((360 : F) * (8589935 / 2 ^ 31)) = 3019899 / 2 ^ 21 := by
  rw [toFloat_eq ((360 : F) * (8589935 / 2 ^ 31)) 0 12079596 (by norm_num) (by norm_num)
    (by norm_num) (roundHalfEven_down _ 12079596 (by norm_num) (by norm_num))]
  norm_num

theorem endPointSegments_width_two (style : LineStyle F) (hw : style.width = 2) :
    endPointSegments style = 1 :=
  endPointSegments_eval style 360 (3019899 / 2 ^ 21) 1 (by rw [hw]; exact toFloat_360)
    toFloat_360_factor (by norm_num) (by norm_num) (by norm_num)

end FloatLemmas

/-! ## Lemmas on the buffer partitioner -/

section PartitionLemmas

variable {F : Type}

theorem getElem?_exists {α : Type} (l : List α) (i : Nat) (h : i < l.length) :
    ∃ a, l[i]? = some a :=
  ⟨l[i], List.getElem?_eq_getElem h⟩

theorem resolveIndex_congr (cs cs2 : List Nat) (ns ns2 ts ts2 : List (Vec2 F)) (v k : Nat)
    (hc : cs2[v]? = cs[k]?) (hn : ns2[v]? = ns[k]?) (ht : ts2[v]? = ts[k]?) :
    resolveIndex cs2 ns2 ts2 v = resolveIndex cs ns ts k := by
  unfold resolveIndex
  rw [hc, hn, ht]

theorem resolveIndices_snoc (cs : List Nat) (ns ts : List (Vec2 F)) (c : Nat) (nrm t : Vec2 F)
    (l : List Nat) (hn : ns.length = cs.length) (ht : ts.length = cs.length)
    (hl : ∀ v ∈ l, v < cs.length) :
    resolveIndices (cs ++ [c]) (ns ++ [nrm]) (ts ++ [t]) l = resolveIndices cs ns ts l := by
  unfold resolveIndices
  apply List.map_congr_left
  intro v hv
  have h := hl v hv
  apply resolveIndex_congr
  · exact List.getElem?_append_left h
  · exact List.getElem?_append_left (by omega)
  · exact List.getElem?_append_left (by omega)

theorem remapIndex_spec (coords : List Nat) (normals texCoords : List (Vec2 F)) (index : Nat)
    (st : PartState F) (hn : normals.length = coords.length)
    (ht : texCoords.length = coords.length) (hi : index < coords.length)
    (hinv : PartInv coords normals texCoords st) :
    ∃ st2, remapIndex coords normals texCoords index st = some st2 ∧
      PartInv coords normals texCoords st2 ∧ st2.done = st.done ∧
      st2.cur.indices.length = st.cur.indices.length + 1 ∧
      st2.cur.resolve = st.cur.resolve ++ [resolveIndex coords normals texCoords index] := by
  obtain ⟨h1, h2, h3, h4⟩ := hinv
  unfold remapIndex
  cases hlk : st.indexMap.lookup index with
  | none =>
    obtain ⟨cv, hc⟩ := getElem?_exists coords index hi
    obtain ⟨nv, hnn⟩ := getElem?_exists normals index (by omega)
    obtain ⟨tv, htt⟩ := getElem?_exists texCoords index (by omega)
    simp only [hc, hnn, htt]
    refine ⟨_, rfl, ⟨?_, ?_, ?_, ?_⟩, rfl, ?_, ?_⟩
    · simp [h1]
    · simp [h2]
    · intro v hv
      simp only [List.mem_append, List.mem_singleton] at hv
      simp only [List.length_append, List.length_singleton]
      rcases hv with hv | hv
      · have := h3 v hv; omega
      · omega
    · intro k v hkv
      simp only [List.lookup_cons] at hkv
      simp only [List.length_append, List.length_singleton]
      by_cases hk : k = index
      · subst hk
        simp only [beq_self_eq_true] at hkv
        have hv : v = st.cur.coords.length := by injection hkv with h; exact h.symm
        subst hv
        refine ⟨by omega, ?_, ?_, ?_⟩
        · rw [hc]; simp
        · rw [hnn, ← h1]; simp
        · rw [htt, ← h2]; simp
      · have hne : (k == index) = false := by simpa using hk
        rw [hne] at hkv
        obtain ⟨a, b, c, d⟩ := h4 k v hkv
        refine ⟨by omega, ?_, ?_, ?_⟩
        · rw [← b]; exact List.getElem?_append_left a
        · rw [← c]; exact List.getElem?_append_left (by omega)
        · rw [← d]; exact List.getElem?_append_left (by omega)
    · simp
    · simp only [DrawBuffer.resolve]
      unfold resolveIndices
      rw [List.map_append]
      congr 1
      · exact resolveIndices_snoc _ _ _ _ _ _ _ h1 h2 h3
      · simp only [List.map_cons, List.map_nil, List.cons.injEq, and_true]
        apply resolveIndex_congr
        · rw [hc]; simp
        · rw [hnn, ← h1]; simp
        · rw [htt, ← h2]; simp
  | some v =>
    obtain ⟨a, b, c, d⟩ := h4 index v hlk
    refine ⟨_, rfl, ⟨h1, h2, ?_, h4⟩, rfl, ?_, ?_⟩
    · intro w hw
      simp only [List.mem_append, List.mem_singleton] at hw
      rcases hw with hw | hw
      · exact h3 w hw
      · rw [hw]; exact a
    · simp
    · simp only [DrawBuffer.resolve]
      unfold resolveIndices
      rw [List.map_append]
      congr 1
      simp only [List.map_cons, List.map_nil, List.cons.injEq, and_true]
      exact resolveIndex_congr _ _ _ _ _ _ _ _ b c d

theorem partInv_empty (coords : List Nat) (normals texCoords : List (Vec2 F))
    (done : List (DrawBuffer F)) :
    PartInv coords normals texCoords
      { done := done, cur := DrawBuffer.empty, indexMap := [] } := by
  refine ⟨rfl, rfl, ?_, ?_⟩
  · intro v hv; simp [DrawBuffer.empty] at hv
  · intro k v hkv; simp at hkv

theorem checkOverflow_spec (maxBuf : Nat) (coords : List Nat)
    (normals texCoords : List (Vec2 F)) (st : PartState F)
    (hinv : PartInv coords normals texCoords st)
    (h3 : st.cur.indices.length % 3 = 0) (hle : 3 ≤ maxBuf → st.cur.indices.length ≤ maxBuf) :
    PartInv coords normals texCoords (checkOverflow maxBuf st) ∧
    (checkOverflow maxBuf st).cur.indices.length % 3 = 0 ∧
    (3 ≤ maxBuf → (checkOverflow maxBuf st).cur.indices.length + 3 ≤ maxBuf) ∧
    ∃ mid, (checkOverflow maxBuf st).done = st.done ++ mid ∧
      (∀ b ∈ mid, b.indices.length % 3 = 0 ∧ (3 ≤ maxBuf → b.indices.length ≤ maxBuf)) ∧
      (mid.map (fun b => b.indices.length)).sum +
        (checkOverflow maxBuf st).cur.indices.length = st.cur.indices.length ∧
      mid.flatMap DrawBuffer.resolve ++ (checkOverflow maxBuf st).cur.resolve =
        st.cur.resolve := by
  unfold checkOverflow
  by_cases h : st.cur.indices.length + 3 > maxBuf
  · rw [if_pos h]
    refine ⟨partInv_empty _ _ _ _, by simp [DrawBuffer.empty],
      fun hmax => by simpa [DrawBuffer.empty] using hmax, [st.cur], rfl, ?_, ?_, ?_⟩
    · intro b hb
      simp only [List.mem_singleton] at hb
      subst hb
      exact ⟨h3, hle⟩
    · simp [DrawBuffer.empty]
    · simp [DrawBuffer.empty, DrawBuffer.resolve, resolveIndices]
  · rw [if_neg h]
    refine ⟨hinv, h3, fun _ => by omega, [], by simp, by simp, by simp, by simp⟩

theorem splitLoop_spec (maxBuf : Nat) (coords : List Nat)
    (normals texCoords : List (Vec2 F)) (hn : normals.length = coords.length)
    (ht : texCoords.length = coords.length) (k : Nat) :
    ∀ (indices : List Nat) (st : PartState F), indices.length = 3 * k →
      (∀ i ∈ indices, i < coords.length) → PartInv coords normals texCoords st →
      st.cur.indices.length % 3 = 0 → (3 ≤ maxBuf → st.cur.indices.length ≤ maxBuf) →
      ∃ st2, splitLoop maxBuf coords normals texCoords indices st = some st2 ∧
        PartInv coords normals texCoords st2 ∧
        st2.cur.indices.length % 3 = 0 ∧ (3 ≤ maxBuf → st2.cur.indices.length ≤ maxBuf) ∧
        ∃ mid, st2.done = st.done ++ mid ∧
          (∀ b ∈ mid, b.indices.length % 3 = 0 ∧ (3 ≤ maxBuf → b.indices.length ≤ maxBuf)) ∧
          (mid.map (fun b => b.indices.length)).sum + st2.cur.indices.length =
            st.cur.indices.length + indices.length ∧
          mid.flatMap DrawBuffer.resolve ++ st2.cur.resolve =
            st.cur.resolve ++ resolveIndices coords normals texCoords indices := by
  induction k with
  | zero =>
    intro indices st hlen _ hinv h3 hle
    have hnil : indices = [] := List.length_eq_zero.mp (by omega)
    subst hnil
    refine ⟨st, by simp [splitLoop], hinv, h3, hle, [], by simp, by simp, by simp, ?_⟩
    simp [resolveIndices]
  | succ k ih =>
    intro indices st hlen hval hinv h3 hle
    match indices, hlen, hval with
    | [], hlen, _ => simp at hlen
    | [_], hlen, _ => simp at hlen; omega
    | [_, _], hlen, _ => simp at hlen; omega
    | i0 :: i1 :: i2 :: rest, hlen, hval =>
      obtain ⟨c1, c2, c3, mid0, c4, c5, c6, c7⟩ :=
        checkOverflow_spec maxBuf coords normals texCoords st hinv h3 hle
      obtain ⟨s0, e0, inv0, d0, l0, r0⟩ :=
        remapIndex_spec coords normals texCoords i0 (checkOverflow maxBuf st) hn ht
          (hval i0 (by simp)) c1
      obtain ⟨s1, e1, inv1, d1, l1, r1⟩ :=
        remapIndex_spec coords normals texCoords i1 s0 hn ht (hval i1 (by simp)) inv0
      obtain ⟨s2, e2, inv2, d2, l2, r2⟩ :=
        remapIndex_spec coords normals texCoords i2 s1 hn ht (hval i2 (by simp)) inv1
      have hrest : rest.length = 3 * k := by
        simp only [List.length_cons] at hlen; omega
      obtain ⟨st2, e3, inv3, m3, le3, mid1, dd, bb, ss, rr⟩ :=
        ih rest s2 hrest (fun i hi => hval i (by simp [hi])) inv2 (by omega)
          (fun hmax => by have := c3 hmax; omega)
      refine ⟨st2, ?_, inv3, m3, le3, mid0 ++ mid1, ?_, ?_, ?_, ?_⟩
      · simp only [splitLoop, e0, e1, e2, Option.some_bind]
        exact e3
      · rw [dd, d2, d1, d0, c4, List.append_assoc]
      · intro b hb
        rcases List.mem_append.mp hb with hb | hb
        · exact c5 b hb
        · exact bb b hb
      · simp only [List.map_append, List.sum_append, List.length_cons]
        omega
      · rw [List.flatMap_append, List.append_assoc, rr, r2, r1, r0, ← c7]
        simp [resolveIndices]

theorem partitionBuffers_spec (maxBuf : Nat) (coords : List Nat)
    (normals texCoords : List (Vec2 F)) (indices : List Nat)
    (hn : normals.length = coords.length) (ht : texCoords.length = coords.length)
    (hval : ∀ i ∈ indices, i < coords.length) (h3 : indices.length % 3 = 0) :
    ∃ bufs, partitionBuffers maxBuf coords normals texCoords indices = some bufs ∧
      (∀ b ∈ bufs, b.indices.length % 3 = 0 ∧ (3 ≤ maxBuf → b.indices.length ≤ maxBuf)) ∧
      (bufs.map (fun b => b.indices.length)).sum = indices.length ∧
      bufs.flatMap DrawBuffer.resolve = resolveIndices coords normals texCoords indices := by
  unfold partitionBuffers
  by_cases h : indices.length ≤ maxBuf
  · rw [if_pos h]
    refine ⟨_, rfl, ?_, by simp, by simp [DrawBuffer.resolve]⟩
    intro b hb
    simp only [List.mem_singleton] at hb
    subst hb
    exact ⟨h3, fun _ => h⟩
  · rw [if_neg h]
    obtain ⟨st2, e, _, m3, le3, mid, dd, bb, ss, rr⟩ :=
      splitLoop_spec maxBuf coords normals texCoords hn ht (indices.length / 3) indices
        { done := [], cur := DrawBuffer.empty, indexMap := [] } (by omega) hval
        (partInv_empty _ _ _ _) (by simp [DrawBuffer.empty]) (by simp [DrawBuffer.empty])
    refine ⟨st2.done ++ [st2.cur], by simp [e], ?_, ?_, ?_⟩
    · intro b hb
      simp only [List.nil_append] at dd
      rcases List.mem_append.mp hb with hb | hb
      · exact bb b (dd ▸ hb)
      · simp only [List.mem_singleton] at hb
        subst hb
        exact ⟨m3, le3⟩
    · simp only [List.nil_append] at dd
      simp only [DrawBuffer.empty, List.length_nil, zero_add] at ss
      simp [dd, ss]
    · simp only [List.nil_append] at dd
      simp only [DrawBuffer.empty, DrawBuffer.resolve, resolveIndices, List.map_nil,
        List.nil_append] at rr
      simp only [dd, List.flatMap_append, List.flatMap_cons, List.flatMap_nil, List.append_nil]
      simpa [DrawBuffer.resolve, resolveIndices] using rr

theorem resolveIndices_isSome (coords : List Nat) (normals texCoords : List (Vec2 F))
    (indices : List Nat) (hn : normals.length = coords.length)
    (ht : texCoords.length = coords.length) (hval : ∀ i ∈ indices, i < coords.length) :
    ∀ r ∈ resolveIndices coords normals texCoords indices, r.isSome = true := by
  intro r hr
  unfold resolveIndices at hr
  obtain ⟨k, hk, rfl⟩ := List.mem_map.mp hr
  have h := hval k hk
  obtain ⟨cv, hc⟩ := getElem?_exists coords k h
  obtain ⟨nv, hnn⟩ := getElem?_exists normals k (by omega)
  obtain ⟨tv, htt⟩ := getElem?_exists texCoords k (by omega)
  simp [resolveIndex, hc, hnn, htt]

/-! ### The remap table -/

theorem remapped_empty (coords : List Nat) (normals texCoords : List (Vec2 F))
    (done : List (DrawBuffer F)) :
    RemapInv coords normals texCoords []
      { done := done, cur := DrawBuffer.empty, indexMap := [] } := by
  refine ⟨[], ⟨List.nodup_nil, by simp, rfl, rfl, rfl, ?_, rfl⟩, ?_⟩
  · intro v x h; simp at h
  · intro k v; simp

theorem remapped_index_lt {coords : List Nat} {normals texCoords : List (Vec2 F)}
    {chunk origs : List Nat} {b : DrawBuffer F}
    (h : Remapped coords normals texCoords chunk origs b) :
    ∀ v ∈ b.indices, v < origs.length := by
  intro v hv
  have hm : origs[v]? ∈ b.indices.map (fun v => origs[v]?) := List.mem_map_of_mem _ hv
  rw [h.2.2.2.2.2.2] at hm
  obtain ⟨x, _, hx⟩ := List.mem_map.mp hm
  by_contra hge
  rw [List.getElem?_eq_none (by omega)] at hx
  cases hx

theorem remapIndex_remap (coords : List Nat) (normals texCoords : List (Vec2 F)) (index : Nat)
    (chunk : List Nat) (st : PartState F) (hn : normals.length = coords.length)
    (ht : texCoords.length = coords.length) (hi : index < coords.length)
    (hinv : RemapInv coords normals texCoords chunk st) :
    ∃ st2, remapIndex coords normals texCoords index st = some st2 ∧
      RemapInv coords normals texCoords (chunk ++ [index]) st2 ∧ st2.done = st.done := by
  obtain ⟨origs, hR, hmap⟩ := hinv
  have hlt := remapped_index_lt hR
  obtain ⟨hnd, hmem, hc, hnl, htl, hdata, hidx⟩ := hR
  unfold remapIndex
  cases hlk : st.indexMap.lookup index with
  | none =>
    obtain ⟨cv, hcv⟩ := getElem?_exists coords index hi
    obtain ⟨nv, hnv⟩ := getElem?_exists normals index (by omega)
    obtain ⟨tv, htv⟩ := getElem?_exists texCoords index (by omega)
    simp only [hcv, hnv, htv]
    have hnot : index ∉ origs := by
      intro hin
      obtain ⟨v, hv⟩ := List.mem_iff_getElem?.mp hin
      have := (hmap index v).mpr hv
      rw [hlk] at this
      cases this
    have hget : ∀ v x, (origs ++ [index])[v]? = some x →
        (v < origs.length ∧ origs[v]? = some x) ∨ (v = origs.length ∧ x = index) := by
      intro v x hvx
      rw [List.getElem?_append] at hvx
      by_cases hv : v < origs.length
      · rw [if_pos hv] at hvx
        exact Or.inl ⟨hv, hvx⟩
      · rw [if_neg hv] at hvx
        have h0 : v - origs.length = 0 := by
          by_contra hne
          rw [List.getElem?_eq_none (by simp; omega)] at hvx
          cases hvx
        rw [h0] at hvx
        simp only [List.getElem?_cons_zero, Option.some.injEq] at hvx
        exact Or.inr ⟨by omega, hvx.symm⟩
    refine ⟨_, rfl, ⟨origs ++ [index], ⟨?_, ?_, ?_, ?_, ?_, ?_, ?_⟩, ?_⟩, rfl⟩
    · rw [List.nodup_append]
      refine ⟨hnd, List.nodup_singleton _, ?_⟩
      intro a ha hb
      rw [List.mem_singleton] at hb
      subst hb
      exact hnot ha
    · intro x
      simp only [List.mem_append, List.mem_singleton, hmem x]
    · simp [hc]
    · simp [hnl]
    · simp [htl]
    · intro v x hvx
      rcases hget v x hvx with ⟨hv, hvo⟩ | ⟨hv, hx⟩
      · obtain ⟨d1, d2, d3⟩ := hdata v x hvo
        refine ⟨?_, ?_, ?_⟩
        · rw [← d1]; exact List.getElem?_append_left (by omega)
        · rw [← d2]; exact List.getElem?_append_left (by omega)
        · rw [← d3]; exact List.getElem?_append_left (by omega)
      · subst hx
        subst hv
        refine ⟨?_, ?_, ?_⟩
        · rw [hcv, ← hc]; simp
        · rw [hnv, ← hnl]; simp
        · rw [htv, ← htl]; simp
    · simp only [List.map_append, List.map_cons, List.map_nil]
      congr 1
      · rw [← hidx]
        apply List.map_congr_left
        intro v hv
        exact List.getElem?_append_left (hlt v hv)
      · rw [hc]; simp
    · intro k v
      rw [List.lookup_cons]
      by_cases hk : k = index
      · subst hk
        simp only [beq_self_eq_true]
        constructor
        · intro h
          injection h with h
          rw [← h, hc]; simp
        · intro h
          rcases hget v k h with ⟨_, hvo⟩ | ⟨hv, _⟩
          · exact absurd (List.mem_iff_getElem?.mpr ⟨v, hvo⟩) hnot
          · rw [hv, hc]
      · have hne : (k == index) = false := by simpa using hk
        simp only [hne]
        rw [hmap k v]
        constructor
        · intro h
          have hv : v < origs.length := by
            by_contra hge
            rw [List.getElem?_eq_none (by omega)] at h
            cases h
          rw [← h]; exact List.getElem?_append_left hv
        · intro h
          rcases hget v k h with ⟨_, hvo⟩ | ⟨_, hx⟩
          · exact hvo
          · exact absurd hx hk
  | some v =>
    have hv := (hmap index v).mp hlk
    refine ⟨_, rfl, ⟨origs, ⟨hnd, ?_, hc, hnl, htl, hdata, ?_⟩, hmap⟩, rfl⟩
    · intro x
      simp only [List.mem_append, List.mem_singleton, ← hmem x]
      constructor
      · intro h; exact Or.inl h
      · intro h
        rcases h with h | h
        · exact h
        · rw [h]; exact List.mem_iff_getElem?.mpr ⟨v, hv⟩
    · simp only [List.map_append, List.map_cons, List.map_nil, hidx, hv]

theorem splitLoop_remap (maxBuf : Nat) (coords : List Nat)
    (normals texCoords : List (Vec2 F)) (hn : normals.length = coords.length)
    (ht : texCoords.length = coords.length) (k : Nat) :
    ∀ (indices : List Nat) (st : PartState F) (pairs : List (DrawBuffer F × List Nat))
      (chunk : List Nat), indices.length = 3 * k →
      (∀ i ∈ indices, i < coords.length) → pairs.map Prod.fst = st.done →
      (∀ p ∈ pairs, ∃ origs, Remapped coords normals texCoords p.2 origs p.1) →
      RemapInv coords normals texCoords chunk st →
      ∃ (st2 : PartState F) (pairs2 : List (DrawBuffer F × List Nat)) (chunk2 : List Nat),
        splitLoop maxBuf coords normals texCoords indices st = some st2 ∧
        pairs2.map Prod.fst = st2.done ∧
        (∀ p ∈ pairs2, ∃ origs, Remapped coords normals texCoords p.2 origs p.1) ∧
        RemapInv coords normals texCoords chunk2 st2 ∧
        (pairs2.map Prod.snd).flatten ++ chunk2 =
          (pairs.map Prod.snd).flatten ++ chunk ++ indices := by
  induction k with
  | zero =>
    intro indices st pairs chunk hlen _ hp hall hinv
    have hnil : indices = [] := List.length_eq_zero.mp (by omega)
    subst hnil
    exact ⟨st, pairs, chunk, by simp [splitLoop], hp, hall, hinv, by simp⟩
  | succ k ih =>
    intro indices st pairs chunk hlen hval hp hall hinv
    match indices, hlen, hval with
    | [], hlen, _ => simp at hlen
    | [_], hlen, _ => simp at hlen; omega
    | [_, _], hlen, _ => simp at hlen; omega
    | i0 :: i1 :: i2 :: rest, hlen, hval =>
      have hco : ∃ (pairs1 : List (DrawBuffer F × List Nat)) (chunk1 : List Nat),
          pairs1.map Prod.fst = (checkOverflow maxBuf st).done ∧
          (∀ p ∈ pairs1, ∃ origs, Remapped coords normals texCoords p.2 origs p.1) ∧
          RemapInv coords normals texCoords chunk1 (checkOverflow maxBuf st) ∧
          (pairs1.map Prod.snd).flatten ++ chunk1 = (pairs.map Prod.snd).flatten ++ chunk := by
        unfold checkOverflow
        by_cases h : st.cur.indices.length + 3 > maxBuf
        · rw [if_pos h]
          obtain ⟨origs, hR, _⟩ := hinv
          refine ⟨pairs ++ [(st.cur, chunk)], [], by simp [hp], ?_, remapped_empty _ _ _ _,
            by simp⟩
          intro p hpm
          rcases List.mem_append.mp hpm with hpm | hpm
          · exact hall p hpm
          · rw [List.mem_singleton] at hpm
            subst hpm
            exact ⟨origs, hR⟩
        · rw [if_neg h]
          exact ⟨pairs, chunk, hp, hall, hinv, rfl⟩
      obtain ⟨pairs1, chunk1, hp1, hall1, hinv1, hfl1⟩ := hco
      obtain ⟨s0, e0, inv0, d0⟩ :=
        remapIndex_remap coords normals texCoords i0 chunk1 (checkOverflow maxBuf st) hn ht
          (hval i0 (by simp)) hinv1
      obtain ⟨s1, e1, inv1, d1⟩ :=
        remapIndex_remap coords normals texCoords i1 _ s0 hn ht (hval i1 (by simp)) inv0
      obtain ⟨s2, e2, inv2, d2⟩ :=
        remapIndex_remap coords normals texCoords i2 _ s1 hn ht (hval i2 (by simp)) inv1
      have hrest : rest.length = 3 * k := by
        simp only [List.length_cons] at hlen; omega
      obtain ⟨st2, pairs2, chunk2, e3, hp2, hall2, inv3, hfl2⟩ :=
        ih rest s2 pairs1 _ hrest (fun i hi => hval i (by simp [hi]))
          (by rw [hp1, d2, d1, d0]) hall1 inv2
      refine ⟨st2, pairs2, chunk2, ?_, hp2, hall2, inv3, ?_⟩
      · simp only [splitLoop, e0, e1, e2, Option.some_bind]
        exact e3
      · rw [hfl2, ← hfl1]
        simp only [List.append_assoc, List.singleton_append, List.cons_append,
          List.nil_append]

theorem remapped_props {coords : List Nat} {normals texCoords : List (Vec2 F)}
    {chunk origs : List Nat} {b : DrawBuffer F}
    (h : Remapped coords normals texCoords chunk origs b) :
    (∀ v ∈ b.indices, v < b.coords.length) ∧
    (∀ v, v < b.coords.length → v ∈ b.indices) ∧
    b.coords.length = chunk.dedup.length ∧
    b.indices.length = chunk.length := by
  have hlt := remapped_index_lt h
  obtain ⟨hnd, hmem, hc, hnl, htl, hdata, hidx⟩ := h
  refine ⟨fun v hv => by rw [hc]; exact hlt v hv, ?_, ?_, ?_⟩
  · intro v hv
    rw [hc] at hv
    obtain ⟨x, hx⟩ := getElem?_exists origs v hv
    have hxc : x ∈ chunk := (hmem x).mp (List.mem_iff_getElem?.mpr ⟨v, hx⟩)
    have hsome : some x ∈ b.indices.map (fun v => origs[v]?) := by
      rw [hidx]; exact List.mem_map_of_mem _ hxc
    obtain ⟨w, hw, hwx⟩ := List.mem_map.mp hsome
    have hwv : w = v := by
      have hwl : w < origs.length := hlt w hw
      rw [List.getElem?_eq_getElem hwl] at hwx
      rw [List.getElem?_eq_getElem hv] at hx
      injection hwx with hwx
      injection hx with hx
      exact (List.Nodup.getElem_inj_iff hnd).mp (hwx.trans hx.symm)
    rw [← hwv]; exact hw
  · rw [hc, ← List.toFinset_card_of_nodup hnd, ← List.card_toFinset]
    congr 1
    exact List.toFinset.ext hmem
  · have := congrArg List.length hidx
    simpa using this


/-! ### Greedy filling -/

theorem remapIndex_length (coords : List Nat) (normals texCoords : List (Vec2 F)) (index : Nat)
    (st s : PartState F) (h : remapIndex coords normals texCoords index st = some s) :
    s.done = st.done ∧ s.cur.indices.length = st.cur.indices.length + 1 := by
  unfold remapIndex at h
  split at h
  · split at h
    · injection h with h
      subst h
      simp
    · exact absurd h (by simp)
  · injection h with h
    subst h
    simp

theorem checkOverflow_greedy (maxBuf : Nat) (st : PartState F) (hmax : 3 ≤ maxBuf)
    (hd : ∀ b ∈ st.done, b.indices.length = 3 * (maxBuf / 3))
    (h3 : st.cur.indices.length % 3 = 0) (hle : st.cur.indices.length ≤ 3 * (maxBuf / 3)) :
    (∀ b ∈ (checkOverflow maxBuf st).done, b.indices.length = 3 * (maxBuf / 3)) ∧
    (checkOverflow maxBuf st).cur.indices.length % 3 = 0 ∧
    (checkOverflow maxBuf st).cur.indices.length + 3 ≤ 3 * (maxBuf / 3) ∧
    3 * (maxBuf / 3) * (checkOverflow maxBuf st).done.length +
        (checkOverflow maxBuf st).cur.indices.length =
      3 * (maxBuf / 3) * st.done.length + st.cur.indices.length := by
  unfold checkOverflow
  by_cases h : st.cur.indices.length + 3 > maxBuf
  · rw [if_pos h]
    have hM : st.cur.indices.length = 3 * (maxBuf / 3) := by omega
    refine ⟨?_, by simp [DrawBuffer.empty], by simp only [DrawBuffer.empty, List.length_nil]; omega,
      ?_⟩
    · intro b hb
      rcases List.mem_append.mp hb with hb | hb
      · exact hd b hb
      · rw [List.mem_singleton] at hb
        subst hb
        exact hM
    · simp only [DrawBuffer.empty, List.length_nil, List.length_append, List.length_singleton,
        Nat.mul_add, Nat.mul_one, Nat.add_zero]
      omega
  · rw [if_neg h]
    exact ⟨hd, h3, by omega, rfl⟩

theorem splitLoop_greedy (maxBuf : Nat) (coords : List Nat)
    (normals texCoords : List (Vec2 F)) (hmax : 3 ≤ maxBuf) (k : Nat) :
    ∀ (indices : List Nat) (st st2 : PartState F), indices.length = 3 * k →
      splitLoop maxBuf coords normals texCoords indices st = some st2 →
      (∀ b ∈ st.done, b.indices.length = 3 * (maxBuf / 3)) →
      st.cur.indices.length % 3 = 0 → st.cur.indices.length ≤ 3 * (maxBuf / 3) →
      (∀ b ∈ st2.done, b.indices.length = 3 * (maxBuf / 3)) ∧
      st2.cur.indices.length % 3 = 0 ∧ st2.cur.indices.length ≤ 3 * (maxBuf / 3) ∧
      (3 ≤ st.cur.indices.length ∨ 0 < k → 3 ≤ st2.cur.indices.length) ∧
      3 * (maxBuf / 3) * st2.done.length + st2.cur.indices.length =
        3 * (maxBuf / 3) * st.done.length + st.cur.indices.length + indices.length := by
  induction k with
  | zero =>
    intro indices st st2 hlen e hd h3 hle
    have hnil : indices = [] := List.length_eq_zero.mp (by omega)
    subst hnil
    simp only [splitLoop, Option.some.injEq] at e
    subst e
    exact ⟨hd, h3, hle, fun h => by omega, by simp⟩
  | succ k ih =>
    intro indices st st2 hlen e hd h3 hle
    match indices, hlen, e with
    | [], hlen, _ => simp at hlen
    | [_], hlen, _ => simp at hlen; omega
    | [_, _], hlen, _ => simp at hlen; omega
    | i0 :: i1 :: i2 :: rest, hlen, e =>
      obtain ⟨c1, c2, c3, c4⟩ := checkOverflow_greedy maxBuf st hmax hd h3 hle
      simp only [splitLoop, Option.bind_eq_some] at e
      obtain ⟨s0, e0, s1, e1, s2, e2, e3⟩ := e
      obtain ⟨d0, l0⟩ := remapIndex_length coords normals texCoords i0 _ s0 e0
      obtain ⟨d1, l1⟩ := remapIndex_length coords normals texCoords i1 _ s1 e1
      obtain ⟨d2, l2⟩ := remapIndex_length coords normals texCoords i2 _ s2 e2
      have hrest : rest.length = 3 * k := by
        simp only [List.length_cons] at hlen; omega
      obtain ⟨r1, r2, r3, r4, r5⟩ := ih rest s2 st2 hrest e3
        (by rw [d2, d1, d0]; exact c1) (by omega) (by omega)
      refine ⟨r1, r2, r3, fun _ => r4 (Or.inl (by omega)), ?_⟩
      rw [r5, d2, d1, d0]
      simp only [List.length_cons]
      omega

end PartitionLemmas

/-! ## Lemmas on the tessellator -/

section TessLemmas

set_option linter.unusedSectionVars false

variable {F : Type} [LinearOrderedField F] [FloorRing F]

theorem rotations_length (sin cos : F) (k : Nat) :
    ∀ v : MapVec F, (rotations sin cos v k).length = k := by
  induction k with
  | zero => intro v; rfl
  | succ k ih => intro v; simp [rotations, ih]

theorem flatMap_length_three (f : Nat → List Nat) (hf : ∀ j, (f j).length = 3) (l : List Nat) :
    (l.flatMap f).length = 3 * l.length := by
  induction l with
  | nil => rfl
  | cons a l ih => simp [List.flatMap_cons, hf, ih]; omega

theorem jointIndices_length (vi s : Nat) (left lastPos : Bool) :
    (jointIndices vi s left lastPos).length = 3 * s := by
  unfold jointIndices
  rw [flatMap_length_three _ _ (List.range s), List.length_range]
  intro j
  cases left <;> simp

theorem lastEndPointIndices_length (vi s : Nat) :
    (lastEndPointIndices vi s).length = 3 * s := by
  unfold lastEndPointIndices
  rw [flatMap_length_three _ _ (List.range s), List.length_range]
  intro j
  simp

theorem firstEndPointIndices_length (vi s : Nat) :
    (firstEndPointIndices vi s).length = 3 * s := by
  unfold firstEndPointIndices
  rw [flatMap_length_three _ _ (List.range s), List.length_range]
  intro j
  simp

theorem jointIndices_lt (vi s : Nat) (left lastPos : Bool) (hvi : 2 ≤ vi) (x : Nat)
    (hx : x ∈ jointIndices vi s left lastPos) :
    x < vi + s + (if lastPos then 0 else 2) := by
  unfold jointIndices at hx
  obtain ⟨j, hj, hxj⟩ := List.mem_flatMap.mp hx
  have hjs : j < s := List.mem_range.mp hj
  cases left <;> cases lastPos <;>
    simp only [Bool.false_eq_true, if_true, if_false, List.mem_cons, List.mem_singleton,
      List.not_mem_nil, or_false] at hxj ⊢ <;>
    rcases hxj with h | h | h <;> rw [h] <;> (try split_ifs) <;> omega

theorem lastEndPointIndices_lt (vi s : Nat) (hvi : 2 ≤ vi) (x : Nat)
    (hx : x ∈ lastEndPointIndices vi s) : x < vi + s := by
  unfold lastEndPointIndices at hx
  obtain ⟨j, hj, hxj⟩ := List.mem_flatMap.mp hx
  have hjs : j < s := List.mem_range.mp hj
  simp only [List.mem_cons, List.mem_singleton, List.not_mem_nil, or_false] at hxj
  rcases hxj with h | h | h <;> rw [h] <;> (try split_ifs) <;> omega

theorem firstEndPointIndices_lt (vi s : Nat) (hvi : 2 ≤ vi) (x : Nat)
    (hx : x ∈ firstEndPointIndices vi s) : x < vi + s := by
  unfold firstEndPointIndices at hx
  obtain ⟨j, hj, hxj⟩ := List.mem_flatMap.mp hx
  have hjs : j < s := List.mem_range.mp hj
  simp only [List.mem_cons, List.mem_singleton, List.not_mem_nil, or_false] at hxj
  rcases hxj with h | h | h <;> rw [h] <;> (try split_ifs) <;> omega

theorem lineBody_wf (m : CMath F) (poses : List (MapPos F)) (style : LineStyle F) (i p : Nat)
    (st : TessState F) (h : TessWF st) : TessWF (lineBody m poses style i p st) := by
  obtain ⟨h1, h2, h3, h4⟩ := h
  refine ⟨?_, ?_, ?_, ?_⟩
  · simp [lineBody, h1]
  · simp [lineBody, h2]
  · simp only [lineBody, List.length_append]
    split_ifs <;> simp [h3]
  · simp only [lineBody, List.length_append, List.length_cons, List.length_nil]
    omega

theorem lineBody_lt (m : CMath F) (poses : List (MapPos F)) (style : LineStyle F) (i p : Nat)
    (st : TessState F) (hb : ∀ x ∈ st.indices, x < st.vertexIndex + 2) :
    ∀ x ∈ (lineBody m poses style i p st).indices,
      x < (lineBody m poses style i p st).vertexIndex := by
  intro x hx
  simp only [lineBody, List.mem_append, List.mem_cons, List.mem_singleton, List.not_mem_nil,
    or_false] at hx ⊢
  rcases hx with hx | hx | hx | hx | hx | hx | hx
  · have := hb x hx; omega
  all_goals omega

theorem addJoint_wf (m : CMath F) (poses : List (MapPos F)) (i : Nat) (deltaAngle : F)
    (s : Nat) (v1 v2 : MapVec F) (st : TessState F) (hs : 1 ≤ s) (h : TessWF st) :
    TessWF (addJoint m poses i deltaAngle s v1 v2 st) := by
  obtain ⟨h1, h2, h3, h4⟩ := h
  refine ⟨?_, ?_, ?_, ?_⟩
  · simp only [addJoint, List.length_append, List.length_map, rotations_length,
      List.length_singleton]
    omega
  · simp only [addJoint, List.length_append, List.length_map, rotations_length,
      List.length_singleton]
    omega
  · simp only [addJoint, List.length_append, List.length_map, rotations_length,
      List.length_singleton]
    omega
  · simp only [addJoint, List.length_append, jointIndices_length]
    omega

theorem addJoint_lt (m : CMath F) (poses : List (MapPos F)) (i : Nat) (deltaAngle : F)
    (s : Nat) (v1 v2 : MapVec F) (st : TessState F) (hvi : 2 ≤ st.vertexIndex)
    (hb : ∀ x ∈ st.indices, x < st.vertexIndex) :
    ∀ x ∈ (addJoint m poses i deltaAngle s v1 v2 st).indices,
      x < (addJoint m poses i deltaAngle s v1 v2 st).vertexIndex +
        (if i = poses.length - 1 then 0 else 2) := by
  intro x hx
  simp only [addJoint, List.mem_append] at hx ⊢
  rcases hx with hx | hx
  · have := hb x hx; omega
  · have := jointIndices_lt _ _ _ _ hvi x hx
    simpa using this

theorem lineJoint_cases (m : CMath F) (poses : List (MapPos F)) (style : LineStyle F)
    (loopedLine : Bool) (deltaAngles : List F) (i p : Nat) (st : TessState F) :
    lineJoint m poses style loopedLine deltaAngles i p st = st ∨
    ∃ s : Nat, 1 ≤ s ∧ (s : Int) = jointSegments style (deltaAngles.getD (i - 1) 0) ∧
      (i + 1 < poses.length ∨ loopedLine = true) ∧
      style.lineJointType ≠ LineJointType.LINE_JOINT_TYPE_NONE ∧
      lineJoint m poses style loopedLine deltaAngles i p st =
        addJoint m poses i (deltaAngles.getD (i - 1) 0) s
          (calcPrevPerpVec1 m style (calcPrevLine poses i p))
          (calcPrevPerpVec2 m style (calcPrevLine poses i p)) st := by
  by_cases hc : ((decide (i + 1 < poses.length) || loopedLine) &&
      decide (style.lineJointType ≠ LineJointType.LINE_JOINT_TYPE_NONE)) = true
  · by_cases hseg : jointSegments style (deltaAngles.getD (i - 1) 0) > 0
    · right
      refine ⟨(jointSegments style (deltaAngles.getD (i - 1) 0)).toNat, by omega, by omega,
        ?_, ?_, ?_⟩
      · simp only [Bool.and_eq_true, Bool.or_eq_true, decide_eq_true_eq] at hc
        exact hc.1
      · simp only [Bool.and_eq_true, Bool.or_eq_true, decide_eq_true_eq] at hc
        exact hc.2
      · unfold lineJoint
        rw [if_pos hc]
        simp only [if_pos hseg]
    · left
      unfold lineJoint
      rw [if_pos hc]
      simp only [if_neg hseg]
  · left
    unfold lineJoint
    rw [if_neg hc]

theorem lineJoint_spec (m : CMath F) (poses : List (MapPos F)) (style : LineStyle F)
    (loopedLine : Bool) (deltaAngles : List F) (i p : Nat) (st : TessState F)
    (hwf : TessWF st) (hvi : 2 ≤ st.vertexIndex) (hb : ∀ x ∈ st.indices, x < st.vertexIndex)
    (hi : i < poses.length) :
    TessWF (lineJoint m poses style loopedLine deltaAngles i p st) ∧
    st.vertexIndex ≤ (lineJoint m poses style loopedLine deltaAngles i p st).vertexIndex ∧
    (lineJoint m poses style loopedLine deltaAngles i p st).prevPos = st.prevPos ∧
    ∀ x ∈ (lineJoint m poses style loopedLine deltaAngles i p st).indices,
      x < (lineJoint m poses style loopedLine deltaAngles i p st).vertexIndex +
        (if i + 1 < poses.length then 2 else 0) := by
  rcases lineJoint_cases m poses style loopedLine deltaAngles i p st with h | ⟨s, hs, _, _, _, h⟩
  · rw [h]
    exact ⟨hwf, le_refl _, rfl, fun x hx => by have := hb x hx; omega⟩
  · rw [h]
    refine ⟨addJoint_wf _ _ _ _ _ _ _ _ hs hwf, by simp [addJoint], by simp [addJoint], ?_⟩
    intro x hx
    have h := addJoint_lt _ _ _ _ _ _ _ _ hvi hb x hx
    by_cases hlast : i + 1 < poses.length
    · rw [if_pos hlast]
      split_ifs at h <;> omega
    · rw [if_neg hlast]
      rw [if_pos (by omega)] at h
      exact h

theorem tessLoop_succ (m : CMath F) (poses : List (MapPos F)) (style : LineStyle F) (k : Nat) :
    tessLoop m poses style (k + 1) =
      tessLoopBody m poses style (isLoopedLine poses)
        (calcDeltaAngles m poses style (isLoopedLine poses)) (tessLoop m poses style k) k := by
  simp [tessLoop, List.range_succ, List.foldl_append]

theorem tessLoop_inv (m : CMath F) (poses : List (MapPos F)) (style : LineStyle F) (k : Nat)
    (hk : k ≤ poses.length) :
    TessWF (tessLoop m poses style k) ∧
    (tessLoop m poses style k).prevPos = (if k = 0 then none else some (k - 1)) ∧
    (k ≤ 1 → (tessLoop m poses style k).vertexIndex = 0 ∧
      (tessLoop m poses style k).indices = []) ∧
    (2 ≤ k → 4 ≤ (tessLoop m poses style k).vertexIndex) ∧
    ∀ x ∈ (tessLoop m poses style k).indices,
      x < (tessLoop m poses style k).vertexIndex + (if k < poses.length then 2 else 0) := by
  induction k with
  | zero =>
    refine ⟨⟨rfl, rfl, rfl, rfl⟩, rfl, fun _ => ⟨rfl, rfl⟩, fun h => by omega, ?_⟩
    intro x hx
    simp [tessLoop, tessInit] at hx
  | succ k ih =>
    obtain ⟨wf, pp, h01, h2, hb⟩ := ih (by omega)
    rw [tessLoop_succ]
    rw [if_pos (by omega)] at hb
    unfold tessLoopBody
    by_cases hk0 : k = 0
    · subst hk0
      simp only [if_true] at pp
      rw [pp]
      obtain ⟨hv, hidx⟩ := h01 (by omega)
      refine ⟨wf, rfl, fun _ => ⟨hv, hidx⟩, fun h => by omega, ?_⟩
      intro x hx
      simp only [hidx] at hx
      simp at hx
    · rw [if_neg hk0] at pp
      rw [pp]
      have wf1 := lineBody_wf m poses style k (k - 1) _ wf
      have lt1 := lineBody_lt m poses style k (k - 1) _ hb
      have hv1 : 4 ≤ (lineBody m poses style k (k - 1) (tessLoop m poses style k)).vertexIndex := by
        simp [lineBody]
      obtain ⟨wf2, le2, _, lt2⟩ := lineJoint_spec m poses style (isLoopedLine poses)
        (calcDeltaAngles m poses style (isLoopedLine poses)) k (k - 1) _ wf1 (by omega) lt1
        (by omega)
      refine ⟨wf2, by simp, fun h => by omega, fun _ => by simp only; omega, ?_⟩
      intro x hx
      exact lt2 x hx

theorem lineEndPoints_cases (m : CMath F) (poses : List (MapPos F)) (style : LineStyle F)
    (loopedLine : Bool) (st : TessState F) :
    lineEndPoints m poses style loopedLine st = st ∨
    ∃ s : Nat, 1 ≤ s ∧ (s : Int) = endPointSegments style ∧ loopedLine = false ∧
      style.lineEndType = LineEndType.LINE_END_TYPE_ROUND ∧
      lineEndPoints m poses style loopedLine st =
        firstEndPoint m style s
          (m.sin (endPointSegmentDeltaAngle (endPointSegments style) * m.DEG_TO_RAD))
          (m.cos (endPointSegmentDeltaAngle (endPointSegments style) * m.DEG_TO_RAD))
          (lastEndPoint m poses style s
            (m.sin (endPointSegmentDeltaAngle (endPointSegments style) * m.DEG_TO_RAD))
            (m.cos (endPointSegmentDeltaAngle (endPointSegments style) * m.DEG_TO_RAD)) st) := by
  by_cases hc : (!loopedLine &&
      decide (style.lineEndType = LineEndType.LINE_END_TYPE_ROUND)) = true
  · by_cases hseg : endPointSegments style > 0
    · right
      refine ⟨(endPointSegments style).toNat, by omega, by omega, ?_, ?_, ?_⟩
      · simp only [Bool.and_eq_true, Bool.not_eq_true', decide_eq_true_eq] at hc
        exact hc.1
      · simp only [Bool.and_eq_true, Bool.not_eq_true', decide_eq_true_eq] at hc
        exact hc.2
      · unfold lineEndPoints
        rw [if_pos hc]
        simp only [if_pos hseg]
    · left
      unfold lineEndPoints
      rw [if_pos hc]
      simp only [if_neg hseg]
  · left
    unfold lineEndPoints
    rw [if_neg hc]

theorem lastEndPoint_spec (m : CMath F) (poses : List (MapPos F)) (style : LineStyle F)
    (s : Nat) (sin cos : F) (st : TessState F) (hs : 1 ≤ s) (hwf : TessWF st)
    (hvi : 2 ≤ st.vertexIndex) (hb : ∀ x ∈ st.indices, x < st.vertexIndex) :
    TessWF (lastEndPoint m poses style s sin cos st) ∧
    (lastEndPoint m poses style s sin cos st).vertexIndex = st.vertexIndex + s ∧
    ∀ x ∈ (lastEndPoint m poses style s sin cos st).indices,
      x < (lastEndPoint m poses style s sin cos st).vertexIndex := by
  obtain ⟨h1, h2, h3, h4⟩ := hwf
  refine ⟨⟨?_, ?_, ?_, ?_⟩, rfl, ?_⟩
  · simp only [lastEndPoint, List.length_append, List.length_map, rotations_length,
      List.length_singleton]
    omega
  · simp only [lastEndPoint, List.length_append, List.length_map, rotations_length,
      List.length_singleton]
    omega
  · simp only [lastEndPoint, List.length_append, List.length_map, rotations_length,
      List.length_singleton]
    omega
  · simp only [lastEndPoint, List.length_append, lastEndPointIndices_length]
    omega
  · intro x hx
    simp only [lastEndPoint, List.mem_append] at hx ⊢
    rcases hx with hx | hx
    · have := hb x hx; omega
    · exact lastEndPointIndices_lt _ _ hvi x hx

theorem firstEndPoint_spec (m : CMath F) (style : LineStyle F)
    (s : Nat) (sin cos : F) (st : TessState F) (hs : 1 ≤ s) (hwf : TessWF st)
    (hvi : 2 ≤ st.vertexIndex) (hb : ∀ x ∈ st.indices, x < st.vertexIndex) :
    TessWF (firstEndPoint m style s sin cos st) ∧
    (firstEndPoint m style s sin cos st).vertexIndex = st.vertexIndex + s ∧
    ∀ x ∈ (firstEndPoint m style s sin cos st).indices,
      x < (firstEndPoint m style s sin cos st).vertexIndex := by
  obtain ⟨h1, h2, h3, h4⟩ := hwf
  refine ⟨⟨?_, ?_, ?_, ?_⟩, rfl, ?_⟩
  · simp only [firstEndPoint, List.length_append, List.length_map, rotations_length,
      List.length_singleton]
    omega
  · simp only [firstEndPoint, List.length_append, List.length_map, rotations_length,
      List.length_singleton]
    omega
  · simp only [firstEndPoint, List.length_append, List.length_map, rotations_length,
      List.length_singleton]
    omega
  · simp only [firstEndPoint, List.length_append, firstEndPointIndices_length]
    omega
  · intro x hx
    simp only [firstEndPoint, List.mem_append] at hx ⊢
    rcases hx with hx | hx
    · have := hb x hx; omega
    · exact firstEndPointIndices_lt _ _ hvi x hx

theorem lineEndPoints_spec (m : CMath F) (poses : List (MapPos F)) (style : LineStyle F)
    (loopedLine : Bool) (st : TessState F) (hwf : TessWF st) (hvi : 2 ≤ st.vertexIndex)
    (hb : ∀ x ∈ st.indices, x < st.vertexIndex) :
    TessWF (lineEndPoints m poses style loopedLine st) ∧
    ∀ x ∈ (lineEndPoints m poses style loopedLine st).indices,
      x < (lineEndPoints m poses style loopedLine st).vertexIndex := by
  rcases lineEndPoints_cases m poses style loopedLine st with h | ⟨s, hs, _, _, _, h⟩
  · rw [h]
    exact ⟨hwf, hb⟩
  · rw [h]
    obtain ⟨wf1, v1, b1⟩ := lastEndPoint_spec m poses style s _ _ st hs hwf hvi hb
    obtain ⟨wf2, _, b2⟩ := firstEndPoint_spec m style s _ _ _ hs wf1 (by omega) b1
    exact ⟨wf2, b2⟩

theorem tessellate_spec (m : CMath F) (poses : List (MapPos F)) (style : LineStyle F)
    (hn : 2 ≤ poses.length) :
    TessWF (tessellate m poses style) ∧
    ∀ x ∈ (tessellate m poses style).indices, x < (tessellate m poses style).vertexIndex := by
  obtain ⟨wf, _, _, h2, hb⟩ := tessLoop_inv m poses style poses.length (le_refl _)
  rw [if_neg (by omega)] at hb
  exact lineEndPoints_spec m poses style _ _ wf (by have := h2 hn; omega) hb

theorem init_spec (m : CMath F) (maxBuf : Nat) (poses : List (MapPos F)) (style : LineStyle F)
    (hn : 2 ≤ poses.length) :
    ∃ bufs, init m maxBuf poses style = some bufs ∧
      (∀ b ∈ bufs, b.indices.length % 3 = 0 ∧ (3 ≤ maxBuf → b.indices.length ≤ maxBuf)) ∧
      (bufs.map (fun b => b.indices.length)).sum = (tessellate m poses style).indices.length ∧
      bufs.flatMap DrawBuffer.resolve =
        resolveIndices (tessellate m poses style).coords (tessellate m poses style).normals
          (tessellate m poses style).texCoords (tessellate m poses style).indices := by
  obtain ⟨⟨h1, h2, h3, h4⟩, hb⟩ := tessellate_spec m poses style hn
  unfold init
  rw [if_neg (by omega)]
  exact partitionBuffers_spec maxBuf _ _ _ _ (by omega) (by omega)
    (fun x hx => by have := hb x hx; omega) h4

/-! ### Growth of the accumulated lists -/

theorem tessExtends_refl (a : TessState F) : TessExtends a a :=
  ⟨⟨[], by simp⟩, ⟨[], by simp⟩, ⟨[], by simp⟩, ⟨[], by simp⟩⟩

theorem tessExtends_trans (a b c : TessState F) (h1 : TessExtends a b) (h2 : TessExtends b c) :
    TessExtends a c := by
  obtain ⟨⟨c1, e1⟩, ⟨n1, e2⟩, ⟨t1, e3⟩, ⟨j1, e4⟩⟩ := h1
  obtain ⟨⟨c2, f1⟩, ⟨n2, f2⟩, ⟨t2, f3⟩, ⟨j2, f4⟩⟩ := h2
  exact ⟨⟨c1 ++ c2, by rw [f1, e1, List.append_assoc]⟩,
    ⟨n1 ++ n2, by rw [f2, e2, List.append_assoc]⟩,
    ⟨t1 ++ t2, by rw [f3, e3, List.append_assoc]⟩,
    ⟨j1 ++ j2, by rw [f4, e4, List.append_assoc]⟩⟩

theorem lineBody_extends (m : CMath F) (poses : List (MapPos F)) (style : LineStyle F)
    (i p : Nat) (st : TessState F) : TessExtends st (lineBody m poses style i p st) :=
  ⟨⟨_, rfl⟩, ⟨_, rfl⟩, ⟨_, rfl⟩, ⟨_, rfl⟩⟩

theorem addJoint_extends (m : CMath F) (poses : List (MapPos F)) (i : Nat) (deltaAngle : F)
    (s : Nat) (v1 v2 : MapVec F) (st : TessState F) :
    TessExtends st (addJoint m poses i deltaAngle s v1 v2 st) :=
  ⟨⟨_, by simp only [addJoint, List.append_assoc]; rfl⟩, ⟨_, by simp only [addJoint, List.append_assoc]; rfl⟩,
    ⟨_, by simp only [addJoint, List.append_assoc]; rfl⟩, ⟨_, rfl⟩⟩

theorem lineJoint_extends (m : CMath F) (poses : List (MapPos F)) (style : LineStyle F)
    (loopedLine : Bool) (deltaAngles : List F) (i p : Nat) (st : TessState F) :
    TessExtends st (lineJoint m poses style loopedLine deltaAngles i p st) := by
  rcases lineJoint_cases m poses style loopedLine deltaAngles i p st with h | ⟨s, _, _, _, _, h⟩
  · rw [h]; exact tessExtends_refl st
  · rw [h]; exact addJoint_extends _ _ _ _ _ _ _ _

theorem tessLoopBody_extends (m : CMath F) (poses : List (MapPos F)) (style : LineStyle F)
    (loopedLine : Bool) (deltaAngles : List F) (st : TessState F) (i : Nat) :
    TessExtends st (tessLoopBody m poses style loopedLine deltaAngles st i) := by
  unfold tessLoopBody
  cases st.prevPos with
  | none => exact tessExtends_refl st
  | some p =>
    exact tessExtends_trans _ _ _ (lineBody_extends m poses style i p st)
      (lineJoint_extends m poses style loopedLine deltaAngles i p _)

theorem tessLoop_extends (m : CMath F) (poses : List (MapPos F)) (style : LineStyle F)
    (k d : Nat) : TessExtends (tessLoop m poses style k) (tessLoop m poses style (k + d)) := by
  induction d with
  | zero => exact tessExtends_refl _
  | succ d ih =>
    have h : tessLoop m poses style (k + (d + 1)) = tessLoop m poses style ((k + d) + 1) := rfl
    rw [h, tessLoop_succ]
    exact tessExtends_trans _ _ _ ih (tessLoopBody_extends _ _ _ _ _ _ _)

theorem lineEndPoints_extends (m : CMath F) (poses : List (MapPos F)) (style : LineStyle F)
    (loopedLine : Bool) (st : TessState F) :
    TessExtends st (lineEndPoints m poses style loopedLine st) := by
  rcases lineEndPoints_cases m poses style loopedLine st with h | ⟨s, _, _, _, _, h⟩
  · rw [h]; exact tessExtends_refl st
  · rw [h]
    exact ⟨⟨_, by simp only [firstEndPoint, lastEndPoint, List.append_assoc]; rfl⟩,
      ⟨_, by simp only [firstEndPoint, lastEndPoint, List.append_assoc]; rfl⟩,
      ⟨_, by simp only [firstEndPoint, lastEndPoint, List.append_assoc]; rfl⟩,
      ⟨_, by simp only [firstEndPoint, lastEndPoint, List.append_assoc]; rfl⟩⟩

theorem tessellate_extends (m : CMath F) (poses : List (MapPos F)) (style : LineStyle F)
    (k : Nat) (hk : k ≤ poses.length) :
    TessExtends (tessLoop m poses style k) (tessellate m poses style) := by
  obtain ⟨d, hd⟩ := Nat.exists_eq_add_of_le hk
  have h := tessLoop_extends m poses style k d
  rw [← hd] at h
  exact tessExtends_trans _ _ _ h (lineEndPoints_extends _ _ _ _ _)

/-! ### Vertex and index counts -/

theorem lineJoint_counts (m : CMath F) (poses : List (MapPos F)) (style : LineStyle F)
    (loopedLine : Bool) (deltaAngles : List F) (i p : Nat) (st : TessState F) :
    (lineJoint m poses style loopedLine deltaAngles i p st).vertexIndex =
      st.vertexIndex + jointWedges poses style loopedLine deltaAngles i ∧
    (lineJoint m poses style loopedLine deltaAngles i p st).indices.length =
      st.indices.length + 3 * jointWedges poses style loopedLine deltaAngles i := by
  by_cases hc : ((decide (i + 1 < poses.length) || loopedLine) &&
      decide (style.lineJointType ≠ LineJointType.LINE_JOINT_TYPE_NONE)) = true
  · by_cases hseg : jointSegments style (deltaAngles.getD (i - 1) 0) > 0
    · unfold lineJoint jointWedges
      rw [if_pos hc, if_pos hc]
      simp only [if_pos hseg]
      simp [addJoint, jointIndices_length]
    · unfold lineJoint jointWedges
      rw [if_pos hc, if_pos hc]
      simp only [if_neg hseg]
      have h0 : (jointSegments style (deltaAngles.getD (i - 1) 0)).toNat = 0 := by omega
      rw [h0]
      exact ⟨rfl, rfl⟩
  · unfold lineJoint jointWedges
    rw [if_neg hc, if_neg hc]
    simp

theorem tessLoop_counts (m : CMath F) (poses : List (MapPos F)) (style : LineStyle F) (k : Nat) :
    (tessLoop m poses style (k + 1)).vertexIndex =
      4 * k + ((List.range k).map (fun j => jointWedges poses style (isLoopedLine poses)
        (calcDeltaAngles m poses style (isLoopedLine poses)) (j + 1))).sum ∧
    (tessLoop m poses style (k + 1)).indices.length =
      6 * k + 3 * ((List.range k).map (fun j => jointWedges poses style (isLoopedLine poses)
        (calcDeltaAngles m poses style (isLoopedLine poses)) (j + 1))).sum ∧
    (tessLoop m poses style (k + 1)).prevPos = some k := by
  induction k with
  | zero =>
    rw [tessLoop_succ]
    simp [tessLoop, tessLoopBody, tessInit]
  | succ k ih =>
    obtain ⟨h1, h2, h3⟩ := ih
    rw [tessLoop_succ]
    unfold tessLoopBody
    rw [h3]
    obtain ⟨c1, c2⟩ := lineJoint_counts m poses style (isLoopedLine poses)
      (calcDeltaAngles m poses style (isLoopedLine poses)) (k + 1) k
      (lineBody m poses style (k + 1) k (tessLoop m poses style (k + 1)))
    refine ⟨?_, ?_, rfl⟩
    · simp only [c1, List.range_succ, List.map_append, List.sum_append, List.map_cons,
        List.map_nil, List.sum_cons, List.sum_nil]
      simp only [lineBody, h1]
      omega
    · simp only [c2, List.range_succ, List.map_append, List.sum_append, List.map_cons,
        List.map_nil, List.sum_cons, List.sum_nil]
      simp only [lineBody, List.length_append, List.length_cons, List.length_nil, h2]
      omega

/-! ### Turn angles -/

theorem angleLoop_succ (m : CMath F) (poses : List (MapPos F)) (loopedLine : Bool) (k : Nat) :
    angleLoop m poses loopedLine (k + 1) =
      angleLoopBody m poses loopedLine (angleLoop m poses loopedLine k) k := by
  simp [angleLoop, List.range_succ, List.foldl_append]

theorem angleLoop_inv (m : CMath F) (poses : List (MapPos F)) (loopedLine : Bool) (k : Nat)
    (hk : k ≤ poses.length) :
    (angleLoop m poses loopedLine k).deltaAngles.length = poses.length - 1 ∧
    (1 ≤ k → (loopedLine = true ∨ k < poses.length) →
      (angleLoop m poses loopedLine k).prevAngle = heading m poses (k - 1)) ∧
    ∀ i, 1 ≤ i → i < k → (i + 1 < poses.length ∨ loopedLine = true) →
      (angleLoop m poses loopedLine k).deltaAngles.getD (i - 1) 0 = turnAngle m poses i := by
  induction k with
  | zero =>
    refine ⟨by simp [angleLoop], fun h => by omega, fun i h1 h2 => by omega⟩
  | succ k ih =>
    obtain ⟨hlen, hprev, hd⟩ := ih (by omega)
    rw [angleLoop_succ]
    by_cases hbr : (!loopedLine && decide (k + 1 ≥ poses.length)) = true
    · have hst : angleLoopBody m poses loopedLine (angleLoop m poses loopedLine k) k =
          angleLoop m poses loopedLine k := by
        unfold angleLoopBody
        rw [if_pos hbr]
      rw [hst]
      simp only [Bool.and_eq_true, Bool.not_eq_true', decide_eq_true_eq] at hbr
      refine ⟨hlen, ?_, ?_⟩
      · intro _ h
        rcases h with h | h
        · rw [hbr.1] at h; cases h
        · omega
      · intro i h1 h2 h3
        rcases h3 with h3 | h3
        · exact hd i h1 (by omega) (Or.inl h3)
        · rw [hbr.1] at h3; cases h3
    · have hst : angleLoopBody m poses loopedLine (angleLoop m poses loopedLine k) k =
          { deltaAngles :=
              if k > 0 then (angleLoop m poses loopedLine k).deltaAngles.set (k - 1)
                (calcDeltaAngle (heading m poses k) (angleLoop m poses loopedLine k).prevAngle)
              else (angleLoop m poses loopedLine k).deltaAngles
            prevAngle := heading m poses k } := by
        unfold angleLoopBody
        rw [if_neg hbr]
        rfl
      rw [hst]
      have hloop : loopedLine = true ∨ k < poses.length := Or.inr (by omega)
      refine ⟨?_, fun _ _ => rfl, ?_⟩
      · simp only
        split_ifs
        · rw [List.length_set]; exact hlen
        · exact hlen
      · intro i h1 h2 h3
        simp only
        have hk0 : k > 0 := by omega
        rw [if_pos hk0, hprev (by omega) hloop]
        rw [List.getD_eq_getElem?_getD]
        by_cases hik : i = k
        · subst hik
          rw [List.getElem?_set_self (by omega)]
          rfl
        · rw [List.getElem?_set_ne (by omega), ← List.getD_eq_getElem?_getD]
          exact hd i h1 (by omega) h3

theorem calcDeltaAngles_getD (m : CMath F) (poses : List (MapPos F)) (style : LineStyle F)
    (loopedLine : Bool) (i : Nat)
    (hj : style.lineJointType ≠ LineJointType.LINE_JOINT_TYPE_NONE) (h1 : 1 ≤ i)
    (hi : i < poses.length) (h3 : i + 1 < poses.length ∨ loopedLine = true) :
    (calcDeltaAngles m poses style loopedLine).getD (i - 1) 0 = turnAngle m poses i := by
  unfold calcDeltaAngles
  rw [if_pos hj]
  exact (angleLoop_inv m poses loopedLine poses.length (le_refl _)).2.2 i h1 hi h3

/-! ### Joint fans -/

theorem flatMap_congr_range (f g : Nat → List Nat) (s : Nat) (h : ∀ j, j < s → f j = g j) :
    (List.range s).flatMap f = (List.range s).flatMap g := by
  rw [List.flatMap_def, List.flatMap_def]
  congr 1
  apply List.map_congr_left
  intro j hj
  exact h j (List.mem_range.mp hj)

theorem jointIndices_eq_fan (c s : Nat) (leftTurn lastPos : Bool) (hc : 4 ≤ c) :
    jointIndices c s leftTurn lastPos =
      fanTriangles c s leftTurn (jointRim c s (if lastPos then 0 else c + s) leftTurn) := by
  unfold jointIndices fanTriangles
  apply flatMap_congr_range
  intro j hj
  cases leftTurn <;> cases lastPos <;>
    simp only [Bool.false_eq_true, if_true, if_false, jointRim, List.cons.injEq, and_true,
      true_and] <;>
    constructor <;> split_ifs <;> first | omega | contradiction

theorem tessLoop_step (m : CMath F) (poses : List (MapPos F)) (style : LineStyle F) (i : Nat)
    (h1 : 1 ≤ i) :
    tessLoop m poses style (i + 1) =
      { lineJoint m poses style (isLoopedLine poses)
          (calcDeltaAngles m poses style (isLoopedLine poses)) i (i - 1)
          (lineBody m poses style i (i - 1) (tessLoop m poses style i)) with
        prevPos := some i } := by
  obtain ⟨k, rfl⟩ : ∃ k, i = k + 1 := ⟨i - 1, by omega⟩
  rw [tessLoop_succ]
  unfold tessLoopBody
  rw [(tessLoop_counts m poses style k).2.2]
  rfl

theorem quad_extends (m : CMath F) (poses : List (MapPos F)) (style : LineStyle F) (i : Nat)
    (h1 : 1 ≤ i) (hi : i < poses.length) :
    TessExtends (lineBody m poses style i (i - 1) (tessLoop m poses style i))
      (tessellate m poses style) := by
  have h := tessellate_extends m poses style (i + 1) (by omega)
  rw [tessLoop_step m poses style i h1] at h
  exact tessExtends_trans _ _ _ (lineJoint_extends m poses style (isLoopedLine poses)
    (calcDeltaAngles m poses style (isLoopedLine poses)) i (i - 1) _) h

theorem lineJoint_eq_addJoint (m : CMath F) (poses : List (MapPos F)) (style : LineStyle F)
    (loopedLine : Bool) (deltaAngles : List F) (i p s : Nat) (st : TessState F)
    (hjoint : i + 1 < poses.length ∨ loopedLine = true)
    (hkind : style.lineJointType ≠ LineJointType.LINE_JOINT_TYPE_NONE)
    (hs : (s : Int) = jointSegments style (deltaAngles.getD (i - 1) 0)) (hs1 : 1 ≤ s) :
    lineJoint m poses style loopedLine deltaAngles i p st =
      addJoint m poses i (deltaAngles.getD (i - 1) 0) s
        (calcPrevPerpVec1 m style (calcPrevLine poses i p))
        (calcPrevPerpVec2 m style (calcPrevLine poses i p)) st := by
  have hc : ((decide (i + 1 < poses.length) || loopedLine) &&
      decide (style.lineJointType ≠ LineJointType.LINE_JOINT_TYPE_NONE)) = true := by
    simp only [Bool.and_eq_true, Bool.or_eq_true, decide_eq_true_eq]
    exact ⟨hjoint, hkind⟩
  have hseg : jointSegments style (deltaAngles.getD (i - 1) 0) > 0 := by omega
  have hnat : (jointSegments style (deltaAngles.getD (i - 1) 0)).toNat = s := by omega
  unfold lineJoint
  rw [if_pos hc]
  simp only [if_pos hseg, hnat]

theorem lineJoint_eq_self (m : CMath F) (poses : List (MapPos F)) (style : LineStyle F)
    (loopedLine : Bool) (deltaAngles : List F) (i p : Nat) (st : TessState F)
    (hs : jointSegments style (deltaAngles.getD (i - 1) 0) ≤ 0) :
    lineJoint m poses style loopedLine deltaAngles i p st = st := by
  have hseg : ¬ jointSegments style (deltaAngles.getD (i - 1) 0) > 0 := by omega
  unfold lineJoint
  split_ifs <;> first | rfl | simp only [if_neg hseg]

theorem singleton_append_map_const {α : Type} (i : Nat) (s : Nat) (l : List α)
    (hl : l.length = s - 1) (hs : 1 ≤ s) :
    [i] ++ l.map (fun _ => i) = List.replicate s i := by
  obtain ⟨k, rfl⟩ : ∃ k, s = k + 1 := ⟨s - 1, by omega⟩
  rw [List.map_const', hl]
  simp [List.replicate_succ]

theorem sum_ite_eq_filter_length (P : Nat → Bool) (k : Nat) :
    ((List.range k).map (fun j => if P j = true then 1 else 0)).sum =
      ((List.range k).filter P).length := by
  induction k with
  | zero => rfl
  | succ k ih =>
    rw [List.range_succ, List.map_append, List.sum_append, List.filter_append,
      List.length_append, ih]
    cases h : P k <;> simp [h]

theorem jointWedges_straight (m : CMath F) (poses : List (MapPos F)) (style : LineStyle F)
    (hopen : isLoopedLine poses = false)
    (hj : style.lineJointType = LineJointType.LINE_JOINT_TYPE_STRAIGHT) (i : Nat)
    (h1 : 1 ≤ i) :
    jointWedges poses style (isLoopedLine poses)
        (calcDeltaAngles m poses style (isLoopedLine poses)) i =
      if (decide (i + 1 < poses.length) && decide (turnAngle m poses i ≠ 0)) = true
      then 1 else 0 := by
  have hkind : style.lineJointType ≠ LineJointType.LINE_JOINT_TYPE_NONE := by
    rw [hj]; decide
  unfold jointWedges
  by_cases hi : i + 1 < poses.length
  · have hd := calcDeltaAngles_getD m poses style (isLoopedLine poses) i hkind h1 (by omega)
      (Or.inl hi)
    rw [hd]
    unfold jointSegments
    rw [if_pos hj]
    by_cases hz : turnAngle m poses i = 0
    · simp [hz]
    · simp [hz, hi, hkind]
  · simp [hi, hopen]

/-! ### Numeric lemmas -/

theorem fmod_360_range (x : F) (hx : 0 ≤ x) : 0 ≤ fmod x 360 ∧ fmod x 360 < 360 := by
  unfold fmod staticCastInt
  have hq : (0 : F) ≤ x / 360 := div_nonneg hx (by norm_num)
  rw [if_pos hq]
  have h1 : ((Int.floor (x / 360) : Int) : F) ≤ x / 360 := Int.floor_le _
  have h2 : x / 360 < ((Int.floor (x / 360) : Int) : F) + 1 := Int.lt_floor_add_one _
  have h3 : x = 360 * (x / 360) := by field_simp
  constructor
  · nlinarith
  · nlinarith

theorem calcDeltaAngle_range (a b : F) (h : 0 ≤ a - b + 360) :
    -180 ≤ calcDeltaAngle a b ∧ calcDeltaAngle a b < 180 := by
  obtain ⟨h1, h2⟩ := fmod_360_range (a - b + 360) h
  unfold calcDeltaAngle
  simp only
  split_ifs with hc
  · constructor <;> linarith
  · constructor <;> linarith

theorem heading_range (m : CMath F) (poses : List (MapPos F)) (i : Nat)
    (hatan : ∀ y x, -180 < m.atan2 y x * m.RAD_TO_DEG ∧ m.atan2 y x * m.RAD_TO_DEG ≤ 180) :
    -270 < heading m poses i ∧ heading m poses i ≤ 90 := by
  unfold heading calcNextAngle
  simp only
  constructor
  · linarith [(hatan
      ((if i + 1 < poses.length then poses.getD (i + 1) ⟨0, 0⟩
        else poses.getD 1 ⟨0, 0⟩).sub (poses.getD i ⟨0, 0⟩)).y
      ((if i + 1 < poses.length then poses.getD (i + 1) ⟨0, 0⟩
        else poses.getD 1 ⟨0, 0⟩).sub (poses.getD i ⟨0, 0⟩)).x).1]
  · linarith [(hatan
      ((if i + 1 < poses.length then poses.getD (i + 1) ⟨0, 0⟩
        else poses.getD 1 ⟨0, 0⟩).sub (poses.getD i ⟨0, 0⟩)).y
      ((if i + 1 < poses.length then poses.getD (i + 1) ⟨0, 0⟩
        else poses.getD 1 ⟨0, 0⟩).sub (poses.getD i ⟨0, 0⟩)).x).2]

/-! ### End caps -/

theorem tessLoop_lineEndType (m : CMath F) (poses : List (MapPos F)) (style : LineStyle F)
    (e : LineEndType) (k : Nat) :
    tessLoop m poses { style with lineEndType := e } k = tessLoop m poses style k := rfl

theorem lineEndPoints_eq_self (m : CMath F) (poses : List (MapPos F)) (style : LineStyle F)
    (loopedLine : Bool) (st : TessState F)
    (h : loopedLine = true ∨ style.lineEndType ≠ LineEndType.LINE_END_TYPE_ROUND ∨
      endPointSegments style ≤ 0) :
    lineEndPoints m poses style loopedLine st = st := by
  unfold lineEndPoints
  by_cases hc : (!loopedLine &&
      decide (style.lineEndType = LineEndType.LINE_END_TYPE_ROUND)) = true
  · rw [if_pos hc]
    simp only [Bool.and_eq_true, Bool.not_eq_true', decide_eq_true_eq] at hc
    rcases h with h | h | h
    · rw [hc.1] at h; cases h
    · exact absurd hc.2 h
    · have hseg : ¬ endPointSegments style > 0 := by omega
      simp only [if_neg hseg]
  · rw [if_neg hc]

theorem lineEndPoints_eq_caps (m : CMath F) (poses : List (MapPos F)) (style : LineStyle F)
    (loopedLine : Bool) (st : TessState F) (s : Nat) (hopen : loopedLine = false)
    (he : style.lineEndType = LineEndType.LINE_END_TYPE_ROUND)
    (hs : (s : Int) = endPointSegments style) (hs1 : 1 ≤ s) :
    lineEndPoints m poses style loopedLine st =
      firstEndPoint m style s
        (m.sin (endPointSegmentDeltaAngle (endPointSegments style) * m.DEG_TO_RAD))
        (m.cos (endPointSegmentDeltaAngle (endPointSegments style) * m.DEG_TO_RAD))
        (lastEndPoint m poses style s
          (m.sin (endPointSegmentDeltaAngle (endPointSegments style) * m.DEG_TO_RAD))
          (m.cos (endPointSegmentDeltaAngle (endPointSegments style) * m.DEG_TO_RAD)) st) := by
  have hc : (!loopedLine &&
      decide (style.lineEndType = LineEndType.LINE_END_TYPE_ROUND)) = true := by
    simp [hopen, he]
  have hseg : endPointSegments style > 0 := by omega
  have hnat : (endPointSegments style).toNat = s := by omega
  unfold lineEndPoints
  rw [if_pos hc]
  simp only [if_pos hseg, hnat]

theorem lastEndPoint_shape (m : CMath F) (poses : List (MapPos F)) (style : LineStyle F)
    (s : Nat) (sin cos : F) (st : TessState F) (hs : 1 ≤ s) :
    ∃ fan : List (Vec2 F), fan.length = s - 1 ∧
      (lastEndPoint m poses style s sin cos st).coords =
        st.coords ++ List.replicate s (poses.length - 1) ∧
      (lastEndPoint m poses style s sin cos st).normals = st.normals ++ ⟨0, 0⟩ :: fan ∧
      (lastEndPoint m poses style s sin cos st).indices =
        st.indices ++ lastEndPointIndices st.vertexIndex s := by
  refine ⟨(rotations sin cos
    ((MapVec.mk (st.lastLine.getNormalized m).y (-(st.lastLine.getNormalized m).x)).mulScalar
      (style.width / 2)) (s - 1)).map MapVec.toVec2, ?_, ?_, ?_, rfl⟩
  · rw [List.length_map, rotations_length]
  · simp only [lastEndPoint, List.append_assoc]
    rw [singleton_append_map_const _ s _ (rotations_length _ _ _ _) hs]
  · simp only [lastEndPoint, List.append_assoc]
    rfl

theorem firstEndPoint_shape (m : CMath F) (style : LineStyle F)
    (s : Nat) (sin cos : F) (st : TessState F) (hs : 1 ≤ s) :
    ∃ fan : List (Vec2 F), fan.length = s - 1 ∧
      (firstEndPoint m style s sin cos st).coords = st.coords ++ List.replicate s 0 ∧
      (firstEndPoint m style s sin cos st).normals = st.normals ++ ⟨0, 0⟩ :: fan ∧
      (firstEndPoint m style s sin cos st).indices =
        st.indices ++ firstEndPointIndices st.vertexIndex s := by
  refine ⟨(rotations sin cos
    ((MapVec.mk (-(st.firstLine.getNormalized m).y) (st.firstLine.getNormalized m).x).mulScalar
      (style.width / 2)) (s - 1)).map MapVec.toVec2, ?_, ?_, ?_, rfl⟩
  · rw [List.length_map, rotations_length]
  · simp only [firstEndPoint, List.append_assoc]
    rw [singleton_append_map_const _ s _ (rotations_length _ _ _ _) hs]
  · simp only [firstEndPoint, List.append_assoc]
    rfl

/-! ### The fields carried through the loop -/

theorem lineJoint_fields (m : CMath F) (poses : List (MapPos F)) (style : LineStyle F)
    (loopedLine : Bool) (deltaAngles : List F) (i p : Nat) (st : TessState F) :
    (lineJoint m poses style loopedLine deltaAngles i p st).firstLine = st.firstLine ∧
    (lineJoint m poses style loopedLine deltaAngles i p st).lastLine = st.lastLine ∧
    (lineJoint m poses style loopedLine deltaAngles i p st).texCoordY = st.texCoordY := by
  rcases lineJoint_cases m poses style loopedLine deltaAngles i p st with h | ⟨s, _, _, _, _, h⟩
  · rw [h]
    exact ⟨rfl, rfl, rfl⟩
  · rw [h]
    exact ⟨rfl, rfl, rfl⟩

theorem tessLoop_firstLine (m : CMath F) (poses : List (MapPos F)) (style : LineStyle F)
    (k : Nat) : (tessLoop m poses style (k + 2)).firstLine = calcPrevLine poses 1 0 := by
  induction k with
  | zero =>
    rw [tessLoop_step m poses style 1 (le_refl _)]
    exact (lineJoint_fields m poses style _ _ 1 0 _).1
  | succ k ih =>
    rw [tessLoop_step m poses style (k + 2) (by omega)]
    have h := (lineJoint_fields m poses style (isLoopedLine poses)
      (calcDeltaAngles m poses style (isLoopedLine poses)) (k + 2) (k + 2 - 1)
      (lineBody m poses style (k + 2) (k + 2 - 1) (tessLoop m poses style (k + 2)))).1
    refine h.trans ?_
    simp only [lineBody]
    rw [if_neg (by omega)]
    exact ih

theorem tessLoop_lastLine (m : CMath F) (poses : List (MapPos F)) (style : LineStyle F)
    (hn : 2 ≤ poses.length) :
    (tessLoop m poses style poses.length).lastLine =
      calcPrevLine poses (poses.length - 1) (poses.length - 2) := by
  obtain ⟨k, hk⟩ : ∃ k, poses.length = k + 2 := ⟨poses.length - 2, by omega⟩
  rw [hk, tessLoop_step m poses style (k + 1) (by omega)]
  have h := (lineJoint_fields m poses style (isLoopedLine poses)
    (calcDeltaAngles m poses style (isLoopedLine poses)) (k + 1) (k + 1 - 1)
    (lineBody m poses style (k + 1) (k + 1 - 1) (tessLoop m poses style (k + 1)))).2.1
  refine h.trans ?_
  simp only [lineBody]
  rw [if_pos (by omega)]
  rfl

/-! ### Non-zero direction vectors -/

theorem chain_getD_ne (d : MapPos F) :
    ∀ (l : List (MapPos F)), List.Chain' (fun a b => a ≠ b) l →
      ∀ i, i + 1 < l.length → l.getD i d ≠ l.getD (i + 1) d := by
  intro l
  induction l with
  | nil => intro _ i hi; simp at hi
  | cons a l ih =>
    intro hc i hi
    cases l with
    | nil => simp at hi
    | cons b l =>
      rw [List.chain'_cons] at hc
      cases i with
      | zero => simpa using hc.1
      | succ i =>
        have := ih hc.2 i (by simpa using hi)
        simpa using this

theorem sub_ne_zero_of_ne (a b : MapPos F) (h : a ≠ b) : a.sub b ≠ (⟨0, 0⟩ : MapVec F) := by
  intro e
  apply h
  simp only [MapPos.sub, MapVec.mk.injEq] at e
  cases a
  cases b
  simp only [MapPos.mk.injEq]
  exact ⟨sub_eq_zero.mp e.1, sub_eq_zero.mp e.2⟩

theorem calcPrevLine_ne_zero (poses : List (MapPos F))
    (hc : List.Chain' (fun a b => a ≠ b) poses) (i : Nat) (h1 : 1 ≤ i) (hi : i < poses.length) :
    calcPrevLine poses i (i - 1) ≠ (⟨0, 0⟩ : MapVec F) := by
  unfold calcPrevLine
  apply sub_ne_zero_of_ne
  have h := chain_getD_ne ⟨0, 0⟩ poses hc (i - 1) (by omega)
  rw [show i - 1 + 1 = i by omega] at h
  exact fun e => h e.symm

theorem looped_getD_last (poses : List (MapPos F)) (h : isLoopedLine poses = true) :
    2 < poses.length ∧ poses.getD (poses.length - 1) ⟨0, 0⟩ = poses.getD 0 ⟨0, 0⟩ := by
  unfold isLoopedLine at h
  simp only [Bool.and_eq_true, decide_eq_true_eq] at h
  refine ⟨h.2, ?_⟩
  have e := h.1
  rw [List.getLast?_eq_getElem?, List.head?_eq_getElem?] at e
  rw [List.getD_eq_getElem?_getD, List.getD_eq_getElem?_getD, ← e]

/-! ### Texture coordinates -/

theorem texS_zero (m : CMath F) (poses : List (MapPos F)) (style : LineStyle F) :
    texS m poses style 0 = 0 := by
  simp [texS]

theorem texS_succ (m : CMath F) (poses : List (MapPos F)) (style : LineStyle F) (k : Nat) :
    texS m poses style (k + 1) =
      texS m poses style k + segmentLength m poses (k + 1) * texCoordYScale style := by
  unfold texS texCoordYScale
  rw [List.range_succ, List.map_append, List.sum_append, add_div]
  simp only [List.map_cons, List.map_nil, List.sum_cons, List.sum_nil, add_zero]
  rw [mul_one_div]

theorem tessLoop_texCoordY (m : CMath F) (poses : List (MapPos F)) (style : LineStyle F)
    (hh : 1 < style.bitmapHeight) (k : Nat) :
    (tessLoop m poses style (k + 1)).texCoordY = texS m poses style k := by
  induction k with
  | zero =>
    rw [texS_zero]
    rfl
  | succ k ih =>
    rw [tessLoop_step m poses style (k + 1) (by omega)]
    have h := (lineJoint_fields m poses style (isLoopedLine poses)
      (calcDeltaAngles m poses style (isLoopedLine poses)) (k + 1) (k + 1 - 1)
      (lineBody m poses style (k + 1) (k + 1 - 1) (tessLoop m poses style (k + 1)))).2.2
    refine h.trans ?_
    simp only [lineBody]
    rw [if_pos (by simpa using hh), ih, texS_succ]
    rfl

theorem texS_le_succ (m : CMath F) (poses : List (MapPos F)) (style : LineStyle F)
    (hs : 0 < style.stretchFactor) (hsqrt : ∀ v : F, 0 ≤ m.sqrt v) (k : Nat) :
    texS m poses style k ≤ texS m poses style (k + 1) := by
  rw [texS_succ]
  have h1 : 0 ≤ segmentLength m poses (k + 1) := toFloat_nonneg _ (hsqrt _)
  have h2 : 0 ≤ texCoordYScale style := by
    unfold texCoordYScale
    apply div_nonneg zero_le_one
    exact mul_nonneg (le_of_lt hs) (Nat.cast_nonneg _)
  have := mul_nonneg h1 h2
  linarith

/-! ### Normals -/

theorem tessellate_caps_shape (m : CMath F) (poses : List (MapPos F)) (style : LineStyle F)
    (s : Nat) (hopen : isLoopedLine poses = false)
    (he : style.lineEndType = LineEndType.LINE_END_TYPE_ROUND)
    (hs : (s : Int) = endPointSegments style) (hs1 : 1 ≤ s) :
    (tessellate m poses style).coords =
      (tessLoop m poses style poses.length).coords ++ List.replicate s (poses.length - 1) ++
        List.replicate s 0 ∧
    (tessellate m poses style).indices =
      (tessLoop m poses style poses.length).indices ++
        lastEndPointIndices (tessLoop m poses style poses.length).vertexIndex s ++
        firstEndPointIndices ((tessLoop m poses style poses.length).vertexIndex + s) s := by
  have ht : tessellate m poses style = _ :=
    lineEndPoints_eq_caps m poses style (isLoopedLine poses)
      (tessLoop m poses style poses.length) s hopen he hs hs1
  obtain ⟨fan1, _, hc1, _, hi1⟩ := lastEndPoint_shape m poses style s
    (m.sin (endPointSegmentDeltaAngle (endPointSegments style) * m.DEG_TO_RAD))
    (m.cos (endPointSegmentDeltaAngle (endPointSegments style) * m.DEG_TO_RAD))
    (tessLoop m poses style poses.length) hs1
  obtain ⟨fan2, _, hc2, _, hi2⟩ := firstEndPoint_shape m style s
    (m.sin (endPointSegmentDeltaAngle (endPointSegments style) * m.DEG_TO_RAD))
    (m.cos (endPointSegmentDeltaAngle (endPointSegments style) * m.DEG_TO_RAD))
    (lastEndPoint m poses style s
      (m.sin (endPointSegmentDeltaAngle (endPointSegments style) * m.DEG_TO_RAD))
      (m.cos (endPointSegmentDeltaAngle (endPointSegments style) * m.DEG_TO_RAD))
      (tessLoop m poses style poses.length)) hs1
  rw [hc1] at hc2
  rw [hi1] at hi2
  rw [ht]
  exact ⟨hc2, hi2⟩

/-! ### Position bindings of joint and cap vertices -/

theorem getElem?_replicate_window (A : List Nat) (c v : Nat) (rest : List Nat) (x : Nat)
    (h1 : A.length ≤ x) (h2 : x < A.length + c) :
    (A ++ List.replicate c v ++ rest)[x]? = some v := by
  rw [List.getElem?_append_left (by simp; omega), List.getElem?_append_right h1,
    List.getElem?_replicate, if_pos (by omega)]

theorem jointIndices_mem (c s : Nat) (left lastPos : Bool) (hc : 2 ≤ c) (x : Nat)
    (hx : x ∈ jointIndices c s left lastPos) :
    (c - 2 ≤ x ∧ x < c + s) ∨ (lastPos = false ∧ c + s ≤ x ∧ x < c + s + 2) ∨
    (lastPos = true ∧ x < 2) := by
  unfold jointIndices at hx
  obtain ⟨j, hj, hxj⟩ := List.mem_flatMap.mp hx
  have hjs : j < s := List.mem_range.mp hj
  cases left <;> cases lastPos <;>
    simp only [Bool.false_eq_true, if_true, if_false, List.mem_cons, List.mem_singleton,
      List.not_mem_nil, or_false, true_and, false_and, false_or] at hxj ⊢ <;>
    rcases hxj with h | h | h <;> rw [h] <;> (try split_ifs) <;> omega

theorem lastEndPointIndices_mem (vi s : Nat) (hvi : 2 ≤ vi) (x : Nat)
    (hx : x ∈ lastEndPointIndices vi s) : vi - 2 ≤ x ∧ x < vi + s := by
  unfold lastEndPointIndices at hx
  obtain ⟨j, hj, hxj⟩ := List.mem_flatMap.mp hx
  have hjs : j < s := List.mem_range.mp hj
  simp only [List.mem_cons, List.mem_singleton, List.not_mem_nil, or_false] at hxj
  rcases hxj with h | h | h <;> rw [h] <;> (try split_ifs) <;> omega

theorem firstEndPointIndices_mem (vi s : Nat) (x : Nat)
    (hx : x ∈ firstEndPointIndices vi s) : x < 2 ∨ (vi ≤ x ∧ x < vi + s) := by
  unfold firstEndPointIndices at hx
  obtain ⟨j, hj, hxj⟩ := List.mem_flatMap.mp hx
  have hjs : j < s := List.mem_range.mp hj
  simp only [List.mem_cons, List.mem_singleton, List.not_mem_nil, or_false] at hxj
  rcases hxj with h | h | h <;> rw [h] <;> (try split_ifs) <;> omega

theorem jointWedges_pos (poses : List (MapPos F)) (style : LineStyle F) (loopedLine : Bool)
    (deltaAngles : List F) (i : Nat)
    (h : 0 < jointWedges poses style loopedLine deltaAngles i) :
    i + 1 < poses.length ∨ loopedLine = true := by
  unfold jointWedges at h
  by_cases hc : ((decide (i + 1 < poses.length) || loopedLine) &&
      decide (style.lineJointType ≠ LineJointType.LINE_JOINT_TYPE_NONE)) = true
  · simp only [Bool.and_eq_true, Bool.or_eq_true, decide_eq_true_eq] at hc
    exact hc.1
  · rw [if_neg hc] at h
    exact absurd h (lt_irrefl _)

theorem lineJoint_shape (m : CMath F) (poses : List (MapPos F)) (style : LineStyle F)
    (loopedLine : Bool) (deltaAngles : List F) (i p : Nat) (st : TessState F) :
    (lineJoint m poses style loopedLine deltaAngles i p st).coords =
      st.coords ++ List.replicate (jointWedges poses style loopedLine deltaAngles i) i ∧
    (lineJoint m poses style loopedLine deltaAngles i p st).indices =
      st.indices ++ jointIndices st.vertexIndex
        (jointWedges poses style loopedLine deltaAngles i)
        (decide (deltaAngles.getD (i - 1) 0 ≤ 0)) (decide (i = poses.length - 1)) := by
  by_cases hc : ((decide (i + 1 < poses.length) || loopedLine) &&
      decide (style.lineJointType ≠ LineJointType.LINE_JOINT_TYPE_NONE)) = true
  · by_cases hseg : jointSegments style (deltaAngles.getD (i - 1) 0) > 0
    · have hs1 : 1 ≤ (jointSegments style (deltaAngles.getD (i - 1) 0)).toNat := by omega
      unfold lineJoint jointWedges
      rw [if_pos hc, if_pos hc]
      simp only [if_pos hseg]
      simp only [addJoint, List.append_assoc]
      rw [singleton_append_map_const _ _ _ (rotations_length _ _ _ _) hs1]
      exact ⟨rfl, trivial⟩
    · have h0 : (jointSegments style (deltaAngles.getD (i - 1) 0)).toNat = 0 := by omega
      unfold lineJoint jointWedges
      rw [if_pos hc, if_pos hc]
      simp only [if_neg hseg]
      rw [h0]
      simp [jointIndices]
  · unfold lineJoint jointWedges
    rw [if_neg hc, if_neg hc]
    simp [jointIndices]

theorem tessLoop_shape (m : CMath F) (poses : List (MapPos F)) (style : LineStyle F) (i : Nat)
    (h1 : 1 ≤ i) :
    (tessLoop m poses style (i + 1)).coords =
      (tessLoop m poses style i).coords ++ [i - 1, i - 1, i, i] ++
        List.replicate (jointWedges poses style (isLoopedLine poses)
          (calcDeltaAngles m poses style (isLoopedLine poses)) i) i ∧
    (tessLoop m poses style (i + 1)).indices =
      (lineBody m poses style i (i - 1) (tessLoop m poses style i)).indices ++
        jointIndices ((tessLoop m poses style i).vertexIndex + 4)
          (jointWedges poses style (isLoopedLine poses)
            (calcDeltaAngles m poses style (isLoopedLine poses)) i)
          (decide ((calcDeltaAngles m poses style (isLoopedLine poses)).getD (i - 1) 0 ≤ 0))
          (decide (i = poses.length - 1)) := by
  obtain ⟨hc, hi⟩ := lineJoint_shape m poses style (isLoopedLine poses)
    (calcDeltaAngles m poses style (isLoopedLine poses)) i (i - 1)
    (lineBody m poses style i (i - 1) (tessLoop m poses style i))
  rw [tessLoop_step m poses style i h1]
  exact ⟨hc, hi⟩

theorem tessellate_coords_window (m : CMath F) (poses : List (MapPos F)) (style : LineStyle F)
    (i : Nat) (h1 : 1 ≤ i) (hi : i < poses.length) :
    ∃ rest, (tessellate m poses style).coords =
      ((tessLoop m poses style i).coords ++ [i - 1, i - 1]) ++
        List.replicate (2 + jointWedges poses style (isLoopedLine poses)
          (calcDeltaAngles m poses style (isLoopedLine poses)) i +
          (if i + 1 < poses.length then 2 else 0)) i ++ rest := by
  by_cases hlt : i + 1 < poses.length
  · obtain ⟨⟨cs, hcs⟩, _⟩ := tessellate_extends m poses style (i + 2) (by omega)
    have e1 := (tessLoop_shape m poses style (i + 1) (by omega)).1
    have e0 := (tessLoop_shape m poses style i h1).1
    rw [Nat.add_sub_cancel] at e1
    refine ⟨[i + 1, i + 1] ++ List.replicate (jointWedges poses style (isLoopedLine poses)
      (calcDeltaAngles m poses style (isLoopedLine poses)) (i + 1)) (i + 1) ++ cs, ?_⟩
    rw [hcs, e1, e0, if_pos hlt, List.replicate_add, List.replicate_add]
    simp [List.replicate]
  · obtain ⟨⟨cs, hcs⟩, _⟩ := tessellate_extends m poses style (i + 1) (by omega)
    have e0 := (tessLoop_shape m poses style i h1).1
    refine ⟨cs, ?_⟩
    rw [hcs, e0, if_neg hlt, Nat.add_zero, List.replicate_add]
    simp [List.replicate]

theorem tessellate_coords_first (m : CMath F) (poses : List (MapPos F)) (style : LineStyle F)
    (hn : 2 ≤ poses.length) (x : Nat) (hx : x < 2) :
    (tessellate m poses style).coords[x]? = some 0 := by
  obtain ⟨⟨cs, hcs⟩, _⟩ := tessellate_extends m poses style 2 hn
  have e0 := (tessLoop_shape m poses style 1 (le_refl _)).1
  have e1 : (tessLoop m poses style 1).coords = [] := rfl
  rw [hcs, e0, e1]
  rcases Nat.lt_succ_iff_lt_or_eq.mp hx with h | h
  · have h0 : x = 0 := by omega
    subst h0
    simp
  · subst h
    simp

theorem joint_vertex_binding (m : CMath F) (poses : List (MapPos F)) (style : LineStyle F)
    (hn : 2 ≤ poses.length) (i : Nat) (h1 : 1 ≤ i) (hi : i < poses.length) (x : Nat)
    (hx : x ∈ jointIndices ((tessLoop m poses style i).vertexIndex + 4)
      (jointWedges poses style (isLoopedLine poses)
        (calcDeltaAngles m poses style (isLoopedLine poses)) i)
      (decide ((calcDeltaAngles m poses style (isLoopedLine poses)).getD (i - 1) 0 ≤ 0))
      (decide (i = poses.length - 1))) :
    ∃ c, (tessellate m poses style).coords[x]? = some c ∧
      (c = i ∨ (c = 0 ∧ i = poses.length - 1 ∧ isLoopedLine poses = true)) ∧
      poses.getD c ⟨0, 0⟩ = poses.getD i ⟨0, 0⟩ := by
  have hW : 0 < jointWedges poses style (isLoopedLine poses)
      (calcDeltaAngles m poses style (isLoopedLine poses)) i := by
    rcases Nat.eq_zero_or_pos (jointWedges poses style (isLoopedLine poses)
      (calcDeltaAngles m poses style (isLoopedLine poses)) i) with h0 | h0
    · rw [h0] at hx
      simp [jointIndices] at hx
    · exact h0
  obtain ⟨w1, _, _, _⟩ := (tessLoop_inv m poses style i (le_of_lt hi)).1
  obtain ⟨rest, hrest⟩ := tessellate_coords_window m poses style i h1 hi
  have hA : ((tessLoop m poses style i).coords ++ [i - 1, i - 1]).length =
      (tessLoop m poses style i).vertexIndex + 2 := by
    rw [List.length_append, w1]
    rfl
  rcases jointIndices_mem _ _ _ _ (by omega) x hx with h | ⟨hl, h⟩ | ⟨hl, h⟩
  · refine ⟨i, ?_, Or.inl rfl, rfl⟩
    rw [hrest]
    exact getElem?_replicate_window _ _ _ _ _ (by rw [hA]; omega) (by rw [hA]; omega)
  · have hlt : i + 1 < poses.length := by
      simp only [decide_eq_false_iff_not] at hl
      omega
    refine ⟨i, ?_, Or.inl rfl, rfl⟩
    rw [hrest]
    exact getElem?_replicate_window _ _ _ _ _ (by rw [hA]; omega)
      (by rw [hA, if_pos hlt]; omega)
  · have hlast : i = poses.length - 1 := by simpa using hl
    have hloop : isLoopedLine poses = true := by
      rcases jointWedges_pos poses style _ _ i hW with h2 | h2
      · omega
      · exact h2
    refine ⟨0, tessellate_coords_first m poses style hn x h, Or.inr ⟨rfl, hlast, hloop⟩, ?_⟩
    rw [hlast]
    exact (looped_getD_last poses hloop).2.symm

theorem cap_vertex_binding (m : CMath F) (poses : List (MapPos F)) (style : LineStyle F)
    (hn : 2 ≤ poses.length) (s : Nat) (hopen : isLoopedLine poses = false)
    (he : style.lineEndType = LineEndType.LINE_END_TYPE_ROUND)
    (hs : (s : Int) = endPointSegments style) (hs1 : 1 ≤ s) :
    (∀ x ∈ lastEndPointIndices (tessLoop m poses style poses.length).vertexIndex s,
      (tessellate m poses style).coords[x]? = some (poses.length - 1)) ∧
    (∀ x ∈ firstEndPointIndices ((tessLoop m poses style poses.length).vertexIndex + s) s,
      (tessellate m poses style).coords[x]? = some 0) := by
  obtain ⟨hc, _⟩ := tessellate_caps_shape m poses style s hopen he hs hs1
  obtain ⟨⟨w1, _, _, _⟩, _, _, w4, _⟩ := tessLoop_inv m poses style poses.length (le_refl _)
  have hvi := w4 hn
  constructor
  · intro x hx
    obtain ⟨hx1, hx2⟩ := lastEndPointIndices_mem _ _ (by omega) x hx
    have e0 := (tessLoop_shape m poses style (poses.length - 1) (by omega)).1
    rw [show poses.length - 1 + 1 = poses.length by omega] at e0
    have hW : jointWedges poses style (isLoopedLine poses)
        (calcDeltaAngles m poses style (isLoopedLine poses)) (poses.length - 1) = 0 := by
      rcases Nat.eq_zero_or_pos (jointWedges poses style (isLoopedLine poses)
        (calcDeltaAngles m poses style (isLoopedLine poses)) (poses.length - 1)) with h0 | h0
      · exact h0
      · rcases jointWedges_pos poses style _ _ _ h0 with h2 | h2
        · omega
        · rw [hopen] at h2
          exact absurd h2 (by simp)
    rw [hW] at e0
    have hlen : (tessLoop m poses style (poses.length - 1)).coords.length + 4 =
        (tessLoop m poses style poses.length).vertexIndex := by
      rw [← w1, e0]
      simp
    have hshape : (tessellate m poses style).coords =
        ((tessLoop m poses style (poses.length - 1)).coords ++
          [poses.length - 1 - 1, poses.length - 1 - 1]) ++
        List.replicate (2 + s) (poses.length - 1) ++ List.replicate s 0 := by
      rw [hc, e0, List.replicate_add]
      simp [List.replicate]
    rw [hshape]
    exact getElem?_replicate_window _ _ _ _ _
      (by rw [List.length_append]; simp only [List.length_cons, List.length_nil]; omega)
      (by rw [List.length_append]; simp only [List.length_cons, List.length_nil]; omega)
  · intro x hx
    rcases firstEndPointIndices_mem _ _ x hx with h | ⟨hx1, hx2⟩
    · exact tessellate_coords_first m poses style hn x h
    · have hshape : (tessellate m poses style).coords =
          ((tessLoop m poses style poses.length).coords ++
            List.replicate s (poses.length - 1)) ++ List.replicate s 0 ++ [] := by
        rw [hc, List.append_nil]
      rw [hshape]
      exact getElem?_replicate_window _ _ _ _ _
        (by rw [List.length_append, List.length_replicate, w1]; omega)
        (by rw [List.length_append, List.length_replicate, w1]; omega)

theorem segmentLength_eq (m : CMath F) (poses : List (MapPos F)) (i : Nat) :
    segmentLength m poses i = calcPrevLineLength m (calcPrevLine poses i (i - 1)) := rfl

theorem jointWedges_eq (m : CMath F) (poses : List (MapPos F)) (style : LineStyle F) (i : Nat)
    (hkind : style.lineJointType ≠ LineJointType.LINE_JOINT_TYPE_NONE) (h1 : 1 ≤ i)
    (hi : i < poses.length) (hjoint : i + 1 < poses.length ∨ isLoopedLine poses = true) :
    jointWedges poses style (isLoopedLine poses)
        (calcDeltaAngles m poses style (isLoopedLine poses)) i =
      (jointSegments style (turnAngle m poses i)).toNat := by
  have hc : ((decide (i + 1 < poses.length) || isLoopedLine poses) &&
      decide (style.lineJointType ≠ LineJointType.LINE_JOINT_TYPE_NONE)) = true := by
    rcases hjoint with h | h
    · simp [h, hkind]
    · simp [h, hkind]
  unfold jointWedges
  rw [if_pos hc, calcDeltaAngles_getD m _ style _ i hkind h1 hi hjoint]

/-! ### The sample square root and the sample of two close positions -/

theorem axisMath_sqrt_sq (a : ℕ) : axisMath.sqrt ((a : ℚ) * a) = a := by
  have h : ((a : ℚ) * a) = ((a * a : ℕ) : ℚ) := by push_cast; ring
  simp only [axisMath]
  rw [h, Rat.num_natCast, Rat.den_natCast, Int.toNat_natCast, Nat.sqrt_eq]
  simp

theorem axisMath_sqrt_inv_sq (a : ℕ) (ha : 0 < a) :
    axisMath.sqrt ((1 / (a : ℚ)) * (1 / a)) = 1 / a := by
  have h : ((1 / (a : ℚ)) * (1 / a)) = (((a * a : ℕ) : ℚ))⁻¹ := by push_cast; field_simp
  simp only [axisMath]
  rw [h, Rat.inv_natCast_num_of_pos (Nat.mul_pos ha ha),
    Rat.inv_natCast_den_of_pos (Nat.mul_pos ha ha)]
  simp [Nat.sqrt_eq]

theorem axisMath_sqrt_inv_two_pow (k : ℕ) :
    axisMath.sqrt ((1 / 2 ^ k : ℚ) * (1 / 2 ^ k)) = 1 / 2 ^ k := by
  have h := axisMath_sqrt_inv_sq (2 ^ k) (by positivity)
  push_cast at h
  exact h

theorem axisMath_length_x (a : ℚ) :
    MapVec.length axisMath (⟨a, 0⟩ : MapVec ℚ) = axisMath.sqrt (a * a) := by
  simp [MapVec.length]

theorem sampleTiny_ne : (⟨1 / 2 ^ 160, 0⟩ : MapPos ℚ) ≠ ⟨0, 0⟩ := by
  intro h
  have h2 := congrArg MapPos.x h
  norm_num at h2

theorem sampleTiny_line : calcPrevLine sampleTiny 1 0 = ⟨1 / 2 ^ 160, 0⟩ := by
  simp [calcPrevLine, sampleTiny, MapPos.sub]

theorem sampleTiny_length : (calcPrevLine sampleTiny 1 0).length axisMath = 1 / 2 ^ 160 := by
  rw [sampleTiny_line, axisMath_length_x]
  exact axisMath_sqrt_inv_two_pow 160

theorem sampleTiny_lastLine (style : LineStyle ℚ) :
    (tessLoop axisMath sampleTiny style sampleTiny.length).lastLine =
      calcPrevLine sampleTiny 1 0 :=
  tessLoop_lastLine axisMath sampleTiny style (by decide)

end TessLemmas

/-! ## Lemmas on the preprocessing -/

section PreprocessLemmas

set_option linter.unusedSectionVars false

variable {F : Type} [LinearOrderedField F] [FloorRing F]

theorem dropRepeatsAfter_nil {α : Type} [DecidableEq α] (p : α) :
    dropRepeatsAfter p ([] : List α) = [] := rfl

theorem dropRepeatsAfter_cons {α : Type} [DecidableEq α] (p b : α) (l : List α) :
    dropRepeatsAfter p (b :: l) =
      if b = p then dropRepeatsAfter b l else b :: dropRepeatsAfter b l := rfl

theorem dropRepeatsAfter_snoc {α : Type} [DecidableEq α] (b : α) (l : List α) :
    ∀ p : α, dropRepeatsAfter p (l ++ [b]) =
      if b = l.getLast?.getD p then dropRepeatsAfter p l else dropRepeatsAfter p l ++ [b] := by
  induction l with
  | nil =>
    intro p
    rw [List.nil_append, dropRepeatsAfter_cons, dropRepeatsAfter_nil]
    by_cases h : b = p <;> simp [h, dropRepeatsAfter_nil]
  | cons c l ih =>
    intro p
    rw [List.cons_append, dropRepeatsAfter_cons, dropRepeatsAfter_cons, ih c,
      List.getLast?_cons]
    by_cases h : c = p <;> by_cases h2 : b = l.getLast?.getD c <;> simp [h, h2]

theorem dropRepeatsAfter_getLast? {α : Type} [DecidableEq α] (l : List α) :
    ∀ p : α, (dropRepeatsAfter p l).getLast?.getD p = l.getLast?.getD p := by
  induction l with
  | nil => intro p; rfl
  | cons c l ih =>
    intro p
    rw [dropRepeatsAfter_cons, List.getLast?_cons]
    by_cases h : c = p
    · rw [if_pos h, ← h]; simpa using ih c
    · rw [if_neg h, List.getLast?_cons]; simpa using ih c

theorem dropRepeats_getLast? {α : Type} [DecidableEq α] (l : List α) :
    (dropRepeats l).getLast? = l.getLast? := by
  cases l with
  | nil => rfl
  | cons a l =>
    rw [dropRepeats, List.getLast?_cons, List.getLast?_cons, dropRepeatsAfter_getLast?]

theorem dropRepeats_snoc {α : Type} [DecidableEq α] (l : List α) (b : α) :
    dropRepeats (l ++ [b]) =
      if l.getLast? = some b then dropRepeats l else dropRepeats l ++ [b] := by
  cases l with
  | nil => simp [dropRepeats, dropRepeatsAfter_nil]
  | cons a l =>
    rw [List.cons_append, dropRepeats, dropRepeats, dropRepeatsAfter_snoc, List.getLast?_cons]
    by_cases h : b = l.getLast?.getD a
    · have h2 : (some (l.getLast?.getD a) : Option α) = some b := by rw [← h]
      rw [if_pos h]
      exact (if_pos h2).symm
    · have h2 : ¬ (some (l.getLast?.getD a) : Option α) = some b := by
        intro e; injection e with e; exact h e.symm
      rw [if_neg h]
      exact (if_neg h2).symm

theorem dropRepeats_head? {α : Type} [DecidableEq α] (l : List α) :
    (dropRepeats l).head? = l.head? := by
  cases l <;> rfl

theorem dropRepeatsAfter_sublist {α : Type} [DecidableEq α] (l : List α) :
    ∀ p : α, List.Sublist (dropRepeatsAfter p l) l := by
  induction l with
  | nil => intro p; exact List.Sublist.slnil
  | cons c l ih =>
    intro p
    rw [dropRepeatsAfter_cons]
    by_cases h : c = p
    · rw [if_pos h]; exact List.Sublist.cons c (ih c)
    · rw [if_neg h]; exact List.Sublist.cons₂ c (ih c)

theorem dropRepeats_sublist {α : Type} [DecidableEq α] (l : List α) :
    List.Sublist (dropRepeats l) l := by
  cases l with
  | nil => exact List.Sublist.slnil
  | cons a l => exact List.Sublist.cons₂ a (dropRepeatsAfter_sublist l a)

theorem dropRepeatsAfter_chain {α : Type} [DecidableEq α] (l : List α) :
    ∀ p : α, List.Chain (fun a b => a ≠ b) p (dropRepeatsAfter p l) := by
  induction l with
  | nil => intro p; exact List.Chain.nil
  | cons c l ih =>
    intro p
    rw [dropRepeatsAfter_cons]
    by_cases h : c = p
    · rw [if_pos h, ← h]; exact ih c
    · rw [if_neg h]; exact List.Chain.cons (fun e => h e.symm) (ih c)

theorem dropRepeats_chain {α : Type} [DecidableEq α] (l : List α) :
    List.Chain' (fun a b => a ≠ b) (dropRepeats l) := by
  cases l with
  | nil => exact List.chain'_nil
  | cons a l => exact dropRepeatsAfter_chain l a

theorem dropRepeatsAfter_replicate {α : Type} [DecidableEq α] (a : α) (l : List α) (k : Nat) :
    dropRepeatsAfter a (List.replicate k a ++ l) = dropRepeatsAfter a l := by
  induction k with
  | zero => rfl
  | succ k ih =>
    rw [List.replicate_succ, List.cons_append, dropRepeatsAfter_cons, if_pos rfl]
    exact ih

theorem expandRuns_cons {α : Type} (a : α) (k : Nat) (rs : List (α × Nat)) :
    expandRuns ((a, k) :: rs) = a :: (List.replicate k a ++ expandRuns rs) := by
  simp [expandRuns, List.replicate_succ]

theorem dropRepeats_expandRuns {α : Type} [DecidableEq α] (runs : List (α × Nat))
    (h : List.Chain' (fun r q : α × Nat => r.1 ≠ q.1) runs) :
    dropRepeats (expandRuns runs) = runs.map Prod.fst := by
  induction runs with
  | nil => rfl
  | cons r rs ih =>
    obtain ⟨a, k⟩ := r
    have hrs := ih (List.Chain'.tail h)
    rw [expandRuns_cons, dropRepeats, dropRepeatsAfter_replicate, List.map_cons]
    cases rs with
    | nil => rfl
    | cons q qs =>
      obtain ⟨b, j⟩ := q
      have hne : a ≠ b := (List.chain'_cons.mp h).1
      rw [expandRuns_cons] at hrs ⊢
      rw [dropRepeats] at hrs
      rw [dropRepeatsAfter_cons, if_neg (fun e => hne e.symm), hrs]

theorem removeDuplicatesLoop_succ (toInternal : MapPos F → MapPos F) (poses : List (MapPos F))
    (k : Nat) :
    removeDuplicatesLoop toInternal poses (k + 1) =
      removeDuplicatesBody toInternal poses (removeDuplicatesLoop toInternal poses k) k := by
  simp [removeDuplicatesLoop, List.range_succ, List.foldl_append]

theorem removeDuplicatesLoop_eq (toInternal : MapPos F → MapPos F) (poses : List (MapPos F))
    (k : Nat) (hk : k ≤ poses.length) :
    removeDuplicatesLoop toInternal poses k =
      dropRepeats ((poses.map toInternal).take k) := by
  induction k with
  | zero => rfl
  | succ k ih =>
    have hget : (poses.map toInternal)[k]? = some (toInternal (poses.getD k ⟨0, 0⟩)) := by
      rw [List.getElem?_map, List.getD_eq_getElem?_getD]
      obtain ⟨a, ha⟩ := getElem?_exists poses k (by omega)
      rw [ha]; rfl
    rw [removeDuplicatesLoop_succ, ih (by omega), List.take_succ, hget]
    have e : (some (toInternal (poses.getD k ⟨0, 0⟩))).toList =
        [toInternal (poses.getD k ⟨0, 0⟩)] := rfl
    rw [e, dropRepeats_snoc]
    unfold removeDuplicatesBody
    simp only [dropRepeats_getLast?]
    by_cases h0 : k = 0
    · subst h0
      simp
    · by_cases hl : ((poses.map toInternal).take k).getLast? =
          some (toInternal (poses.getD k ⟨0, 0⟩))
      · rw [if_pos hl, if_neg (by simp [h0, hl])]
      · rw [if_neg hl, if_pos (Or.inr hl)]

theorem linePoses_eq (toInternal : MapPos F → MapPos F) (poses : List (MapPos F)) :
    linePoses toInternal poses = dropRepeats (poses.map toInternal) := by
  unfold linePoses
  rw [removeDuplicatesLoop_eq toInternal poses poses.length (le_refl _)]
  congr 1
  apply List.take_of_length_le
  rw [List.length_map]

theorem polygonPoses_eq (a : MapPos F) (l : List (MapPos F)) :
    polygonPoses (a :: l) =
      if (dropRepeats (a :: l)).getLast? = some a then dropRepeats (a :: l)
      else dropRepeats (a :: l) ++ [a] := by
  have h : removeDuplicatesLoop (fun p => p) (a :: l) (a :: l).length = dropRepeats (a :: l) := by
    rw [removeDuplicatesLoop_eq (fun p => p) (a :: l) (a :: l).length (le_refl _),
      List.map_id', List.take_of_length_le (le_refl _)]
  unfold polygonPoses
  simp only [h, List.head?_cons]
  by_cases hl : (dropRepeats (a :: l)).getLast? = some a
  · rw [if_pos hl, if_neg (fun hn => hn hl)]
  · rw [if_neg hl, if_pos hl]

theorem init_isSome (m : CMath F) (maxBuf : Nat) (poses : List (MapPos F))
    (style : LineStyle F) : ∃ bufs, init m maxBuf poses style = some bufs := by
  by_cases h : poses.length < 2
  · exact ⟨[], by unfold init; rw [if_pos h]⟩
  · obtain ⟨bufs, e, _⟩ := init_spec m maxBuf poses style (by omega)
    exact ⟨bufs, e⟩

theorem ofLineGeometry_eq (m : CMath F) (maxBuf : Nat) (ideal : F)
    (toInternal : MapPos F → MapPos F) (poses : List (MapPos F)) (style : LineStyle F) :
    ∃ bufs, ofLineGeometry m maxBuf ideal toInternal poses style =
      some { clickScale := lineClickScale ideal style
             poses := linePoses toInternal poses
             buffers := bufs
             isOffset := false } := by
  obtain ⟨bufs, e⟩ := init_isSome m maxBuf (linePoses toInternal poses) style
  exact ⟨bufs, by unfold ofLineGeometry; rw [e]; rfl⟩

theorem ofPolygonGeometry_eq (m : CMath F) (maxBuf : Nat) (ideal : F)
    (internalPoses : List (MapPos F)) (style : LineStyle F) :
    ∃ bufs, ofPolygonGeometry m maxBuf ideal internalPoses style =
      some { clickScale := polygonClickScale ideal style
             poses := polygonPoses internalPoses
             buffers := bufs
             isOffset := false } := by
  obtain ⟨bufs, e⟩ := init_isSome m maxBuf (polygonPoses internalPoses) style
  exact ⟨bufs, by unfold ofPolygonGeometry; rw [e]; rfl⟩

theorem polygonPoses_nil : polygonPoses ([] : List (MapPos F)) = [] := rfl

theorem polygonPoses_props (a : MapPos F) (l : List (MapPos F)) :
    (polygonPoses (a :: l)).head? = some a ∧ (polygonPoses (a :: l)).getLast? = some a ∧
    List.Chain' (fun a b => a ≠ b) (polygonPoses (a :: l)) := by
  rw [polygonPoses_eq]
  refine ⟨?_, ?_, ?_⟩
  · split_ifs <;> simp [dropRepeats]
  · split_ifs with hl
    · exact hl
    · exact List.getLast?_concat _
  · split_ifs with hl
    · exact dropRepeats_chain _
    · rw [List.chain'_append]
      refine ⟨dropRepeats_chain _, List.chain'_singleton _, ?_⟩
      intro x hx y hy
      simp only [List.head?_cons, Option.mem_def, Option.some.injEq] at hy
      rw [Option.mem_def] at hx
      subst hy
      intro e
      subst e
      exact hl hx

theorem polygonPoses_loop (internalPoses : List (MapPos F))
    (h : 2 ≤ (polygonPoses internalPoses).length) :
    3 ≤ (polygonPoses internalPoses).length ∧
    (polygonPoses internalPoses).head? = (polygonPoses internalPoses).getLast? ∧
    isLoopedLine (polygonPoses internalPoses) = true := by
  cases internalPoses with
  | nil => rw [polygonPoses_nil] at h; simp at h
  | cons a l =>
    obtain ⟨h1, h2, h3⟩ := polygonPoses_props a l
    have hlen : 3 ≤ (polygonPoses (a :: l)).length := by
      match hp : polygonPoses (a :: l), h, h1, h2, h3 with
      | [], h, _, _, _ => simp at h
      | [_], h, _, _, _ => simp at h
      | [x, y], _, h1, h2, h3 =>
        simp only [List.head?_cons, Option.some.injEq] at h1
        have h2 : y = a := by simpa using h2
        have h3 : x ≠ y := by simpa using h3
        exact absurd (h1.trans h2.symm) h3
      | _ :: _ :: _ :: _, _, _, _, _ => simp
    refine ⟨hlen, by rw [h1, h2], ?_⟩
    unfold isLoopedLine
    rw [h1, h2]
    simpa using hlen

theorem preprocessed_chain (toInternal : MapPos F → MapPos F) (input poses : List (MapPos F))
    (h : poses = linePoses toInternal input ∨ poses = polygonPoses input) :
    List.Chain' (fun a b => a ≠ b) poses := by
  rcases h with h | h
  · rw [h, linePoses_eq]
    exact dropRepeats_chain _
  · rw [h]
    cases input with
    | nil => rw [polygonPoses_nil]; exact List.chain'_nil
    | cons a l => exact (polygonPoses_props a l).2.2

end PreprocessLemmas

/-! ## Claims -/

section Claims

set_option linter.unusedSectionVars false

variable {F : Type} [LinearOrderedField F] [FloorRing F]

/-- C1: for every polyline with at least two positions, every style and every buffer limit
`maxBuf ≥ 3`, `init` produces buffers each of which has an index count that is a multiple
of 3 and at most `maxBuf`, and the index counts of all buffers sum to the number of indices
emitted by the tessellator. -/
theorem init_buffers_within_budget (m : CMath F) (maxBuf : Nat) (poses : List (MapPos F))
    (style : LineStyle F) (hn : 2 ≤ poses.length) (hmax : 3 ≤ maxBuf) :
    ∃ bufs, init m maxBuf poses style = some bufs ∧
      (∀ b ∈ bufs, b.indices.length % 3 = 0 ∧ b.indices.length ≤ maxBuf) ∧
      (bufs.map (fun b => b.indices.length)).sum =
        (tessellate m poses style).indices.length := by
  obtain ⟨bufs, e, hb, hs, _⟩ := init_spec m maxBuf poses style hn
  exact ⟨bufs, e, fun b hbm => ⟨(hb b hbm).1, (hb b hbm).2 hmax⟩, hs⟩

theorem init_buffers_within_budget_witness :
    2 ≤ sampleCorner.length ∧ 3 ≤ 6 ∧
    ∃ bufs, init axisMath 6 sampleCorner
        (sampleStyle 4 LineJointType.LINE_JOINT_TYPE_STRAIGHT
          LineEndType.LINE_END_TYPE_NONE) = some bufs ∧
      (∀ b ∈ bufs, b.indices.length % 3 = 0 ∧ b.indices.length ≤ 6) ∧
      (bufs.map (fun b => b.indices.length)).sum =
        (tessellate axisMath sampleCorner
          (sampleStyle 4 LineJointType.LINE_JOINT_TYPE_STRAIGHT
            LineEndType.LINE_END_TYPE_NONE)).indices.length :=
  ⟨by decide, by decide,
    init_buffers_within_budget axisMath 6 sampleCorner _ (by decide) (by decide)⟩

/-- C2: for vertex arrays of one length and an index list of whole triangles whose indices
are all in range, the partitioner succeeds for every buffer limit and preserves the
geometry: resolving each output buffer's indices through that buffer's own vertex arrays and
concatenating over the buffers in output order gives exactly the sequence obtained by
resolving the original indices through the original arrays, every entry of which is
defined. -/
theorem partition_preserves_geometry {G : Type} (maxBuf : Nat) (coords : List Nat)
    (normals texCoords : List (Vec2 G)) (indices : List Nat)
    (hn : normals.length = coords.length) (ht : texCoords.length = coords.length)
    (hval : ∀ i ∈ indices, i < coords.length) (h3 : indices.length % 3 = 0) :
    ∃ bufs, partitionBuffers maxBuf coords normals texCoords indices = some bufs ∧
      bufs.flatMap DrawBuffer.resolve = resolveIndices coords normals texCoords indices ∧
      ∀ r ∈ resolveIndices coords normals texCoords indices, r.isSome = true := by
  obtain ⟨bufs, e, _, _, hr⟩ :=
    partitionBuffers_spec maxBuf coords normals texCoords indices hn ht hval h3
  exact ⟨bufs, e, hr, resolveIndices_isSome coords normals texCoords indices hn ht hval⟩

theorem partition_preserves_geometry_witness :
    ∃ bufs, partitionBuffers 3 [0, 0, 1, 1]
        ([⟨0, 1⟩, ⟨0, -1⟩, ⟨0, 1⟩, ⟨0, -1⟩] : List (Vec2 ℚ))
        [⟨0, 0⟩, ⟨1, 0⟩, ⟨0, 1⟩, ⟨1, 1⟩] [0, 1, 2, 1, 3, 2] = some bufs ∧
      bufs.flatMap DrawBuffer.resolve =
        resolveIndices [0, 0, 1, 1] ([⟨0, 1⟩, ⟨0, -1⟩, ⟨0, 1⟩, ⟨0, -1⟩] : List (Vec2 ℚ))
          [⟨0, 0⟩, ⟨1, 0⟩, ⟨0, 1⟩, ⟨1, 1⟩] [0, 1, 2, 1, 3, 2] ∧
      ∀ r ∈ resolveIndices [0, 0, 1, 1] ([⟨0, 1⟩, ⟨0, -1⟩, ⟨0, 1⟩, ⟨0, -1⟩] : List (Vec2 ℚ))
          [⟨0, 0⟩, ⟨1, 0⟩, ⟨0, 1⟩, ⟨1, 1⟩] [0, 1, 2, 1, 3, 2], r.isSome = true :=
  partition_preserves_geometry 3 [0, 0, 1, 1] _ _ [0, 1, 2, 1, 3, 2] rfl rfl
    (by decide) (by decide)

/-- C3: for every polyline of `n ≥ 2` positions with joint kind NONE and end-cap kind NONE,
the tessellator emits exactly `4 * (n - 1)` vertices and exactly `6 * (n - 1)` indices, and
the index counts of the output buffers sum to `6 * (n - 1)`. -/
theorem body_counts_without_joints_and_caps (m : CMath F) (maxBuf : Nat)
    (poses : List (MapPos F)) (style : LineStyle F) (hn : 2 ≤ poses.length)
    (hj : style.lineJointType = LineJointType.LINE_JOINT_TYPE_NONE)
    (he : style.lineEndType = LineEndType.LINE_END_TYPE_NONE) :
    (tessellate m poses style).coords.length = 4 * (poses.length - 1) ∧
    (tessellate m poses style).normals.length = 4 * (poses.length - 1) ∧
    (tessellate m poses style).texCoords.length = 4 * (poses.length - 1) ∧
    (tessellate m poses style).indices.length = 6 * (poses.length - 1) ∧
    ∃ bufs, init m maxBuf poses style = some bufs ∧
      (bufs.map (fun b => b.indices.length)).sum = 6 * (poses.length - 1) := by
  obtain ⟨k, hk⟩ : ∃ k, poses.length = k + 1 := ⟨poses.length - 1, by omega⟩
  have hcap : tessellate m poses style = tessLoop m poses style (k + 1) := by
    unfold tessellate lineEndPoints
    rw [hk, he]
    simp
  have hw : ∀ j, jointWedges poses style (isLoopedLine poses)
      (calcDeltaAngles m poses style (isLoopedLine poses)) (j + 1) = 0 := by
    intro j
    unfold jointWedges
    rw [hj]
    simp
  obtain ⟨c1, c2, _⟩ := tessLoop_counts m poses style k
  simp only [hw, List.map_const', List.sum_replicate, smul_eq_mul, mul_zero, add_zero] at c1 c2
  obtain ⟨⟨w1, w2, w3, _⟩, _⟩ := tessellate_spec m poses style hn
  obtain ⟨bufs, e, _, hs, _⟩ := init_spec m maxBuf poses style hn
  rw [hcap] at w1 w2 w3 hs
  rw [hcap, hk]
  simp only [Nat.add_sub_cancel]
  exact ⟨by omega, by omega, by omega, c2, bufs, e, by omega⟩

theorem body_counts_without_joints_and_caps_witness :
    2 ≤ sampleCorner.length ∧
    (tessellate axisMath sampleCorner
      (sampleStyle 4 LineJointType.LINE_JOINT_TYPE_NONE
        LineEndType.LINE_END_TYPE_NONE)).coords.length = 4 * (sampleCorner.length - 1) ∧
    (tessellate axisMath sampleCorner
      (sampleStyle 4 LineJointType.LINE_JOINT_TYPE_NONE
        LineEndType.LINE_END_TYPE_NONE)).indices.length = 6 * (sampleCorner.length - 1) :=
  ⟨by decide,
    (body_counts_without_joints_and_caps axisMath 6 sampleCorner
      (sampleStyle 4 LineJointType.LINE_JOINT_TYPE_NONE LineEndType.LINE_END_TYPE_NONE)
      (by decide) rfl rfl).1,
    (body_counts_without_joints_and_caps axisMath 6 sampleCorner
      (sampleStyle 4 LineJointType.LINE_JOINT_TYPE_NONE LineEndType.LINE_END_TYPE_NONE)
      (by decide) rfl rfl).2.2.2.1⟩

/-- C4: for every segment from position `i - 1` to position `i` (`1 ≤ i ≤ n - 1`), with `b`
the number of vertices emitted before the segment, the tessellator appends four vertices
`b .. b + 3` whose origins are the positions `i - 1, i - 1, i, i` and whose normals are
`v, -v, v, -v` for one vector `v`, and appends the six indices
`b, b + 1, b + 2, b + 1, b + 3, b + 2` in that order. -/
theorem segment_quad (m : CMath F) (poses : List (MapPos F)) (style : LineStyle F) (i : Nat)
    (h1 : 1 ≤ i) (hi : i < poses.length) :
    ∃ (b : Nat) (vx vy : F) (cs : List Nat) (ns : List (Vec2 F)) (js : List Nat),
      (tessLoop m poses style i).coords.length = b ∧
      (tessLoop m poses style i).normals.length = b ∧
      (tessellate m poses style).coords =
        (tessLoop m poses style i).coords ++ [i - 1, i - 1, i, i] ++ cs ∧
      (tessellate m poses style).normals =
        (tessLoop m poses style i).normals ++
          [⟨vx, vy⟩, ⟨-vx, -vy⟩, ⟨vx, vy⟩, ⟨-vx, -vy⟩] ++ ns ∧
      (tessellate m poses style).indices =
        (tessLoop m poses style i).indices ++ [b, b + 1, b + 2, b + 1, b + 3, b + 2] ++ js := by
  obtain ⟨⟨w1, w2, _, _⟩, _⟩ := tessLoop_inv m poses style i (by omega)
  obtain ⟨⟨cs, e1⟩, ⟨ns, e2⟩, _, ⟨js, e4⟩⟩ := quad_extends m poses style i h1 hi
  refine ⟨(tessLoop m poses style i).vertexIndex,
    (calcPrevPerpVec1 m style (calcPrevLine poses i (i - 1))).x,
    (calcPrevPerpVec1 m style (calcPrevLine poses i (i - 1))).y, cs, ns, js, w1, w2, ?_, ?_, ?_⟩
  · rw [e1]; rfl
  · rw [e2]
    have hx : (calcPrevPerpVec2 m style (calcPrevLine poses i (i - 1))).toVec2 =
        ⟨-(calcPrevPerpVec1 m style (calcPrevLine poses i (i - 1))).x,
          -(calcPrevPerpVec1 m style (calcPrevLine poses i (i - 1))).y⟩ := by
      simp [calcPrevPerpVec1, calcPrevPerpVec2, MapVec.toVec2, MapVec.mulScalar]
    simp only [lineBody, hx]
    rfl
  · rw [e4]; rfl

theorem segment_quad_witness :
    1 ≤ 2 ∧ 2 < sampleCorner.length ∧
    ∃ (b : Nat) (vx vy : ℚ) (cs : List Nat) (ns : List (Vec2 ℚ)) (js : List Nat),
      (tessLoop axisMath sampleCorner
        (sampleStyle 4 LineJointType.LINE_JOINT_TYPE_STRAIGHT
          LineEndType.LINE_END_TYPE_NONE) 2).coords.length = b ∧
      (tessLoop axisMath sampleCorner
        (sampleStyle 4 LineJointType.LINE_JOINT_TYPE_STRAIGHT
          LineEndType.LINE_END_TYPE_NONE) 2).normals.length = b ∧
      (tessellate axisMath sampleCorner
        (sampleStyle 4 LineJointType.LINE_JOINT_TYPE_STRAIGHT
          LineEndType.LINE_END_TYPE_NONE)).coords =
        (tessLoop axisMath sampleCorner
          (sampleStyle 4 LineJointType.LINE_JOINT_TYPE_STRAIGHT
            LineEndType.LINE_END_TYPE_NONE) 2).coords ++ [2 - 1, 2 - 1, 2, 2] ++ cs ∧
      (tessellate axisMath sampleCorner
        (sampleStyle 4 LineJointType.LINE_JOINT_TYPE_STRAIGHT
          LineEndType.LINE_END_TYPE_NONE)).normals =
        (tessLoop axisMath sampleCorner
          (sampleStyle 4 LineJointType.LINE_JOINT_TYPE_STRAIGHT
            LineEndType.LINE_END_TYPE_NONE) 2).normals ++
          [⟨vx, vy⟩, ⟨-vx, -vy⟩, ⟨vx, vy⟩, ⟨-vx, -vy⟩] ++ ns ∧
      (tessellate axisMath sampleCorner
        (sampleStyle 4 LineJointType.LINE_JOINT_TYPE_STRAIGHT
          LineEndType.LINE_END_TYPE_NONE)).indices =
        (tessLoop axisMath sampleCorner
          (sampleStyle 4 LineJointType.LINE_JOINT_TYPE_STRAIGHT
            LineEndType.LINE_END_TYPE_NONE) 2).indices ++
          [b, b + 1, b + 2, b + 1, b + 3, b + 2] ++ js :=
  ⟨by decide, by decide, segment_quad axisMath sampleCorner _ 2 (by decide) (by decide)⟩

/-- C5: for every joint with `s ≥ 1` wedges at position index `i` (an interior vertex, or the
loop-closing vertex `i = n - 1` of a loop), with `c` the index of the joint's centre vertex:
the incoming quad is `c - 4 .. c - 1`, the joint's `s` vertices `c .. c + s - 1` are all bound
to position `i`, and the `s` emitted triangles are the fan around `c` along the rim that runs
from the end vertex of the incoming quad (`c - 2` for a turn angle `≤ 0`, `c - 1` otherwise)
through the fan vertices `c + 1 .. c + s - 1` to the start vertex on the same side of the
outgoing quad (its local vertex 0 for a turn angle `≤ 0`, local vertex 1 otherwise), wedge
`j` using the rim vertices `j` and `j + 1`; the outgoing quad is the quad of the next
segment, and at the loop-closing joint it is the first quad, which starts at vertex 0. -/
theorem joint_fan (m : CMath F) (poses : List (MapPos F)) (style : LineStyle F) (i s : Nat)
    (h1 : 1 ≤ i) (hi : i < poses.length)
    (hjoint : i + 1 < poses.length ∨ isLoopedLine poses = true)
    (hkind : style.lineJointType ≠ LineJointType.LINE_JOINT_TYPE_NONE)
    (hs : (s : Int) = jointSegments style (turnAngle m poses i)) (hs1 : 1 ≤ s) :
    ∃ c out : Nat,
      c = (tessLoop m poses style i).vertexIndex + 4 ∧
      c = (lineBody m poses style i (i - 1) (tessLoop m poses style i)).coords.length ∧
      out = (tessLoop m poses style (if i + 1 < poses.length then i + 1 else 1)).vertexIndex ∧
      (i + 1 < poses.length → out = c + s) ∧
      (¬ i + 1 < poses.length → out = 0) ∧
      (tessLoop m poses style (i + 1)).coords =
        (lineBody m poses style i (i - 1) (tessLoop m poses style i)).coords ++
          List.replicate s i ∧
      (tessLoop m poses style (i + 1)).indices =
        (lineBody m poses style i (i - 1) (tessLoop m poses style i)).indices ++
          fanTriangles c s (decide (turnAngle m poses i ≤ 0))
            (jointRim c s out (decide (turnAngle m poses i ≤ 0))) := by
  have hd := calcDeltaAngles_getD m poses style (isLoopedLine poses) i hkind h1 hi hjoint
  have hstep := tessLoop_step m poses style i h1
  rw [lineJoint_eq_addJoint m poses style (isLoopedLine poses) _ i (i - 1) s _ hjoint hkind
    (by rw [hd]; exact hs) hs1, hd] at hstep
  obtain ⟨⟨w1, _, _, _⟩, _, h01, _, _⟩ := tessLoop_inv m poses style i (by omega)
  have hc4 : 4 ≤ (tessLoop m poses style i).vertexIndex + 4 := by omega
  have hlen : (lineBody m poses style i (i - 1) (tessLoop m poses style i)).coords.length =
      (tessLoop m poses style i).vertexIndex + 4 := by
    simp [lineBody, w1]
  have hv : (tessLoop m poses style (i + 1)).vertexIndex =
      (tessLoop m poses style i).vertexIndex + 4 + s := by
    rw [hstep]; rfl
  have hout : (tessLoop m poses style (if i + 1 < poses.length then i + 1 else 1)).vertexIndex =
      (if decide (i = poses.length - 1) then 0 else (tessLoop m poses style i).vertexIndex + 4 + s)
      := by
    by_cases hlast : i + 1 < poses.length
    · rw [if_pos hlast, hv]
      have : decide (i = poses.length - 1) = false := by
        simp only [decide_eq_false_iff_not]; omega
      rw [this]; rfl
    · rw [if_neg hlast]
      have : decide (i = poses.length - 1) = true := by
        simp only [decide_eq_true_eq]; omega
      rw [this]
      exact ((tessLoop_inv m poses style 1 (by omega)).2.2.1 (le_refl _)).1
  refine ⟨(tessLoop m poses style i).vertexIndex + 4, _, rfl, hlen.symm, rfl, ?_, ?_, ?_, ?_⟩
  · intro hlast
    rw [if_pos hlast]; exact hv
  · intro hlast
    rw [if_neg hlast]
    exact ((tessLoop_inv m poses style 1 (by omega)).2.2.1 (le_refl _)).1
  · rw [hstep]
    simp only [addJoint, List.append_assoc]
    rw [singleton_append_map_const i s _ (rotations_length _ _ _ _) hs1]
  · have hq : (lineBody m poses style i (i - 1) (tessLoop m poses style i)).vertexIndex =
        (tessLoop m poses style i).vertexIndex + 4 := rfl
    rw [hstep, hout]
    simp only [addJoint]
    rw [hq, jointIndices_eq_fan _ _ _ _ hc4]

theorem joint_fan_witness :
    1 ≤ 4 ∧ 4 < sampleLoop.length ∧
    (4 + 1 < sampleLoop.length ∨ isLoopedLine sampleLoop = true) ∧
    (sampleStyle 4 LineJointType.LINE_JOINT_TYPE_STRAIGHT
      LineEndType.LINE_END_TYPE_NONE).lineJointType ≠ LineJointType.LINE_JOINT_TYPE_NONE ∧
    ((1 : Nat) : Int) = jointSegments
      (sampleStyle 4 LineJointType.LINE_JOINT_TYPE_STRAIGHT LineEndType.LINE_END_TYPE_NONE)
      (turnAngle axisMath sampleLoop 4) ∧
    ∃ c out : Nat,
      c = (tessLoop axisMath sampleLoop
        (sampleStyle 4 LineJointType.LINE_JOINT_TYPE_STRAIGHT
          LineEndType.LINE_END_TYPE_NONE) 4).vertexIndex + 4 ∧
      out = 0 ∧
      (tessLoop axisMath sampleLoop
        (sampleStyle 4 LineJointType.LINE_JOINT_TYPE_STRAIGHT
          LineEndType.LINE_END_TYPE_NONE) (4 + 1)).indices =
        (lineBody axisMath sampleLoop
          (sampleStyle 4 LineJointType.LINE_JOINT_TYPE_STRAIGHT
            LineEndType.LINE_END_TYPE_NONE) 4 (4 - 1)
          (tessLoop axisMath sampleLoop
            (sampleStyle 4 LineJointType.LINE_JOINT_TYPE_STRAIGHT
              LineEndType.LINE_END_TYPE_NONE) 4)).indices ++
          fanTriangles c 1 (decide (turnAngle axisMath sampleLoop 4 ≤ 0))
            (jointRim c 1 out (decide (turnAngle axisMath sampleLoop 4 ≤ 0))) := by
  have hloop : isLoopedLine sampleLoop = true := by
    simp [isLoopedLine, sampleLoop]
  have hturn : turnAngle axisMath sampleLoop 4 = 90 := by
    simp only [turnAngle, heading, calcNextAngle, sampleLoop, axisMath, MapPos.sub]
    norm_num [calcDeltaAngle, fmod, staticCastInt]
  have hseg : ((1 : Nat) : Int) = jointSegments
      (sampleStyle 4 LineJointType.LINE_JOINT_TYPE_STRAIGHT LineEndType.LINE_END_TYPE_NONE)
      (turnAngle axisMath sampleLoop 4) := by
    rw [hturn]
    simp [jointSegments, sampleStyle]
  have hk : (sampleStyle 4 LineJointType.LINE_JOINT_TYPE_STRAIGHT
      LineEndType.LINE_END_TYPE_NONE).lineJointType ≠ LineJointType.LINE_JOINT_TYPE_NONE := by
    simp [sampleStyle]
  obtain ⟨c, out, e1, _, _, _, e5, _, e7⟩ :=
    joint_fan axisMath sampleLoop
      (sampleStyle 4 LineJointType.LINE_JOINT_TYPE_STRAIGHT LineEndType.LINE_END_TYPE_NONE)
      4 1 (by decide) (by decide) (Or.inr hloop) hk hseg (by decide)
  exact ⟨by decide, by decide, Or.inr hloop, hk, hseg, c, out, e1, e5 (by decide), e7⟩

/-- C6: for every open polyline with the bevel joint kind (`LINE_JOINT_TYPE_STRAIGHT`) and
end-cap kind NONE, each interior vertex whose turn angle is non-zero contributes exactly one
triangle (3 indices) after the quad of its incoming segment and each interior vertex whose
turn angle is zero contributes none, so the total index count is `6 * (n - 1) + 3 * k` where
`k` is the number of interior vertices with non-zero turn angle. In particular, when `atan2`
and the degree conversion are exact on the two axis directions involved, the polyline
`[(0,0), (10,0), (10,10)]` yields 8 body vertices plus the joint's centre vertex, 12 body
indices plus one joint triangle, 15 indices in total, in exactly one buffer for every
buffer limit of at least 15. -/
theorem bevel_joint_counts (m : CMath F) (maxBuf : Nat) (poses : List (MapPos F))
    (style : LineStyle F) (hn : 2 ≤ poses.length) (hopen : isLoopedLine poses = false)
    (hj : style.lineJointType = LineJointType.LINE_JOINT_TYPE_STRAIGHT)
    (he : style.lineEndType = LineEndType.LINE_END_TYPE_NONE) :
    (∀ i, 1 ≤ i → i + 1 < poses.length →
      (tessLoop m poses style (i + 1)).indices.length =
        (lineBody m poses style i (i - 1) (tessLoop m poses style i)).indices.length +
          (if turnAngle m poses i ≠ 0 then 3 else 0)) ∧
    (tessellate m poses style).indices.length =
      6 * (poses.length - 1) +
        3 * ((List.range (poses.length - 2)).filter
          (fun j => decide (turnAngle m poses (j + 1) ≠ 0))).length ∧
    (poses = [⟨0, 0⟩, ⟨10, 0⟩, ⟨10, 10⟩] → m.atan2 0 10 * m.RAD_TO_DEG = 0 →
      m.atan2 10 0 * m.RAD_TO_DEG = 90 → 15 ≤ maxBuf →
      (tessellate m poses style).coords.length = 8 + 1 ∧
      (tessellate m poses style).indices.length = 12 + 3 ∧
      init m maxBuf poses style =
        some [{ coords := (tessellate m poses style).coords
                normals := (tessellate m poses style).normals
                texCoords := (tessellate m poses style).texCoords
                indices := (tessellate m poses style).indices }]) := by
  have hkind : style.lineJointType ≠ LineJointType.LINE_JOINT_TYPE_NONE := by
    rw [hj]; decide
  obtain ⟨k, hk⟩ : ∃ k, poses.length = k + 2 := ⟨poses.length - 2, by omega⟩
  have hcap : tessellate m poses style = tessLoop m poses style poses.length := by
    unfold tessellate lineEndPoints
    rw [he]
    simp
  have hw := jointWedges_straight m poses style hopen hj
  have hsum : ((List.range (k + 1)).map (fun j => jointWedges poses style (isLoopedLine poses)
      (calcDeltaAngles m poses style (isLoopedLine poses)) (j + 1))).sum =
      ((List.range k).filter (fun j => decide (turnAngle m poses (j + 1) ≠ 0))).length := by
    rw [List.range_succ, List.map_append, List.sum_append,
      ← sum_ite_eq_filter_length (fun j => decide (turnAngle m poses (j + 1) ≠ 0)) k]
    have hlast : jointWedges poses style (isLoopedLine poses)
        (calcDeltaAngles m poses style (isLoopedLine poses)) (k + 1) = 0 := by
      rw [hw (k + 1) (by omega)]
      have : ¬ (k + 1 + 1 < poses.length) := by omega
      simp [this]
    simp only [List.map_cons, List.map_nil, List.sum_cons, List.sum_nil, hlast, add_zero]
    congr 1
    apply List.map_congr_left
    intro j hjm
    have hjk : j < k := List.mem_range.mp hjm
    rw [hw (j + 1) (by omega)]
    have : j + 1 + 1 < poses.length := by omega
    simp [this]
  have htotal : (tessellate m poses style).indices.length =
      6 * (poses.length - 1) +
        3 * ((List.range (poses.length - 2)).filter
          (fun j => decide (turnAngle m poses (j + 1) ≠ 0))).length := by
    rw [hcap]
    have hc := (tessLoop_counts m poses style (k + 1)).2.1
    rw [hsum] at hc
    have e1 : poses.length = k + 1 + 1 := by omega
    have e2 : poses.length - 2 = k := by omega
    have e3 : poses.length - 1 = k + 1 := by omega
    rw [e2, e3]
    rw [e1]
    exact hc
  refine ⟨?_, htotal, ?_⟩
  · intro i h1 hi
    rw [tessLoop_step m poses style i h1]
    have hc := (lineJoint_counts m poses style (isLoopedLine poses)
      (calcDeltaAngles m poses style (isLoopedLine poses)) i (i - 1)
      (lineBody m poses style i (i - 1) (tessLoop m poses style i))).2
    simp only [hc, hw i h1]
    by_cases hz : turnAngle m poses i = 0
    · simp [hz]
    · simp [hz, hi]
  · intro hp ha1 ha2 hmaxBuf
    have hlen : poses.length = 3 := by rw [hp]; rfl
    have hturn : turnAngle m poses 1 = 90 := by
      simp only [turnAngle, heading, calcNextAngle, hp, MapPos.sub]
      norm_num [ha1, ha2]
      norm_num [calcDeltaAngle, fmod, staticCastInt]
    have hcount : ((List.range (poses.length - 2)).filter
        (fun j => decide (turnAngle m poses (j + 1) ≠ 0))).length = 1 := by
      rw [hlen]
      simp [List.range_succ, hturn]
    have hidx : (tessellate m poses style).indices.length = 15 := by
      rw [htotal, hcount, hlen]
    have hvert : (tessellate m poses style).coords.length = 9 := by
      obtain ⟨⟨w1, _, _, _⟩, _⟩ := tessLoop_inv m poses style poses.length (le_refl _)
      rw [hcap, w1]
      have hc := (tessLoop_counts m poses style (k + 1)).1
      rw [hsum] at hc
      have e1 : poses.length = k + 1 + 1 := by omega
      have e2 : poses.length - 2 = k := by omega
      rw [e2] at hcount
      rw [e1, hc, hcount]
      omega
    refine ⟨hvert, hidx, ?_⟩
    unfold init partitionBuffers
    rw [if_neg (by omega)]
    simp only
    rw [if_pos (by omega)]

theorem bevel_joint_counts_witness :
    2 ≤ sampleCorner.length ∧ isLoopedLine sampleCorner = false ∧
    (tessellate axisMath sampleCorner
      (sampleStyle 4 LineJointType.LINE_JOINT_TYPE_STRAIGHT
        LineEndType.LINE_END_TYPE_NONE)).coords.length = 8 + 1 ∧
    (tessellate axisMath sampleCorner
      (sampleStyle 4 LineJointType.LINE_JOINT_TYPE_STRAIGHT
        LineEndType.LINE_END_TYPE_NONE)).indices.length = 12 + 3 := by
  have hopen : isLoopedLine sampleCorner = false := by
    simp [isLoopedLine, sampleCorner]
  have h := (bevel_joint_counts axisMath 65535 sampleCorner
    (sampleStyle 4 LineJointType.LINE_JOINT_TYPE_STRAIGHT LineEndType.LINE_END_TYPE_NONE)
    (by decide) hopen rfl rfl).2.2 rfl (by simp [axisMath]) (by simp [axisMath]) (by decide)
  exact ⟨by decide, hopen, h.1, h.2.1⟩

/-- C7 (as stated, refuted): for the corner `[(0,0), (10,0), (10,10)]` with joint kind ROUND
and the `float` width `12945383 / 2^21` (about 6.1728), the turn angle at the interior
position is 90 and `ceil(|D| * w * 0.0018) = 2`, but the `float` products of line 271 round to
`16777215 / 2^24 < 1`, so `segments = 1`: the tessellator appends one joint vertex and one
triangle, not two. -/
theorem round_joint_float_product_gives_one_wedge :
    turnAngle axisMath sampleCorner 1 = 90 ∧
    Int.ceil (|turnAngle axisMath sampleCorner 1| * (12945383 / 2 ^ 21 : ℚ) * (18 / 10000)) =
      2 ∧
    toFloat (toFloat (|turnAngle axisMath sampleCorner 1| * (12945383 / 2 ^ 21 : ℚ)) *
      toFloat (18 / 10000)) = 16777215 / 2 ^ 24 ∧
    jointSegments
      (sampleStyle (12945383 / 2 ^ 21) LineJointType.LINE_JOINT_TYPE_ROUND
        LineEndType.LINE_END_TYPE_NONE) (turnAngle axisMath sampleCorner 1) = 1 ∧
    (tessLoop axisMath sampleCorner
      (sampleStyle (12945383 / 2 ^ 21) LineJointType.LINE_JOINT_TYPE_ROUND
        LineEndType.LINE_END_TYPE_NONE) 2).coords = [0, 0, 1, 1] ++ [1] ∧
    (tessLoop axisMath sampleCorner
      (sampleStyle (12945383 / 2 ^ 21) LineJointType.LINE_JOINT_TYPE_ROUND
        LineEndType.LINE_END_TYPE_NONE) 2).indices.length = 6 + 3 * 1 := by
  have hturn : turnAngle axisMath sampleCorner 1 = 90 := by
    simp only [turnAngle, heading, calcNextAngle, sampleCorner, axisMath, MapPos.sub]
    norm_num [calcDeltaAngle, fmod, staticCastInt]
  have ha : toFloat (|(90 : ℚ)| * (12945383 / 2 ^ 21)) = 9102222 / 2 ^ 14 := by
    rw [toFloat_eq _ 9 9102222 (by norm_num [abs_of_pos]) (by norm_num [abs_of_pos])
      (by norm_num) (roundHalfEven_down _ 9102222 (by norm_num [abs_of_pos])
        (by norm_num [abs_of_pos]))]
    norm_num
  have hb : toFloat ((9102222 / 2 ^ 14 : ℚ) * (15461882 / 2 ^ 33)) = 16777215 / 2 ^ 24 := by
    rw [toFloat_eq _ (-1) 16777215 (by norm_num) (by norm_num) (by norm_num)
      (roundHalfEven_down _ 16777215 (by norm_num) (by norm_num))]
    norm_num
  have hc : toFloat (18 / 10000 : ℚ) = 15461882 / 2 ^ 33 := joint_factor_eq
  have hseg : jointSegments
      (sampleStyle (12945383 / 2 ^ 21) LineJointType.LINE_JOINT_TYPE_ROUND
        LineEndType.LINE_END_TYPE_NONE) (turnAngle axisMath sampleCorner 1) = 1 := by
    rw [hturn]
    exact jointSegments_round_eval _ 90 (9102222 / 2 ^ 14) (16777215 / 2 ^ 24) 1 rfl ha hb
      (by norm_num) (by norm_num)
  have hW : jointWedges sampleCorner
      (sampleStyle (12945383 / 2 ^ 21) LineJointType.LINE_JOINT_TYPE_ROUND
        LineEndType.LINE_END_TYPE_NONE) (isLoopedLine sampleCorner)
      (calcDeltaAngles axisMath sampleCorner
        (sampleStyle (12945383 / 2 ^ 21) LineJointType.LINE_JOINT_TYPE_ROUND
          LineEndType.LINE_END_TYPE_NONE) (isLoopedLine sampleCorner)) 1 = 1 := by
    rw [jointWedges_eq axisMath sampleCorner _ 1 (by simp [sampleStyle]) (le_refl _)
      (by decide) (Or.inl (by decide)), hseg]
    rfl
  obtain ⟨e1, e2⟩ := tessLoop_shape axisMath sampleCorner
    (sampleStyle (12945383 / 2 ^ 21) LineJointType.LINE_JOINT_TYPE_ROUND
      LineEndType.LINE_END_TYPE_NONE) 1 (le_refl _)
  rw [hW] at e1 e2
  refine ⟨hturn, ?_, ?_, hseg, ?_, ?_⟩
  · rw [hturn, Int.ceil_eq_iff]
    constructor <;> norm_num [abs_of_pos]
  · rw [hturn, hc, ha, hb]
  · rw [e1]
    rfl
  · rw [e2, List.length_append, jointIndices_length]
    rfl

/-- C7 (amended): for every joint processed with joint kind ROUND at position index `i`,
with turn angle `D` and style width `w > 0`, the tessellator appends after the quad of the
incoming segment exactly `s = ceil(fl(fl(|D| * w) * 0.0018f))` triangles (`3 * s` indices) and
exactly `s` vertices, all bound to position `i`: one centre vertex with zero normal followed
by `s - 1` fan vertices; when `s = 0` it appends nothing. Here `fl` rounds a product to
`float`, `0.0018f = fl(0.0018)`, and the rounded product is at most `2^31 - 1`, so that its
conversion to `int` is defined. -/
theorem round_joint_counts (m : CMath F) (poses : List (MapPos F)) (style : LineStyle F)
    (i : Nat) (h1 : 1 ≤ i) (hi : i < poses.length)
    (hjoint : i + 1 < poses.length ∨ isLoopedLine poses = true)
    (hkind : style.lineJointType = LineJointType.LINE_JOINT_TYPE_ROUND)
    (hw : 0 < style.width)
    (hfit : toFloat (toFloat (|turnAngle m poses i| * style.width) * toFloat (18 / 10000)) ≤
      2 ^ 31 - 1) :
    ∃ s : Nat,
      (s : Int) = Int.ceil
        (toFloat (toFloat (|turnAngle m poses i| * style.width) * toFloat (18 / 10000))) ∧
      (s : Int) ≤ 2 ^ 31 - 1 ∧
      (tessLoop m poses style (i + 1)).indices.length =
        (lineBody m poses style i (i - 1) (tessLoop m poses style i)).indices.length + 3 * s ∧
      (tessLoop m poses style (i + 1)).coords =
        (lineBody m poses style i (i - 1) (tessLoop m poses style i)).coords ++
          List.replicate s i ∧
      (∃ fan : List (Vec2 F), fan.length = s - 1 ∧
        (tessLoop m poses style (i + 1)).normals =
          (lineBody m poses style i (i - 1) (tessLoop m poses style i)).normals ++
            (if s = 0 then [] else ⟨0, 0⟩ :: fan)) ∧
      (tessLoop m poses style (i + 1)).texCoords.length =
        (lineBody m poses style i (i - 1) (tessLoop m poses style i)).texCoords.length + s ∧
      (s = 0 →
        (tessLoop m poses style (i + 1)).coords =
          (lineBody m poses style i (i - 1) (tessLoop m poses style i)).coords ∧
        (tessLoop m poses style (i + 1)).normals =
          (lineBody m poses style i (i - 1) (tessLoop m poses style i)).normals ∧
        (tessLoop m poses style (i + 1)).texCoords =
          (lineBody m poses style i (i - 1) (tessLoop m poses style i)).texCoords ∧
        (tessLoop m poses style (i + 1)).indices =
          (lineBody m poses style i (i - 1) (tessLoop m poses style i)).indices) := by
  have hne : style.lineJointType ≠ LineJointType.LINE_JOINT_TYPE_NONE := by
    rw [hkind]; decide
  have hns : ¬ style.lineJointType = LineJointType.LINE_JOINT_TYPE_STRAIGHT := by
    rw [hkind]; decide
  have hd := calcDeltaAngles_getD m poses style (isLoopedLine poses) i hne h1 hi hjoint
  have hseg : jointSegments style (turnAngle m poses i) =
      Int.ceil
        (toFloat (toFloat (|turnAngle m poses i| * style.width) * toFloat (18 / 10000))) := by
    unfold jointSegments LINE_JOINT_TESSELATION_FACTOR
    rw [if_neg hns]
  have hnonneg : 0 ≤ Int.ceil
      (toFloat (toFloat (|turnAngle m poses i| * style.width) * toFloat (18 / 10000))) := by
    apply Int.ceil_nonneg
    exact toFloat_nonneg _ (mul_nonneg
      (toFloat_nonneg _ (mul_nonneg (abs_nonneg _) (le_of_lt hw)))
      (toFloat_nonneg _ (by norm_num)))
  have hmax : Int.ceil
      (toFloat (toFloat (|turnAngle m poses i| * style.width) * toFloat (18 / 10000))) ≤
      2 ^ 31 - 1 := by
    rw [Int.ceil_le]
    norm_num at hfit ⊢
    exact hfit
  have hstep := tessLoop_step m poses style i h1
  obtain ⟨sN, hsN⟩ : ∃ sN : Nat,
      (sN : Int) = Int.ceil
        (toFloat (toFloat (|turnAngle m poses i| * style.width) * toFloat (18 / 10000))) :=
    ⟨_, Int.toNat_of_nonneg hnonneg⟩
  refine ⟨sN, hsN, by rw [hsN]; exact hmax, ?_⟩
  by_cases hz : sN = 0
  · rw [lineJoint_eq_self m poses style (isLoopedLine poses) _ i (i - 1) _
      (by rw [hd, hseg]; omega)] at hstep
    rw [hz, hstep]
    exact ⟨rfl, by simp, ⟨[], rfl, by simp⟩, rfl, fun _ => ⟨rfl, rfl, rfl, rfl⟩⟩
  · have hs1 : 1 ≤ sN := by omega
    rw [lineJoint_eq_addJoint m poses style (isLoopedLine poses) _ i (i - 1) sN _ hjoint hne
      (by rw [hd, hseg]; exact hsN) hs1, hd] at hstep
    rw [hstep]
    refine ⟨?_, ?_, ?_, ?_, ?_⟩
    · simp only [addJoint, List.length_append, jointIndices_length]
    · simp only [addJoint, List.append_assoc]
      rw [singleton_append_map_const i _ _ (rotations_length _ _ _ _) hs1]
    · refine ⟨(rotations (m.sin (turnAngle m poses i / (sN : F) * m.DEG_TO_RAD))
          (m.cos (turnAngle m poses i / (sN : F) * m.DEG_TO_RAD))
          (if decide (turnAngle m poses i ≤ 0) = true then
            calcPrevPerpVec1 m style (calcPrevLine poses i (i - 1))
          else calcPrevPerpVec2 m style (calcPrevLine poses i (i - 1)))
          (sN - 1)).map MapVec.toVec2, ?_, ?_⟩
      · simp only [List.length_map, rotations_length]
      · simp only [addJoint, List.append_assoc]
        rw [if_neg hz]
        rfl
    · simp only [addJoint, List.length_append, List.length_map, rotations_length,
        List.length_singleton]
      omega
    · intro h0
      omega

theorem round_joint_counts_witness :
    1 ≤ 4 ∧ 4 < sampleLoop.length ∧
    (4 + 1 < sampleLoop.length ∨ isLoopedLine sampleLoop = true) ∧
    (0 : ℚ) < (sampleStyle 40 LineJointType.LINE_JOINT_TYPE_ROUND
      LineEndType.LINE_END_TYPE_NONE).width ∧
    toFloat (toFloat (|turnAngle axisMath sampleLoop 4| *
      (sampleStyle 40 LineJointType.LINE_JOINT_TYPE_ROUND
        LineEndType.LINE_END_TYPE_NONE).width) * toFloat (18 / 10000)) = 13589545 / 2 ^ 21 ∧
    ∃ s : Nat,
      (s : Int) = 7 ∧
      (tessLoop axisMath sampleLoop
        (sampleStyle 40 LineJointType.LINE_JOINT_TYPE_ROUND
          LineEndType.LINE_END_TYPE_NONE) (4 + 1)).indices.length =
        (lineBody axisMath sampleLoop
          (sampleStyle 40 LineJointType.LINE_JOINT_TYPE_ROUND
            LineEndType.LINE_END_TYPE_NONE) 4 (4 - 1)
          (tessLoop axisMath sampleLoop
            (sampleStyle 40 LineJointType.LINE_JOINT_TYPE_ROUND
              LineEndType.LINE_END_TYPE_NONE) 4)).indices.length + 3 * s := by
  have hloop : isLoopedLine sampleLoop = true := by
    simp [isLoopedLine, sampleLoop]
  have hw : (0 : ℚ) < (sampleStyle 40 LineJointType.LINE_JOINT_TYPE_ROUND
      LineEndType.LINE_END_TYPE_NONE).width := by
    norm_num [sampleStyle]
  have hturn : turnAngle axisMath sampleLoop 4 = 90 := by
    simp only [turnAngle, heading, calcNextAngle, sampleLoop, axisMath, MapPos.sub]
    norm_num [calcDeltaAngle, fmod, staticCastInt]
  have ha : toFloat (|(90 : ℚ)| * 40) = 3600 := by
    rw [toFloat_eq _ 11 14745600 (by norm_num [abs_of_pos]) (by norm_num [abs_of_pos])
      (by norm_num) (roundHalfEven_down _ 14745600 (by norm_num [abs_of_pos])
        (by norm_num [abs_of_pos]))]
    norm_num
  have hb : toFloat ((3600 : ℚ) * (15461882 / 2 ^ 33)) = 13589545 / 2 ^ 21 := by
    rw [toFloat_eq _ 2 13589545 (by norm_num) (by norm_num) (by norm_num)
      (roundHalfEven_up _ 13589544 (by norm_num) (by norm_num))]
    norm_num
  have hc : toFloat (18 / 10000 : ℚ) = 15461882 / 2 ^ 33 := joint_factor_eq
  have hval : toFloat (toFloat (|turnAngle axisMath sampleLoop 4| *
      (sampleStyle 40 LineJointType.LINE_JOINT_TYPE_ROUND
        LineEndType.LINE_END_TYPE_NONE).width) * toFloat (18 / 10000)) =
      13589545 / 2 ^ 21 := by
    rw [hturn, hc]
    simp only [sampleStyle]
    rw [ha, hb]
  obtain ⟨s, e1, _, e2, _⟩ := round_joint_counts axisMath sampleLoop
    (sampleStyle 40 LineJointType.LINE_JOINT_TYPE_ROUND LineEndType.LINE_END_TYPE_NONE)
    4 (by decide) (by decide) (Or.inr hloop) rfl hw (by rw [hval]; norm_num)
  refine ⟨by decide, by decide, Or.inr hloop, hw, hval, s, ?_, e2⟩
  rw [e1, hval, Int.ceil_eq_iff]
  constructor <;> norm_num

/-- C8 (as stated, refuted): for the headings `-90` and `90` of the two segments of the
polyline `[(0,0), (1,0), (-1,0)]`, the turn angle computed by lines 162-165 is exactly `-180`,
which is not strictly greater than `-180`. -/
theorem turn_angle_reversal_is_minus_180 :
    calcDeltaAngle (90 : ℚ) (-90) = -180 ∧
    heading axisMath sampleReversal 0 = -90 ∧ heading axisMath sampleReversal 1 = 90 ∧
    (calcDeltaAngles axisMath sampleReversal
      (sampleStyle 4 LineJointType.LINE_JOINT_TYPE_ROUND LineEndType.LINE_END_TYPE_NONE)
      (isLoopedLine sampleReversal)).getD 0 0 = -180 ∧
    ¬ (-180 < (calcDeltaAngles axisMath sampleReversal
      (sampleStyle 4 LineJointType.LINE_JOINT_TYPE_ROUND LineEndType.LINE_END_TYPE_NONE)
      (isLoopedLine sampleReversal)).getD 0 0) := by
  have h1 : calcDeltaAngle (90 : ℚ) (-90) = -180 := by
    norm_num [calcDeltaAngle, fmod, staticCastInt]
  have h2 : heading axisMath sampleReversal 0 = -90 := by
    simp only [heading, calcNextAngle, sampleReversal, axisMath, MapPos.sub]
    norm_num
  have h3 : heading axisMath sampleReversal 1 = 90 := by
    simp only [heading, calcNextAngle, sampleReversal, axisMath, MapPos.sub]
    norm_num
  have hopen : isLoopedLine sampleReversal = false := by
    simp [isLoopedLine, sampleReversal]
  have h4 : (calcDeltaAngles axisMath sampleReversal
      (sampleStyle 4 LineJointType.LINE_JOINT_TYPE_ROUND LineEndType.LINE_END_TYPE_NONE)
      (isLoopedLine sampleReversal)).getD 0 0 = -180 := by
    have h := calcDeltaAngles_getD axisMath sampleReversal
      (sampleStyle 4 LineJointType.LINE_JOINT_TYPE_ROUND LineEndType.LINE_END_TYPE_NONE)
      (isLoopedLine sampleReversal) 1 (by simp [sampleStyle]) (le_refl _) (by decide)
      (Or.inl (by decide))
    rw [h]
    unfold turnAngle
    rw [h3, h2]
    exact h1
  refine ⟨h1, h2, h3, h4, ?_⟩
  rw [h4]
  norm_num

/-- C8 (amended): when `atan2` converted to degrees takes its values in `(-180, 180]`, every
heading lies in `(-270, 90]` and every turn angle that `init` stores in `deltaAngles` for a
joint position `i` (an interior vertex, or the closing vertex of a loop) lies in the
half-open interval `[-180, 180)`: it is at least `-180` and strictly less than `180`. -/
theorem turn_angle_range (m : CMath F) (poses : List (MapPos F)) (style : LineStyle F)
    (i : Nat)
    (hatan : ∀ y x, -180 < m.atan2 y x * m.RAD_TO_DEG ∧ m.atan2 y x * m.RAD_TO_DEG ≤ 180)
    (hkind : style.lineJointType ≠ LineJointType.LINE_JOINT_TYPE_NONE)
    (h1 : 1 ≤ i) (hi : i < poses.length)
    (hjoint : i + 1 < poses.length ∨ isLoopedLine poses = true) :
    (calcDeltaAngles m poses style (isLoopedLine poses)).getD (i - 1) 0 =
      calcDeltaAngle (heading m poses i) (heading m poses (i - 1)) ∧
    (-270 < heading m poses i ∧ heading m poses i ≤ 90) ∧
    (-270 < heading m poses (i - 1) ∧ heading m poses (i - 1) ≤ 90) ∧
    -180 ≤ (calcDeltaAngles m poses style (isLoopedLine poses)).getD (i - 1) 0 ∧
    (calcDeltaAngles m poses style (isLoopedLine poses)).getD (i - 1) 0 < 180 := by
  have hd := calcDeltaAngles_getD m poses style (isLoopedLine poses) i hkind h1 hi hjoint
  have ha := heading_range m poses i hatan
  have hb := heading_range m poses (i - 1) hatan
  have hr := calcDeltaAngle_range (heading m poses i) (heading m poses (i - 1))
    (by linarith [ha.1, hb.2])
  rw [hd]
  exact ⟨rfl, ha, hb, hr.1, hr.2⟩

theorem turn_angle_range_witness :
    (∀ y x : ℚ, -180 < axisMath.atan2 y x * axisMath.RAD_TO_DEG ∧
      axisMath.atan2 y x * axisMath.RAD_TO_DEG ≤ 180) ∧
    1 ≤ 1 ∧ 1 < sampleReversal.length ∧
    -180 ≤ (calcDeltaAngles axisMath sampleReversal
      (sampleStyle 4 LineJointType.LINE_JOINT_TYPE_ROUND LineEndType.LINE_END_TYPE_NONE)
      (isLoopedLine sampleReversal)).getD (1 - 1) 0 ∧
    (calcDeltaAngles axisMath sampleReversal
      (sampleStyle 4 LineJointType.LINE_JOINT_TYPE_ROUND LineEndType.LINE_END_TYPE_NONE)
      (isLoopedLine sampleReversal)).getD (1 - 1) 0 < 180 := by
  have hatan : ∀ y x : ℚ, -180 < axisMath.atan2 y x * axisMath.RAD_TO_DEG ∧
      axisMath.atan2 y x * axisMath.RAD_TO_DEG ≤ 180 := by
    intro y x
    simp only [axisMath]
    split_ifs <;> norm_num
  have h := turn_angle_range axisMath sampleReversal
    (sampleStyle 4 LineJointType.LINE_JOINT_TYPE_ROUND LineEndType.LINE_END_TYPE_NONE) 1
    hatan (by simp [sampleStyle]) (le_refl _) (by decide) (Or.inl (by decide))
  exact ⟨hatan, le_refl _, by decide, h.2.2.2.1, h.2.2.2.2⟩

/-- C9 (as stated, refuted): for the line `[(0,0), (5,0)]` with end-cap kind ROUND and the
`float` width `11650844 / 2^23` (about 1.3889), `floor(180 * w * 0.004) = 0`, but the `float`
products of line 326 round up to exactly 1, so `segments = 1`: both caps are emitted, each
with its centre vertex, and the output is not the output for end-cap kind NONE. -/
theorem round_cap_float_product_gives_one_segment :
    isLoopedLine sampleLine = false ∧
    Int.floor (180 * (11650844 / 2 ^ 23 : ℚ) * (4 / 1000)) = 0 ∧
    toFloat (toFloat (180 * (11650844 / 2 ^ 23 : ℚ)) * toFloat (4 / 1000)) = 1 ∧
    endPointSegments
      (sampleStyle (11650844 / 2 ^ 23) LineJointType.LINE_JOINT_TYPE_NONE
        LineEndType.LINE_END_TYPE_ROUND) = 1 ∧
    (tessellate axisMath sampleLine
      { sampleStyle (11650844 / 2 ^ 23) LineJointType.LINE_JOINT_TYPE_NONE
          LineEndType.LINE_END_TYPE_ROUND with
        lineEndType := LineEndType.LINE_END_TYPE_NONE }).coords = [0, 0, 1, 1] ∧
    (tessellate axisMath sampleLine
      (sampleStyle (11650844 / 2 ^ 23) LineJointType.LINE_JOINT_TYPE_NONE
        LineEndType.LINE_END_TYPE_ROUND)).coords = [0, 0, 1, 1] ++ [1] ++ [0] := by
  have ha : toFloat (180 * (11650844 / 2 ^ 23 : ℚ)) = 16383999 / 2 ^ 16 := by
    rw [toFloat_eq _ 7 16383999 (by norm_num) (by norm_num) (by norm_num)
      (roundHalfEven_down _ 16383999 (by norm_num) (by norm_num))]
    norm_num
  have hb : toFloat ((16383999 / 2 ^ 16 : ℚ) * (8589935 / 2 ^ 31)) = 1 := by
    rw [toFloat_eq _ (-1) 16777216 (by norm_num) (by norm_num) (by norm_num)
      (roundHalfEven_up _ 16777215 (by norm_num) (by norm_num))]
    norm_num
  have hc : toFloat (4 / 1000 : ℚ) = 8589935 / 2 ^ 31 := endpoint_factor_eq
  have hseg : endPointSegments
      (sampleStyle (11650844 / 2 ^ 23) LineJointType.LINE_JOINT_TYPE_NONE
        LineEndType.LINE_END_TYPE_ROUND) = 1 :=
    endPointSegments_eval _ (16383999 / 2 ^ 16) 1 1 ha hb (by norm_num) (by norm_num)
      (by norm_num)
  have hopen : isLoopedLine sampleLine = false := by decide
  obtain ⟨e1, _⟩ := tessellate_caps_shape axisMath sampleLine
    (sampleStyle (11650844 / 2 ^ 23) LineJointType.LINE_JOINT_TYPE_NONE
      LineEndType.LINE_END_TYPE_ROUND) 1 hopen rfl (by rw [hseg]; rfl) (le_refl _)
  have h0 : (tessLoop axisMath sampleLine
      (sampleStyle (11650844 / 2 ^ 23) LineJointType.LINE_JOINT_TYPE_NONE
        LineEndType.LINE_END_TYPE_ROUND) sampleLine.length).coords = [0, 0, 1, 1] := by
    have e := (tessLoop_shape axisMath sampleLine
      (sampleStyle (11650844 / 2 ^ 23) LineJointType.LINE_JOINT_TYPE_NONE
        LineEndType.LINE_END_TYPE_ROUND) 1 (le_refl _)).1
    have hW : jointWedges sampleLine
        (sampleStyle (11650844 / 2 ^ 23) LineJointType.LINE_JOINT_TYPE_NONE
          LineEndType.LINE_END_TYPE_ROUND) (isLoopedLine sampleLine)
        (calcDeltaAngles axisMath sampleLine
          (sampleStyle (11650844 / 2 ^ 23) LineJointType.LINE_JOINT_TYPE_NONE
            LineEndType.LINE_END_TYPE_ROUND) (isLoopedLine sampleLine)) 1 = 0 := by
      simp [jointWedges, sampleStyle]
    rw [hW] at e
    exact e
  refine ⟨hopen, ?_, ?_, hseg, ?_, ?_⟩
  · rw [Int.floor_eq_iff]
    constructor <;> norm_num
  · rw [hc, ha, hb]
  · unfold tessellate
    rw [lineEndPoints_eq_self _ _ _ _ _ (Or.inr (Or.inl (by simp)))]
    exact h0
  · rw [e1, h0]
    rfl

/-- C9 (amended): for every open polyline with end-cap kind ROUND and width `w ≥ 0`, with
`s = floor(fl(fl(180 * w) * 0.004f))`, where `fl` rounds a product to `float`,
`0.004f = fl(0.004)` and the rounded product is below `2^31` (so that its conversion to `int`
is defined), the output is the output for end-cap kind NONE followed by the cap at the last
position and then the cap at the first position; each of the two caps appends exactly `s`
vertices bound to its endpoint (one centre vertex with zero normal plus `s - 1` fan vertices)
and exactly `s` triangles, so the caps add `2 * s` vertices and `6 * s` indices in total;
when `s = 0` the output of `init` equals the output for end-cap kind NONE; and for width 2 (as
for the line `[(0,0), (5,0)]`) `s = 1`, so that each cap adds only its centre vertex and no
fan vertex. -/
theorem round_caps (m : CMath F) (maxBuf : Nat) (poses : List (MapPos F))
    (style : LineStyle F) (hopen : isLoopedLine poses = false)
    (he : style.lineEndType = LineEndType.LINE_END_TYPE_ROUND) (hw : 0 ≤ style.width)
    (hfit : toFloat (toFloat (180 * style.width) * toFloat (4 / 1000)) < 2 ^ 31) :
    ∃ (s : Nat) (fan1 fan2 : List (Vec2 F)) (tri1 tri2 : List Nat),
      (s : Int) = Int.floor (toFloat (toFloat (180 * style.width) * toFloat (4 / 1000))) ∧
      (s : Int) ≤ 2 ^ 31 - 1 ∧
      fan1.length = s - 1 ∧ fan2.length = s - 1 ∧
      tri1.length = 3 * s ∧ tri2.length = 3 * s ∧
      (tessellate m poses style).coords =
        (tessellate m poses
          { style with lineEndType := LineEndType.LINE_END_TYPE_NONE }).coords ++
          List.replicate s (poses.length - 1) ++ List.replicate s 0 ∧
      (tessellate m poses style).normals =
        (tessellate m poses
          { style with lineEndType := LineEndType.LINE_END_TYPE_NONE }).normals ++
          (if s = 0 then [] else ⟨0, 0⟩ :: fan1) ++ (if s = 0 then [] else ⟨0, 0⟩ :: fan2) ∧
      (tessellate m poses style).indices =
        (tessellate m poses
          { style with lineEndType := LineEndType.LINE_END_TYPE_NONE }).indices ++
          tri1 ++ tri2 ∧
      (tessellate m poses style).coords.length =
        (tessellate m poses
          { style with lineEndType := LineEndType.LINE_END_TYPE_NONE }).coords.length + 2 * s ∧
      (tessellate m poses style).indices.length =
        (tessellate m poses
          { style with lineEndType := LineEndType.LINE_END_TYPE_NONE }).indices.length + 6 * s ∧
      (s = 0 → init m maxBuf poses style =
        init m maxBuf poses { style with lineEndType := LineEndType.LINE_END_TYPE_NONE }) ∧
      (style.width = 2 → s = 1 ∧ fan1 = [] ∧ fan2 = []) := by
  have hbase : tessellate m poses
      { style with lineEndType := LineEndType.LINE_END_TYPE_NONE } =
      tessLoop m poses style poses.length := by
    unfold tessellate
    rw [lineEndPoints_eq_self _ _ _ _ _ (Or.inr (Or.inl (by simp)))]
    rfl
  have hnn : (0 : F) ≤ toFloat (toFloat (180 * style.width) * toFloat (4 / 1000)) :=
    toFloat_nonneg _ (mul_nonneg (toFloat_nonneg _ (by positivity))
      (toFloat_nonneg _ (by norm_num)))
  have hseg : endPointSegments style =
      Int.floor (toFloat (toFloat (180 * style.width) * toFloat (4 / 1000))) := by
    unfold endPointSegments staticCastInt LINE_ENDPOINT_TESSELATION_FACTOR
    rw [if_pos hnn]
  obtain ⟨sN, hsN⟩ : ∃ sN : Nat,
      (sN : Int) = Int.floor (toFloat (toFloat (180 * style.width) * toFloat (4 / 1000))) :=
    ⟨_, Int.toNat_of_nonneg (Int.floor_nonneg.mpr hnn)⟩
  have hmax : (sN : Int) ≤ 2 ^ 31 - 1 := by
    have h : Int.floor (toFloat (toFloat (180 * style.width) * toFloat (4 / 1000))) <
        2 ^ 31 := by
      rw [Int.floor_lt]
      norm_num at hfit ⊢
      exact hfit
    omega
  have hwidth : style.width = 2 → sN = 1 := by
    intro h2
    have h1 := endPointSegments_width_two style h2
    rw [hseg] at h1
    omega
  by_cases hz : sN = 0
  · have ht : tessellate m poses style = tessLoop m poses style poses.length := by
      unfold tessellate
      rw [lineEndPoints_eq_self _ _ _ _ _ (Or.inr (Or.inr (by rw [hseg]; omega)))]
    have hinit : init m maxBuf poses style =
        init m maxBuf poses { style with lineEndType := LineEndType.LINE_END_TYPE_NONE } := by
      unfold init
      rw [ht, hbase]
    refine ⟨sN, [], [], [], [], hsN, hmax, by simp [hz], by simp [hz], by simp [hz],
      by simp [hz], ?_, ?_, ?_, ?_, ?_, fun _ => hinit, ?_⟩
    · rw [ht, hbase, hz]; simp
    · rw [ht, hbase, hz]; simp
    · rw [ht, hbase]; simp
    · rw [ht, hbase, hz]; rfl
    · rw [ht, hbase, hz]; rfl
    · intro h2
      have := hwidth h2
      omega
  · have hs1 : 1 ≤ sN := by omega
    have ht : tessellate m poses style = _ :=
      lineEndPoints_eq_caps m poses style (isLoopedLine poses)
        (tessLoop m poses style poses.length) sN hopen he (by rw [hseg]; exact hsN) hs1
    obtain ⟨fan1, hf1, hc1, hn1, hi1⟩ := lastEndPoint_shape m poses style sN
      (m.sin (endPointSegmentDeltaAngle (endPointSegments style) * m.DEG_TO_RAD))
      (m.cos (endPointSegmentDeltaAngle (endPointSegments style) * m.DEG_TO_RAD))
      (tessLoop m poses style poses.length) hs1
    obtain ⟨fan2, hf2, hc2, hn2, hi2⟩ := firstEndPoint_shape m style sN
      (m.sin (endPointSegmentDeltaAngle (endPointSegments style) * m.DEG_TO_RAD))
      (m.cos (endPointSegmentDeltaAngle (endPointSegments style) * m.DEG_TO_RAD))
      (lastEndPoint m poses style sN
        (m.sin (endPointSegmentDeltaAngle (endPointSegments style) * m.DEG_TO_RAD))
        (m.cos (endPointSegmentDeltaAngle (endPointSegments style) * m.DEG_TO_RAD))
        (tessLoop m poses style poses.length)) hs1
    rw [hc1] at hc2
    rw [hn1] at hn2
    rw [hi1] at hi2
    refine ⟨sN, fan1, fan2, lastEndPointIndices (tessLoop m poses style poses.length).vertexIndex sN,
      firstEndPointIndices (lastEndPoint m poses style sN
        (m.sin (endPointSegmentDeltaAngle (endPointSegments style) * m.DEG_TO_RAD))
        (m.cos (endPointSegmentDeltaAngle (endPointSegments style) * m.DEG_TO_RAD))
        (tessLoop m poses style poses.length)).vertexIndex sN,
      hsN, hmax, hf1, hf2, lastEndPointIndices_length _ _,
      firstEndPointIndices_length _ _, ?_, ?_, ?_, ?_, ?_, fun h0 => absurd h0 hz, ?_⟩
    · rw [ht, hbase, hc2]
    · rw [ht, hbase, hn2, if_neg hz, if_neg hz]
    · rw [ht, hbase, hi2]
    · rw [ht, hbase, hc2]
      simp only [List.length_append, List.length_replicate]
      omega
    · rw [ht, hbase, hi2]
      simp only [List.length_append, lastEndPointIndices_length, firstEndPointIndices_length]
      omega
    · intro h2
      have h1 := hwidth h2
      subst h1
      exact ⟨rfl, List.length_eq_zero.mp hf1, List.length_eq_zero.mp hf2⟩

theorem round_caps_witness :
    isLoopedLine sampleLine = false ∧
    (0 : ℚ) ≤ (sampleStyle 2 LineJointType.LINE_JOINT_TYPE_NONE
      LineEndType.LINE_END_TYPE_ROUND).width ∧
    toFloat (toFloat (180 * (sampleStyle 2 LineJointType.LINE_JOINT_TYPE_NONE
      LineEndType.LINE_END_TYPE_ROUND).width) * toFloat (4 / 1000)) < (2 : ℚ) ^ 31 ∧
    (tessellate axisMath sampleLine
      (sampleStyle 2 LineJointType.LINE_JOINT_TYPE_NONE
        LineEndType.LINE_END_TYPE_ROUND)).coords =
      (tessellate axisMath sampleLine
        { sampleStyle 2 LineJointType.LINE_JOINT_TYPE_NONE LineEndType.LINE_END_TYPE_ROUND with
          lineEndType := LineEndType.LINE_END_TYPE_NONE }).coords ++ [1] ++ [0] := by
  have hopen : isLoopedLine sampleLine = false := by
    simp [isLoopedLine, sampleLine]
  have hw : (0 : ℚ) ≤ (sampleStyle 2 LineJointType.LINE_JOINT_TYPE_NONE
      LineEndType.LINE_END_TYPE_ROUND).width := by
    norm_num [sampleStyle]
  have hfit : toFloat (toFloat (180 * (sampleStyle 2 LineJointType.LINE_JOINT_TYPE_NONE
      LineEndType.LINE_END_TYPE_ROUND).width) * toFloat (4 / 1000)) < (2 : ℚ) ^ 31 := by
    have hc : toFloat (4 / 1000 : ℚ) = 8589935 / 2 ^ 31 := endpoint_factor_eq
    have ha : toFloat (180 * (sampleStyle 2 LineJointType.LINE_JOINT_TYPE_NONE
        LineEndType.LINE_END_TYPE_ROUND).width) = 360 := toFloat_360
    rw [hc, ha, toFloat_360_factor]
    norm_num
  obtain ⟨s, fan1, fan2, tri1, tri2, _, _, _, _, _, _, hc, _, _, _, _, _, h2⟩ :=
    round_caps axisMath 65535 sampleLine
      (sampleStyle 2 LineJointType.LINE_JOINT_TYPE_NONE LineEndType.LINE_END_TYPE_ROUND)
      hopen rfl hw hfit
  obtain ⟨hs, _, _⟩ := h2 rfl
  subst hs
  exact ⟨hopen, hw, hfit, hc⟩

/-- C10 (evaluation of the code at the failing input): for the style width 10 the cap
tessellator uses `segments = 7`, and the per-step angle of line 328, `180 / segments`
computed on `int` operands, is 25 degrees rather than `180 / 7`; seven steps of it rotate by
175 degrees, not by 180. -/
theorem cap_step_angle_is_truncated :
    endPointSegments (sampleStyle 10 LineJointType.LINE_JOINT_TYPE_NONE
      LineEndType.LINE_END_TYPE_ROUND) = 7 ∧
    (endPointSegmentDeltaAngle 7 : ℚ) = 25 ∧
    (endPointSegmentDeltaAngle 7 : ℚ) ≠ 180 / 7 ∧
    7 * (endPointSegmentDeltaAngle 7 : ℚ) = 175 := by
  have h7 : endPointSegments (sampleStyle 10 LineJointType.LINE_JOINT_TYPE_NONE
      LineEndType.LINE_END_TYPE_ROUND) = 7 := by
    have ha : toFloat (180 * (sampleStyle 10 LineJointType.LINE_JOINT_TYPE_NONE
        LineEndType.LINE_END_TYPE_ROUND).width) = 1800 := by
      rw [toFloat_eq _ 10 14745600 (by norm_num [sampleStyle]) (by norm_num [sampleStyle])
        (by norm_num) (roundHalfEven_down _ 14745600 (by norm_num [sampleStyle])
          (by norm_num [sampleStyle]))]
      norm_num
    have hb : toFloat ((1800 : ℚ) * (8589935 / 2 ^ 31)) = 15099495 / 2 ^ 21 := by
      rw [toFloat_eq _ 2 15099495 (by norm_num) (by norm_num) (by norm_num)
        (roundHalfEven_down _ 15099495 (by norm_num) (by norm_num))]
      norm_num
    exact endPointSegments_eval _ 1800 (15099495 / 2 ^ 21) 7 ha hb (by norm_num)
      (by norm_num) (by norm_num)
  have hdiv : Int.tdiv 180 7 = 25 := by decide
  have h25 : (endPointSegmentDeltaAngle 7 : ℚ) = 25 := by
    unfold endPointSegmentDeltaAngle
    rw [hdiv]
    norm_num
  refine ⟨h7, h25, ?_, ?_⟩
  · rw [h25]; norm_num
  · rw [h25]; norm_num

/-- C11: for every looped polyline (more than 2 positions, first equal to last) and every
style, no end-cap geometry is generated: the lists accumulated with end-cap kind ROUND are
those of the tessellation loop alone, and the output buffers produced with end-cap kind
ROUND are identical to those produced with end-cap kind NONE, all other style fields being
equal. -/
theorem looped_line_has_no_caps (m : CMath F) (maxBuf : Nat) (poses : List (MapPos F))
    (style : LineStyle F) (hlen : 2 < poses.length) (hends : poses.head? = poses.getLast?) :
    tessellate m poses { style with lineEndType := LineEndType.LINE_END_TYPE_ROUND } =
      tessLoop m poses style poses.length ∧
    init m maxBuf poses { style with lineEndType := LineEndType.LINE_END_TYPE_ROUND } =
      init m maxBuf poses { style with lineEndType := LineEndType.LINE_END_TYPE_NONE } := by
  have hloop : isLoopedLine poses = true := by
    unfold isLoopedLine
    simp [hends, hlen]
  have h1 : ∀ e : LineEndType,
      tessellate m poses { style with lineEndType := e } =
        tessLoop m poses style poses.length := by
    intro e
    unfold tessellate
    rw [lineEndPoints_eq_self _ _ _ _ _ (Or.inl hloop)]
    rfl
  refine ⟨h1 _, ?_⟩
  unfold init
  rw [h1, h1]

theorem looped_line_has_no_caps_witness :
    2 < sampleLoop.length ∧ sampleLoop.head? = sampleLoop.getLast? ∧
    init axisMath 6 sampleLoop
      { sampleStyle 40 LineJointType.LINE_JOINT_TYPE_ROUND LineEndType.LINE_END_TYPE_NONE with
        lineEndType := LineEndType.LINE_END_TYPE_ROUND } =
    init axisMath 6 sampleLoop
      { sampleStyle 40 LineJointType.LINE_JOINT_TYPE_ROUND LineEndType.LINE_END_TYPE_NONE with
        lineEndType := LineEndType.LINE_END_TYPE_NONE } :=
  ⟨by decide, by simp [sampleLoop],
    (looped_line_has_no_caps axisMath 6 sampleLoop
      (sampleStyle 40 LineJointType.LINE_JOINT_TYPE_ROUND LineEndType.LINE_END_TYPE_NONE)
      (by decide) (by simp [sampleLoop])).2⟩

/-- C12: for every input position sequence whose form after collapsing consecutive
duplicates has fewer than 2 positions, the line constructor returns a `DrawData` with zero
buffers (no entry in `_coords`, `_normals`, `_texCoords`, `_indices`), and so does the
polygon-outline constructor when its preprocessed ring has fewer than 2 positions; the empty
sequence, a single point and any number of copies of one point are such inputs. -/
theorem degenerate_input_gives_no_buffers (m : CMath F) (maxBuf : Nat) (ideal : F)
    (toInternal : MapPos F → MapPos F) (poses : List (MapPos F)) (style : LineStyle F)
    (h : (dropRepeats (poses.map toInternal)).length < 2) :
    (∃ d, ofLineGeometry m maxBuf ideal toInternal poses style = some d ∧ d.buffers = [] ∧
      d.poses = dropRepeats (poses.map toInternal)) ∧
    ((polygonPoses poses).length < 2 →
      ∃ d, ofPolygonGeometry m maxBuf ideal poses style = some d ∧ d.buffers = []) ∧
    (∀ (k : Nat) (p : MapPos F),
      (dropRepeats ((List.replicate k p).map toInternal)).length < 2) := by
  refine ⟨?_, ?_, ?_⟩
  · have hi : init m maxBuf (linePoses toInternal poses) style = some [] := by
      unfold init
      rw [linePoses_eq, if_pos h]
    exact ⟨_, by unfold ofLineGeometry; rw [hi]; rfl, rfl, linePoses_eq toInternal poses⟩
  · intro hp
    have hi : init m maxBuf (polygonPoses poses) style = some [] := by
      unfold init
      rw [if_pos hp]
    exact ⟨_, by unfold ofPolygonGeometry; rw [hi]; rfl, rfl⟩
  · intro k p
    cases k with
    | zero => simp [dropRepeats]
    | succ k =>
      have e : (List.replicate (k + 1) p).map toInternal =
          toInternal p :: (List.replicate k (toInternal p) ++ []) := by
        simp [List.replicate_succ]
      rw [e, dropRepeats, dropRepeatsAfter_replicate]
      simp [dropRepeatsAfter_nil]

theorem degenerate_input_gives_no_buffers_witness :
    (dropRepeats ((List.replicate 3 (⟨7, 7⟩ : MapPos ℚ)).map (fun p => p))).length < 2 ∧
    ∃ d, ofLineGeometry axisMath 65535 64 (fun p => p) (List.replicate 3 (⟨7, 7⟩ : MapPos ℚ))
        (sampleStyle 4 LineJointType.LINE_JOINT_TYPE_ROUND LineEndType.LINE_END_TYPE_ROUND) =
        some d ∧ d.buffers = [] := by
  have h : (dropRepeats ((List.replicate 3 (⟨7, 7⟩ : MapPos ℚ)).map (fun p => p))).length < 2 :=
    by decide
  obtain ⟨⟨d, e, hb, _⟩, _, _⟩ := degenerate_input_gives_no_buffers axisMath 65535 64
    (fun p => p) (List.replicate 3 (⟨7, 7⟩ : MapPos ℚ))
    (sampleStyle 4 LineJointType.LINE_JOINT_TYPE_ROUND LineEndType.LINE_END_TYPE_ROUND) h
  exact ⟨h, d, e, hb⟩

/-- C13: for every input position sequence, the preprocessing of the line constructor
returns the sequence of projected positions with every position that equals its immediate
predecessor removed: the result keeps the first position, preserves order (it is a
subsequence), contains no two consecutive equal positions, and collapses each maximal run of
equal consecutive positions to a single position. -/
theorem line_preprocessing (toInternal : MapPos F → MapPos F) (poses : List (MapPos F)) :
    linePoses toInternal poses = dropRepeats (poses.map toInternal) ∧
    (linePoses toInternal poses).head? = (poses.map toInternal).head? ∧
    List.Sublist (linePoses toInternal poses) (poses.map toInternal) ∧
    List.Chain' (fun a b => a ≠ b) (linePoses toInternal poses) ∧
    (∀ runs : List (MapPos F × Nat), poses.map toInternal = expandRuns runs →
      List.Chain' (fun r q : MapPos F × Nat => r.1 ≠ q.1) runs →
      linePoses toInternal poses = runs.map Prod.fst) := by
  rw [linePoses_eq]
  refine ⟨rfl, dropRepeats_head? _, dropRepeats_sublist _, dropRepeats_chain _, ?_⟩
  intro runs he hc
  rw [he]
  exact dropRepeats_expandRuns runs hc

theorem line_preprocessing_witness :
    sampleRepeats.map (fun p => p) = expandRuns [(⟨0, 0⟩, 1), (⟨10, 0⟩, 1), (⟨10, 10⟩, 0)] ∧
    List.Chain' (fun r q : MapPos ℚ × Nat => r.1 ≠ q.1)
      [(⟨0, 0⟩, 1), (⟨10, 0⟩, 1), (⟨10, 10⟩, 0)] ∧
    linePoses (fun p => p) sampleRepeats = [⟨0, 0⟩, ⟨10, 0⟩, ⟨10, 10⟩] := by
  have he : sampleRepeats.map (fun p => p) =
      expandRuns [(⟨0, 0⟩, 1), (⟨10, 0⟩, 1), (⟨10, 10⟩, 0)] := by
    simp [sampleRepeats, expandRuns, List.replicate_succ]
  have hc : List.Chain' (fun r q : MapPos ℚ × Nat => r.1 ≠ q.1)
      [(⟨0, 0⟩, 1), (⟨10, 0⟩, 1), (⟨10, 10⟩, 0)] := by
    simp
  exact ⟨he, hc, (line_preprocessing (fun p => p) sampleRepeats).2.2.2.2 _ he hc⟩

/-- C14: for every non-empty input position sequence with first position `first`, the
preprocessing of the polygon-outline constructor returns the de-duplicated sequence if it
already ends with `first` and otherwise the de-duplicated sequence with `first` appended; in
both cases the result starts and ends with `first` and contains no two consecutive equal
positions. -/
theorem polygon_preprocessing (internalPoses : List (MapPos F)) (first : MapPos F)
    (h : internalPoses.head? = some first) :
    polygonPoses internalPoses =
      (if (dropRepeats internalPoses).getLast? = some first then dropRepeats internalPoses
       else dropRepeats internalPoses ++ [first]) ∧
    (polygonPoses internalPoses).head? = some first ∧
    (polygonPoses internalPoses).getLast? = some first ∧
    List.Chain' (fun a b => a ≠ b) (polygonPoses internalPoses) := by
  cases internalPoses with
  | nil => simp at h
  | cons a l =>
    have ha : a = first := by simpa using h
    subst ha
    rw [polygonPoses_eq]
    refine ⟨rfl, ?_, ?_, ?_⟩
    · split_ifs <;> simp [dropRepeats]
    · split_ifs with hl
      · exact hl
      · exact List.getLast?_concat _
    · split_ifs with hl
      · exact dropRepeats_chain _
      · rw [List.chain'_append]
        refine ⟨dropRepeats_chain _, List.chain'_singleton _, ?_⟩
        intro x hx y hy
        simp only [List.head?_cons, Option.mem_def, Option.some.injEq] at hy
        rw [Option.mem_def] at hx
        subst hy
        intro e
        subst e
        exact hl hx

theorem polygon_preprocessing_witness :
    sampleRepeats.head? = some ⟨0, 0⟩ ∧
    (polygonPoses sampleRepeats).head? = some ⟨0, 0⟩ ∧
    (polygonPoses sampleRepeats).getLast? = some ⟨0, 0⟩ :=
  ⟨rfl, (polygon_preprocessing sampleRepeats ⟨0, 0⟩ rfl).2.1,
    (polygon_preprocessing sampleRepeats ⟨0, 0⟩ rfl).2.2.1⟩

/-- C15: for every polyline of at least two positions whose tessellation produces `K`
indices and every buffer limit `maxBuf ≥ 3` (in particular when `K > maxBuf`), the number of
output buffers is at least `ceil(K / maxBuf)`. -/
theorem buffer_count_lower_bound (m : CMath F) (maxBuf : Nat) (poses : List (MapPos F))
    (style : LineStyle F) (hn : 2 ≤ poses.length) (hmax : 3 ≤ maxBuf) :
    ∃ bufs, init m maxBuf poses style = some bufs ∧
      ((tessellate m poses style).indices.length + maxBuf - 1) / maxBuf ≤ bufs.length := by
  obtain ⟨bufs, e, hb, hs, _⟩ := init_spec m maxBuf poses style hn
  refine ⟨bufs, e, ?_⟩
  have hsum : ∀ l : List (DrawBuffer F), (∀ b ∈ l, b.indices.length ≤ maxBuf) →
      (l.map (fun b => b.indices.length)).sum ≤ l.length * maxBuf := by
    intro l
    induction l with
    | nil => intro _; simp
    | cons a l ih =>
      intro h
      have h1 := h a (List.mem_cons_self a l)
      have h2 := ih (fun b hbm => h b (List.mem_cons_of_mem a hbm))
      simp only [List.map_cons, List.sum_cons, List.length_cons]
      rw [Nat.add_mul]
      omega
  have hle := hsum bufs (fun b hbm => (hb b hbm).2 hmax)
  rw [hs] at hle
  have hlt : ((tessellate m poses style).indices.length + maxBuf - 1) / maxBuf <
      bufs.length + 1 := by
    rw [Nat.div_lt_iff_lt_mul (by omega), Nat.add_mul]
    omega
  omega

theorem buffer_count_lower_bound_witness :
    2 ≤ sampleCorner.length ∧ 3 ≤ 6 ∧
    ∃ bufs, init axisMath 6 sampleCorner
        (sampleStyle 4 LineJointType.LINE_JOINT_TYPE_STRAIGHT
          LineEndType.LINE_END_TYPE_NONE) = some bufs ∧
      ((tessellate axisMath sampleCorner
        (sampleStyle 4 LineJointType.LINE_JOINT_TYPE_STRAIGHT
          LineEndType.LINE_END_TYPE_NONE)).indices.length + 6 - 1) / 6 ≤ bufs.length :=
  ⟨by decide, by decide,
    buffer_count_lower_bound axisMath 6 sampleCorner _ (by decide) (by decide)⟩

/-- C16: for every polyline with `n ≥ 2` positions whose tessellation produces at most
`maxBuf` indices, the output consists of exactly one buffer whose `coords`, `normals`,
`texCoords` and `indices` arrays are exactly the accumulated arrays. -/
theorem single_buffer_within_budget (m : CMath F) (maxBuf : Nat) (poses : List (MapPos F))
    (style : LineStyle F) (hn : 2 ≤ poses.length)
    (hK : (tessellate m poses style).indices.length ≤ maxBuf) :
    init m maxBuf poses style =
      some [{ coords := (tessellate m poses style).coords
              normals := (tessellate m poses style).normals
              texCoords := (tessellate m poses style).texCoords
              indices := (tessellate m poses style).indices }] := by
  unfold init partitionBuffers
  rw [if_neg (by omega)]
  simp only
  rw [if_pos hK]

theorem single_buffer_within_budget_witness :
    2 ≤ sampleCorner.length ∧
    (tessellate axisMath sampleCorner
      (sampleStyle 4 LineJointType.LINE_JOINT_TYPE_NONE
        LineEndType.LINE_END_TYPE_NONE)).indices.length ≤ 12 ∧
    init axisMath 12 sampleCorner
      (sampleStyle 4 LineJointType.LINE_JOINT_TYPE_NONE LineEndType.LINE_END_TYPE_NONE) =
      some [{ coords := (tessellate axisMath sampleCorner
                (sampleStyle 4 LineJointType.LINE_JOINT_TYPE_NONE
                  LineEndType.LINE_END_TYPE_NONE)).coords
              normals := (tessellate axisMath sampleCorner
                (sampleStyle 4 LineJointType.LINE_JOINT_TYPE_NONE
                  LineEndType.LINE_END_TYPE_NONE)).normals
              texCoords := (tessellate axisMath sampleCorner
                (sampleStyle 4 LineJointType.LINE_JOINT_TYPE_NONE
                  LineEndType.LINE_END_TYPE_NONE)).texCoords
              indices := (tessellate axisMath sampleCorner
                (sampleStyle 4 LineJointType.LINE_JOINT_TYPE_NONE
                  LineEndType.LINE_END_TYPE_NONE)).indices }] := by
  have hK : (tessellate axisMath sampleCorner
      (sampleStyle 4 LineJointType.LINE_JOINT_TYPE_NONE
        LineEndType.LINE_END_TYPE_NONE)).indices.length ≤ 12 := by
    have h := (tessellate_spec axisMath sampleCorner
      (sampleStyle 4 LineJointType.LINE_JOINT_TYPE_NONE LineEndType.LINE_END_TYPE_NONE)
      (by decide)).1
    have hc := (tessLoop_counts axisMath sampleCorner
      (sampleStyle 4 LineJointType.LINE_JOINT_TYPE_NONE LineEndType.LINE_END_TYPE_NONE) 2).2.1
    have ht : tessellate axisMath sampleCorner
        (sampleStyle 4 LineJointType.LINE_JOINT_TYPE_NONE LineEndType.LINE_END_TYPE_NONE) =
        tessLoop axisMath sampleCorner
          (sampleStyle 4 LineJointType.LINE_JOINT_TYPE_NONE LineEndType.LINE_END_TYPE_NONE) 3 := by
      unfold tessellate
      rw [lineEndPoints_eq_self _ _ _ _ _ (Or.inr (Or.inl (by simp [sampleStyle])))]
      rfl
    rw [ht, hc]
    simp [jointWedges, sampleStyle]
  exact ⟨by decide, hK,
    single_buffer_within_budget axisMath 12 sampleCorner _ (by decide) hK⟩

/-- C17: when the partitioner splits (more than `maxBuf` indices), the output buffers
correspond to consecutive pieces `chunk` of the original index list, each made of whole
triangles, such that in every buffer: each index is smaller than the vertex count; every
vertex is referenced by at least one index; the vertex count equals the number of distinct
original indices of its piece; and there is a duplicate-free list `origs` of exactly the
original indices of the piece, one per vertex, such that vertex `v` carries the data of the
original vertex `origs[v]` and the buffer's index list is the piece with every original index
replaced by the position of its copy. The list `origs` of a buffer depends on its own piece
only: the remap starts empty for each buffer. -/
theorem split_buffers_are_remapped {G : Type} (maxBuf : Nat) (coords : List Nat)
    (normals texCoords : List (Vec2 G)) (indices : List Nat)
    (hn : normals.length = coords.length) (ht : texCoords.length = coords.length)
    (hval : ∀ i ∈ indices, i < coords.length) (h3 : indices.length % 3 = 0)
    (hsplit : maxBuf < indices.length) :
    ∃ pairs : List (DrawBuffer G × List Nat),
      partitionBuffers maxBuf coords normals texCoords indices = some (pairs.map Prod.fst) ∧
      (pairs.map Prod.snd).flatten = indices ∧
      ∀ p ∈ pairs,
        (∀ v ∈ p.1.indices, v < p.1.coords.length) ∧
        (∀ v, v < p.1.coords.length → v ∈ p.1.indices) ∧
        p.1.coords.length = p.2.dedup.length ∧
        p.1.indices.length = p.2.length ∧ p.2.length % 3 = 0 ∧
        ∃ origs : List Nat, origs.Nodup ∧ origs.length = p.1.coords.length ∧
          (∀ x, x ∈ origs ↔ x ∈ p.2) ∧
          p.1.indices.map (fun v => origs[v]?) = p.2.map some ∧
          ∀ v x : Nat, origs[v]? = some x →
            p.1.coords[v]? = coords[x]? ∧ p.1.normals[v]? = normals[x]? ∧
            p.1.texCoords[v]? = texCoords[x]? := by
  obtain ⟨bufs, e, hb, _, _⟩ :=
    partitionBuffers_spec maxBuf coords normals texCoords indices hn ht hval h3
  obtain ⟨st2, pairs2, chunk2, e3, hp2, hall2, ⟨origs2, hR2, _⟩, hfl2⟩ :=
    splitLoop_remap maxBuf coords normals texCoords hn ht (indices.length / 3) indices
      { done := [], cur := DrawBuffer.empty, indexMap := [] } [] [] (by omega) hval rfl
      (fun p hp => by simp at hp) (remapped_empty _ _ _ _)
  have hres : partitionBuffers maxBuf coords normals texCoords indices =
      some ((pairs2 ++ [(st2.cur, chunk2)]).map Prod.fst) := by
    unfold partitionBuffers
    rw [if_neg (by omega), e3]
    simp [hp2]
  refine ⟨pairs2 ++ [(st2.cur, chunk2)], hres, ?_, ?_⟩
  · simpa using hfl2
  · intro p hp
    have hbuf : p.1 ∈ bufs := by
      rw [hres] at e
      injection e with e
      rw [← e]
      exact List.mem_map_of_mem _ hp
    have hRp : ∃ origs, Remapped coords normals texCoords p.2 origs p.1 := by
      rcases List.mem_append.mp hp with hp | hp
      · exact hall2 p hp
      · rw [List.mem_singleton] at hp
        subst hp
        exact ⟨origs2, hR2⟩
    obtain ⟨origs, hR⟩ := hRp
    obtain ⟨a1, a2, a3, a4⟩ := remapped_props hR
    obtain ⟨hnd, hmem, hc, _, _, hdata, hidx⟩ := hR
    exact ⟨a1, a2, a3, a4, by rw [← a4]; exact (hb p.1 hbuf).1, origs, hnd, hc.symm, hmem,
      hidx, hdata⟩

theorem split_buffers_are_remapped_witness :
    ∃ pairs : List (DrawBuffer ℚ × List Nat),
      partitionBuffers 3 [0, 0, 1, 1]
        ([⟨0, 1⟩, ⟨0, -1⟩, ⟨0, 1⟩, ⟨0, -1⟩] : List (Vec2 ℚ))
        [⟨0, 0⟩, ⟨1, 0⟩, ⟨0, 1⟩, ⟨1, 1⟩] [0, 1, 2, 1, 3, 2] = some (pairs.map Prod.fst) ∧
      (pairs.map Prod.snd).flatten = [0, 1, 2, 1, 3, 2] ∧
      ∀ p ∈ pairs, p.1.coords.length = p.2.dedup.length := by
  obtain ⟨pairs, e, hf, hall⟩ := split_buffers_are_remapped 3 [0, 0, 1, 1]
    ([⟨0, 1⟩, ⟨0, -1⟩, ⟨0, 1⟩, ⟨0, -1⟩] : List (Vec2 ℚ))
    [⟨0, 0⟩, ⟨1, 0⟩, ⟨0, 1⟩, ⟨1, 1⟩] [0, 1, 2, 1, 3, 2] rfl rfl (by decide) (by decide)
    (by decide)
  exact ⟨pairs, e, hf, fun p hp => (hall p hp).2.2.1⟩

/-- C18 (evaluation of the code at the failing input): for the style of width 4 with the
explicit click-width override 1/2 and every value of `IDEAL_CLICK_WIDTH`, the line
constructor reports the click scale 1/2, the override verbatim, whereas the polygon-outline
constructor reports `max(1, 1 + (IDEAL_CLICK_WIDTH - 4) * 0.5 / 4)`, which is at least 1 and
so differs from the override. -/
theorem polygon_click_scale_ignores_override (ideal : ℚ) :
    (∃ d, ofLineGeometry axisMath 65535 ideal (fun p => p) sampleCorner
        { sampleStyle 4 LineJointType.LINE_JOINT_TYPE_NONE LineEndType.LINE_END_TYPE_NONE with
          clickWidth := 1 / 2 } = some d ∧ getClickScale d = 1 / 2) ∧
    (∃ d, ofPolygonGeometry axisMath 65535 ideal sampleCorner
        { sampleStyle 4 LineJointType.LINE_JOINT_TYPE_NONE LineEndType.LINE_END_TYPE_NONE with
          clickWidth := 1 / 2 } = some d ∧
      getClickScale d = max 1 (1 + (ideal - 4) * (1 / 2) / 4) ∧ 1 ≤ getClickScale d ∧
      getClickScale d ≠ 1 / 2) := by
  constructor
  · obtain ⟨bufs, e⟩ := ofLineGeometry_eq axisMath 65535 ideal (fun p => p) sampleCorner
      { sampleStyle 4 LineJointType.LINE_JOINT_TYPE_NONE LineEndType.LINE_END_TYPE_NONE with
        clickWidth := 1 / 2 }
    refine ⟨_, e, ?_⟩
    simp only [getClickScale, lineClickScale, sampleStyle]
    norm_num
  · obtain ⟨bufs, e⟩ := ofPolygonGeometry_eq axisMath 65535 ideal sampleCorner
      { sampleStyle 4 LineJointType.LINE_JOINT_TYPE_NONE LineEndType.LINE_END_TYPE_NONE with
        clickWidth := 1 / 2 }
    have h1 : (1 : ℚ) ≤ max 1 (1 + (ideal - 4) * (1 / 2) / 4) := le_max_left _ _
    refine ⟨_, e, rfl, h1, ?_⟩
    intro h
    have h2 : getClickScale
        ({ clickScale := polygonClickScale ideal
            { sampleStyle 4 LineJointType.LINE_JOINT_TYPE_NONE
                LineEndType.LINE_END_TYPE_NONE with clickWidth := 1 / 2 }
           poses := polygonPoses sampleCorner
           buffers := bufs
           isOffset := false } : DrawData ℚ) = max 1 (1 + (ideal - 4) * (1 / 2) / 4) := rfl
    rw [h2] at h
    rw [h] at h1
    norm_num at h1

/-- C19: for every style with width `w > 0` that supplies no click-width override (the value
`-1`), the click scale reported for a `DrawData` of either constructor equals
`max(1, 1 + (IDEAL_CLICK_WIDTH - w) * CLICK_WIDTH_COEF / w)` with `CLICK_WIDTH_COEF = 0.5`;
it is at least 1 and equals exactly 1 whenever `w ≥ IDEAL_CLICK_WIDTH`. -/
theorem default_click_scale (m : CMath F) (maxBuf : Nat) (ideal : F)
    (toInternal : MapPos F → MapPos F) (poses : List (MapPos F)) (style : LineStyle F)
    (hw : 0 < style.width) (hno : style.clickWidth = -1) :
    (∃ d, ofLineGeometry m maxBuf ideal toInternal poses style = some d ∧
      getClickScale d = max 1 (1 + (ideal - style.width) * (1 / 2) / style.width)) ∧
    (∃ d, ofPolygonGeometry m maxBuf ideal poses style = some d ∧
      getClickScale d = max 1 (1 + (ideal - style.width) * (1 / 2) / style.width)) ∧
    1 ≤ max 1 (1 + (ideal - style.width) * (1 / 2) / style.width) ∧
    (ideal ≤ style.width →
      max 1 (1 + (ideal - style.width) * (1 / 2) / style.width) = 1) := by
  refine ⟨?_, ?_, le_max_left _ _, ?_⟩
  · obtain ⟨bufs, e⟩ := ofLineGeometry_eq m maxBuf ideal toInternal poses style
    refine ⟨_, e, ?_⟩
    simp only [getClickScale, lineClickScale]
    rw [if_pos hno]
    rfl
  · obtain ⟨bufs, e⟩ := ofPolygonGeometry_eq m maxBuf ideal poses style
    exact ⟨_, e, rfl⟩
  · intro hle
    apply max_eq_left
    have h1 : (ideal - style.width) * (1 / 2) / style.width ≤ 0 := by
      apply div_nonpos_of_nonpos_of_nonneg
      · nlinarith
      · exact le_of_lt hw
    linarith

theorem default_click_scale_witness :
    (0 : ℚ) < (sampleStyle 4 LineJointType.LINE_JOINT_TYPE_NONE
      LineEndType.LINE_END_TYPE_NONE).width ∧
    (sampleStyle 4 LineJointType.LINE_JOINT_TYPE_NONE
      LineEndType.LINE_END_TYPE_NONE).clickWidth = -1 ∧
    ∃ d, ofLineGeometry axisMath 65535 64 (fun p => p) sampleCorner
        (sampleStyle 4 LineJointType.LINE_JOINT_TYPE_NONE LineEndType.LINE_END_TYPE_NONE) =
        some d ∧
      getClickScale d = max 1 (1 + ((64 : ℚ) - 4) * (1 / 2) / 4) := by
  have hw : (0 : ℚ) < (sampleStyle 4 LineJointType.LINE_JOINT_TYPE_NONE
      LineEndType.LINE_END_TYPE_NONE).width := by
    norm_num [sampleStyle]
  obtain ⟨h, _⟩ := default_click_scale axisMath 65535 (64 : ℚ) (fun p => p) sampleCorner
    (sampleStyle 4 LineJointType.LINE_JOINT_TYPE_NONE LineEndType.LINE_END_TYPE_NONE) hw rfl
  exact ⟨hw, rfl, h⟩

/-- C20: for every `DrawData` and every offset, after `offsetHorizontally` every stored
position has its previous `x` plus the offset and an unchanged `y`, the offset flag is set,
and the buffers (normals, texture coordinates, indices and the bindings of vertices to
position indices) and the click scale are unchanged. -/
theorem offset_translates_positions (offset : F) (d : DrawData F) :
    (offsetHorizontally offset d).poses =
      d.poses.map (fun p => (⟨p.x + offset, p.y⟩ : MapPos F)) ∧
    (offsetHorizontally offset d).poses.length = d.poses.length ∧
    (∀ i : Nat, (offsetHorizontally offset d).poses[i]? =
      (d.poses[i]?).map (fun p => (⟨p.x + offset, p.y⟩ : MapPos F))) ∧
    (offsetHorizontally offset d).isOffset = true ∧
    (offsetHorizontally offset d).buffers = d.buffers ∧
    (offsetHorizontally offset d).clickScale = d.clickScale := by
  have h : (offsetHorizontally offset d).poses =
      d.poses.map (fun p => (⟨p.x + offset, p.y⟩ : MapPos F)) := rfl
  refine ⟨h, ?_, ?_, rfl, rfl, rfl⟩
  · rw [h, List.length_map]
  · intro i
    rw [h, List.getElem?_map]

/-- C21 (as stated, refuted): for the `DrawData` with the single position `(0, 0)` and the
offset 1, one call of `offsetHorizontally` leaves the position at `x = 1` and a second call
moves it on to `x = 2`, so applying the transform twice does not yield the same `DrawData` as
applying it once. -/
theorem offset_twice_differs_from_once :
    (offsetHorizontally (1 : ℚ)
      { clickScale := 1, poses := [⟨0, 0⟩], buffers := [], isOffset := false }).poses =
      [⟨1, 0⟩] ∧
    (offsetHorizontally (1 : ℚ) (offsetHorizontally 1
      { clickScale := 1, poses := [⟨0, 0⟩], buffers := [], isOffset := false })).poses =
      [⟨2, 0⟩] ∧
    offsetHorizontally (1 : ℚ) (offsetHorizontally 1
      { clickScale := 1, poses := [⟨0, 0⟩], buffers := [], isOffset := false }) ≠
    offsetHorizontally (1 : ℚ)
      { clickScale := 1, poses := [⟨0, 0⟩], buffers := [], isOffset := false } := by
  refine ⟨by norm_num [offsetHorizontally], by norm_num [offsetHorizontally], ?_⟩
  intro h
  have h2 := congrArg DrawData.poses h
  norm_num [offsetHorizontally] at h2

/-- C21 (amended): for every `DrawData` and every offset `d`, applying
`offsetHorizontally d` twice translates every position twice: its `x` becomes `(x + d) + d`,
the result of adding `d` to the `x` left by the first call, and its `y` is unchanged; the
flag, the buffers and the click scale are those left by one call. So two calls differ from
one call whenever the second addition changes the `x` of some position. -/
theorem offset_twice_translates_twice (d : F) (x : DrawData F) :
    (offsetHorizontally d (offsetHorizontally d x)).poses =
      x.poses.map (fun p => (⟨p.x + d + d, p.y⟩ : MapPos F)) ∧
    (offsetHorizontally d (offsetHorizontally d x)).poses =
      (offsetHorizontally d x).poses.map (fun p => (⟨p.x + d, p.y⟩ : MapPos F)) ∧
    (offsetHorizontally d (offsetHorizontally d x)).isOffset =
      (offsetHorizontally d x).isOffset ∧
    (offsetHorizontally d (offsetHorizontally d x)).buffers =
      (offsetHorizontally d x).buffers ∧
    (offsetHorizontally d (offsetHorizontally d x)).clickScale =
      (offsetHorizontally d x).clickScale ∧
    ((∃ p ∈ x.poses, p.x + d + d ≠ p.x + d) →
      offsetHorizontally d (offsetHorizontally d x) ≠ offsetHorizontally d x) := by
  have h1 : (offsetHorizontally d (offsetHorizontally d x)).poses =
      x.poses.map (fun p => (⟨p.x + d + d, p.y⟩ : MapPos F)) := by
    simp only [offsetHorizontally, List.map_map, Function.comp_def]
  refine ⟨h1, rfl, rfl, rfl, rfl, ?_⟩
  rintro ⟨p, hp, hne⟩ h
  have h2 := congrArg DrawData.poses h
  rw [h1] at h2
  have h3 : (offsetHorizontally d x).poses =
      x.poses.map (fun p => (⟨p.x + d, p.y⟩ : MapPos F)) := rfl
  rw [h3, List.map_inj_left] at h2
  have h4 := h2 p hp
  simp only [MapPos.mk.injEq, and_true] at h4
  exact hne h4

theorem offset_twice_translates_twice_witness :
    (∃ p ∈ ({ clickScale := 1, poses := [⟨0, 0⟩, ⟨3, 4⟩], buffers := [], isOffset := false } :
        DrawData ℚ).poses, p.x + 1 + 1 ≠ p.x + 1) ∧
    offsetHorizontally (1 : ℚ) (offsetHorizontally 1
      { clickScale := 1, poses := [⟨0, 0⟩, ⟨3, 4⟩], buffers := [], isOffset := false }) ≠
    offsetHorizontally (1 : ℚ)
      { clickScale := 1, poses := [⟨0, 0⟩, ⟨3, 4⟩], buffers := [], isOffset := false } :=
  ⟨⟨⟨0, 0⟩, by simp, by norm_num⟩,
    (offset_twice_translates_twice (1 : ℚ)
      { clickScale := 1, poses := [⟨0, 0⟩, ⟨3, 4⟩], buffers := [], isOffset := false }).2.2.2.2.2
      ⟨⟨0, 0⟩, by simp, by norm_num⟩⟩

/-- C28: when the partitioner splits (`K > maxBuf ≥ 3` indices, made of whole triangles that
refer to existing vertices), it fills the buffers greedily: every output buffer except the
last holds exactly `3 * floor(maxBuf / 3)` indices, the last holds between 3 and
`3 * floor(maxBuf / 3)` indices, no buffer is empty, and the number of buffers is exactly
`ceil(K / (3 * floor(maxBuf / 3)))`. -/
theorem partition_fills_greedily {G : Type} (maxBuf : Nat) (coords : List Nat)
    (normals texCoords : List (Vec2 G)) (indices : List Nat)
    (hn : normals.length = coords.length) (ht : texCoords.length = coords.length)
    (hval : ∀ i ∈ indices, i < coords.length) (h3 : indices.length % 3 = 0)
    (hsplit : maxBuf < indices.length) (hmax : 3 ≤ maxBuf) :
    ∃ (front : List (DrawBuffer G)) (last : DrawBuffer G),
      partitionBuffers maxBuf coords normals texCoords indices = some (front ++ [last]) ∧
      (∀ b ∈ front, b.indices.length = 3 * (maxBuf / 3)) ∧
      3 ≤ last.indices.length ∧ last.indices.length ≤ 3 * (maxBuf / 3) ∧
      (∀ b ∈ front ++ [last], b.indices ≠ []) ∧
      (front ++ [last]).length =
        (indices.length + 3 * (maxBuf / 3) - 1) / (3 * (maxBuf / 3)) := by
  obtain ⟨st2, e, _⟩ :=
    splitLoop_spec maxBuf coords normals texCoords hn ht (indices.length / 3) indices
      { done := [], cur := DrawBuffer.empty, indexMap := [] } (by omega) hval
      (partInv_empty _ _ _ _) (by simp [DrawBuffer.empty]) (by simp [DrawBuffer.empty])
  obtain ⟨g1, g2, g3, g4, g5⟩ :=
    splitLoop_greedy maxBuf coords normals texCoords hmax (indices.length / 3) indices
      { done := [], cur := DrawBuffer.empty, indexMap := [] } st2 (by omega) e
      (by simp) (by simp [DrawBuffer.empty]) (by simp [DrawBuffer.empty])
  have g4 : 3 ≤ st2.cur.indices.length := g4 (Or.inr (by omega))
  simp only [List.length_nil, Nat.mul_zero, DrawBuffer.empty, Nat.zero_add] at g5
  have hM : 0 < 3 * (maxBuf / 3) := by omega
  refine ⟨st2.done, st2.cur, ?_, g1, g4, g3, ?_, ?_⟩
  · unfold partitionBuffers
    rw [if_neg (by omega), e]
    rfl
  · intro b hb hnil
    have hlen : b.indices.length = 0 := by rw [hnil]; rfl
    rcases List.mem_append.mp hb with hb | hb
    · have := g1 b hb
      omega
    · rw [List.mem_singleton] at hb
      subst hb
      omega
  · rw [List.length_append, List.length_singleton, ← g5]
    have e1 : 3 * (maxBuf / 3) * st2.done.length + st2.cur.indices.length +
        3 * (maxBuf / 3) - 1 =
        (st2.cur.indices.length - 1) + 3 * (maxBuf / 3) * (st2.done.length + 1) := by
      rw [Nat.mul_add, Nat.mul_one]
      omega
    rw [e1, Nat.add_mul_div_left _ _ hM, Nat.div_eq_of_lt (by omega)]
    omega

theorem partition_fills_greedily_witness :
    ∃ (front : List (DrawBuffer ℚ)) (last : DrawBuffer ℚ),
      partitionBuffers 5 [0, 0, 1, 1]
        ([⟨0, 1⟩, ⟨0, -1⟩, ⟨0, 1⟩, ⟨0, -1⟩] : List (Vec2 ℚ))
        [⟨0, 0⟩, ⟨1, 0⟩, ⟨0, 1⟩, ⟨1, 1⟩] [0, 1, 2, 1, 3, 2] = some (front ++ [last]) ∧
      (∀ b ∈ front, b.indices.length = 3 * (5 / 3)) ∧
      3 ≤ last.indices.length ∧ last.indices.length ≤ 3 * (5 / 3) ∧
      (∀ b ∈ front ++ [last], b.indices ≠ []) ∧
      (front ++ [last]).length = (6 + 3 * (5 / 3) - 1) / (3 * (5 / 3)) :=
  partition_fills_greedily 5 [0, 0, 1, 1]
    ([⟨0, 1⟩, ⟨0, -1⟩, ⟨0, 1⟩, ⟨0, -1⟩] : List (Vec2 ℚ))
    [⟨0, 0⟩, ⟨1, 0⟩, ⟨0, 1⟩, ⟨1, 1⟩] [0, 1, 2, 1, 3, 2] rfl rfl (by decide) (by decide)
    (by decide) (by decide)

/-- C25: for every polyline with `n ≥ 2` positions and every style (any joint kind, any
end-cap kind, any width), the lists accumulated by the tessellator before partitioning are
well formed: `coords`, `normals` and `texCoords` have the same length `V`, which is the final
value of `vertexIndex`; the index count is a multiple of 3; every index is smaller than `V`
(the forward references of a joint to the next quad and the references to the vertices 0 and
1 of the loop-closing joint and of the first end cap included); at the start of every block
that appends indices (the quad and the joint of each iteration, the last cap, the first cap)
the counter `vertexIndex` equals the number of vertices emitted by the blocks before it; and
so every lookup `coords[index]`, `normals[index]`, `texCoords[index]` of the partitioner is in
range and `init` returns its buffers. -/
theorem tessellated_lists_well_formed (m : CMath F) (maxBuf : Nat) (poses : List (MapPos F))
    (style : LineStyle F) (hn : 2 ≤ poses.length) :
    (tessellate m poses style).coords.length = (tessellate m poses style).vertexIndex ∧
    (tessellate m poses style).normals.length = (tessellate m poses style).vertexIndex ∧
    (tessellate m poses style).texCoords.length = (tessellate m poses style).vertexIndex ∧
    (tessellate m poses style).indices.length % 3 = 0 ∧
    (∀ x ∈ (tessellate m poses style).indices, x < (tessellate m poses style).coords.length) ∧
    (∀ i, 1 ≤ i → i < poses.length →
      TessWF (tessLoop m poses style i) ∧
      TessWF (lineBody m poses style i (i - 1) (tessLoop m poses style i))) ∧
    TessWF (tessLoop m poses style poses.length) ∧
    (∀ (s : Nat) (sin cos : F), 1 ≤ s →
      TessWF (lastEndPoint m poses style s sin cos (tessLoop m poses style poses.length))) ∧
    (∀ r ∈ resolveIndices (tessellate m poses style).coords (tessellate m poses style).normals
        (tessellate m poses style).texCoords (tessellate m poses style).indices,
      r.isSome = true) ∧
    ∃ bufs, init m maxBuf poses style = some bufs := by
  obtain ⟨⟨w1, w2, w3, w4⟩, hlt⟩ := tessellate_spec m poses style hn
  obtain ⟨q1, _, _, q4, q5⟩ := tessLoop_inv m poses style poses.length (le_refl _)
  rw [if_neg (lt_irrefl _), Nat.add_zero] at q5
  refine ⟨w1, w2, w3, w4, fun x hx => by rw [w1]; exact hlt x hx, ?_, q1, ?_, ?_,
    init_isSome m maxBuf poses style⟩
  · intro i _ hi
    have h := (tessLoop_inv m poses style i (le_of_lt hi)).1
    exact ⟨h, lineBody_wf m poses style i (i - 1) _ h⟩
  · intro s sin cos hs
    exact (lastEndPoint_spec m poses style s sin cos _ hs q1 (by have := q4 hn; omega) q5).1
  · exact resolveIndices_isSome _ _ _ _ (by rw [w1, w2]) (by rw [w1, w3])
      (fun x hx => by rw [w1]; exact hlt x hx)

theorem tessellated_lists_well_formed_witness :
    2 ≤ sampleLoop.length ∧
    (∀ x ∈ (tessellate axisMath sampleLoop
        (sampleStyle 4 LineJointType.LINE_JOINT_TYPE_STRAIGHT
          LineEndType.LINE_END_TYPE_ROUND)).indices,
      x < (tessellate axisMath sampleLoop
        (sampleStyle 4 LineJointType.LINE_JOINT_TYPE_STRAIGHT
          LineEndType.LINE_END_TYPE_ROUND)).coords.length) ∧
    ∃ bufs, init axisMath 6 sampleLoop
      (sampleStyle 4 LineJointType.LINE_JOINT_TYPE_STRAIGHT
        LineEndType.LINE_END_TYPE_ROUND) = some bufs :=
  ⟨by decide,
    (tessellated_lists_well_formed axisMath 6 sampleLoop
      (sampleStyle 4 LineJointType.LINE_JOINT_TYPE_STRAIGHT LineEndType.LINE_END_TYPE_ROUND)
      (by decide)).2.2.2.2.1,
    (tessellated_lists_well_formed axisMath 6 sampleLoop
      (sampleStyle 4 LineJointType.LINE_JOINT_TYPE_STRAIGHT LineEndType.LINE_END_TYPE_ROUND)
      (by decide)).2.2.2.2.2.2.2.2.2⟩

/-- C29: for every input of the polygon-outline constructor whose preprocessed sequence has at
least 2 positions, that sequence has at least 3 positions and equal first and last positions,
so `init` treats it as a loop: the accumulated lists are those of the tessellation loop alone
(no end cap for any end-cap kind, and the same buffers for every end-cap kind), and with a
joint kind other than NONE the joint test of line 264 holds at each position index
`1 .. n-1`, the closing vertex included, where the iteration appends the 4 vertices and 6
indices of its quad and the `segments` vertices and `3 * segments` indices of its joint,
`segments` being computed from the turn angle at that position. -/
theorem polygon_outline_is_loop (m : CMath F) (maxBuf : Nat) (internalPoses : List (MapPos F))
    (style : LineStyle F) (h : 2 ≤ (polygonPoses internalPoses).length) :
    3 ≤ (polygonPoses internalPoses).length ∧
    (polygonPoses internalPoses).head? = (polygonPoses internalPoses).getLast? ∧
    isLoopedLine (polygonPoses internalPoses) = true ∧
    tessellate m (polygonPoses internalPoses) style =
      tessLoop m (polygonPoses internalPoses) style (polygonPoses internalPoses).length ∧
    (∀ e : LineEndType,
      init m maxBuf (polygonPoses internalPoses) { style with lineEndType := e } =
        init m maxBuf (polygonPoses internalPoses) style) ∧
    (style.lineJointType ≠ LineJointType.LINE_JOINT_TYPE_NONE →
      ∀ i, 1 ≤ i → i < (polygonPoses internalPoses).length →
        ((decide (i + 1 < (polygonPoses internalPoses).length) ||
            isLoopedLine (polygonPoses internalPoses)) &&
          decide (style.lineJointType ≠ LineJointType.LINE_JOINT_TYPE_NONE)) = true ∧
        (tessLoop m (polygonPoses internalPoses) style (i + 1)).vertexIndex =
          (tessLoop m (polygonPoses internalPoses) style i).vertexIndex + 4 +
            (jointSegments style (turnAngle m (polygonPoses internalPoses) i)).toNat ∧
        (tessLoop m (polygonPoses internalPoses) style (i + 1)).indices.length =
          (tessLoop m (polygonPoses internalPoses) style i).indices.length + 6 +
            3 * (jointSegments style (turnAngle m (polygonPoses internalPoses) i)).toNat) := by
  obtain ⟨h3, hends, hloop⟩ := polygonPoses_loop internalPoses h
  have h1 : ∀ st : LineStyle F, tessellate m (polygonPoses internalPoses) st =
      tessLoop m (polygonPoses internalPoses) st (polygonPoses internalPoses).length := by
    intro st
    unfold tessellate
    rw [lineEndPoints_eq_self _ _ _ _ _ (Or.inl hloop)]
  refine ⟨h3, hends, hloop, h1 style, ?_, ?_⟩
  · intro e
    unfold init
    rw [h1, h1]
    rfl
  · intro hkind i hi1 hin
    have hc : ((decide (i + 1 < (polygonPoses internalPoses).length) ||
        isLoopedLine (polygonPoses internalPoses)) &&
        decide (style.lineJointType ≠ LineJointType.LINE_JOINT_TYPE_NONE)) = true := by
      rw [hloop]
      simp [hkind]
    have hw : jointWedges (polygonPoses internalPoses) style
        (isLoopedLine (polygonPoses internalPoses))
        (calcDeltaAngles m (polygonPoses internalPoses) style
          (isLoopedLine (polygonPoses internalPoses))) i =
        (jointSegments style (turnAngle m (polygonPoses internalPoses) i)).toNat := by
      unfold jointWedges
      rw [if_pos hc, calcDeltaAngles_getD m _ style _ i hkind hi1 hin (Or.inr hloop)]
    obtain ⟨c1, c2⟩ := lineJoint_counts m (polygonPoses internalPoses) style
      (isLoopedLine (polygonPoses internalPoses))
      (calcDeltaAngles m (polygonPoses internalPoses) style
        (isLoopedLine (polygonPoses internalPoses))) i (i - 1)
      (lineBody m (polygonPoses internalPoses) style i (i - 1)
        (tessLoop m (polygonPoses internalPoses) style i))
    rw [hw] at c1 c2
    refine ⟨hc, ?_, ?_⟩
    · rw [tessLoop_step m _ style i hi1]
      exact c1
    · rw [tessLoop_step m _ style i hi1]
      rw [show ∀ (s : TessState F) (p : Option Nat),
        ({ s with prevPos := p } : TessState F).indices = s.indices from fun _ _ => rfl, c2]
      simp [lineBody]

theorem polygon_outline_is_loop_witness :
    2 ≤ (polygonPoses sampleCorner).length ∧
    3 ≤ (polygonPoses sampleCorner).length ∧
    isLoopedLine (polygonPoses sampleCorner) = true ∧
    tessellate axisMath (polygonPoses sampleCorner)
        (sampleStyle 4 LineJointType.LINE_JOINT_TYPE_STRAIGHT
          LineEndType.LINE_END_TYPE_ROUND) =
      tessLoop axisMath (polygonPoses sampleCorner)
        (sampleStyle 4 LineJointType.LINE_JOINT_TYPE_STRAIGHT LineEndType.LINE_END_TYPE_ROUND)
        (polygonPoses sampleCorner).length := by
  have h : 2 ≤ (polygonPoses sampleCorner).length := by decide
  obtain ⟨h1, _, h3, h4, _⟩ := polygon_outline_is_loop axisMath 6 sampleCorner
    (sampleStyle 4 LineJointType.LINE_JOINT_TYPE_STRAIGHT LineEndType.LINE_END_TYPE_ROUND) h
  exact ⟨h, h1, h3, h4⟩

/-- C22 (evaluation of the code at the failing input): the positions `(0,0)` and
`(2^-160, 0)` are distinct, so both survive the preprocessing of either constructor; the
segment vector `(2^-160, 0)` is non-zero and its length `2^-160` is non-zero; but
`float prevLineLength` (line 222) holds that length narrowed to `float`, which is 0, and
line 223 divides the segment vector by it. The caps normalise `lastLine`, the same vector,
by its length `2^-160`, which is not narrowed. -/
theorem narrowed_segment_length_is_zero :
    linePoses (fun p => p) sampleTiny = sampleTiny ∧
    polygonPoses sampleTiny = sampleTiny ++ [⟨0, 0⟩] ∧
    calcPrevLine sampleTiny 1 0 = ⟨1 / 2 ^ 160, 0⟩ ∧
    calcPrevLine sampleTiny 1 0 ≠ ⟨0, 0⟩ ∧
    (calcPrevLine sampleTiny 1 0).length axisMath = 1 / 2 ^ 160 ∧
    calcPrevLineLength axisMath (calcPrevLine sampleTiny 1 0) = 0 ∧
    (tessLoop axisMath sampleTiny
      (sampleStyle 4 LineJointType.LINE_JOINT_TYPE_NONE LineEndType.LINE_END_TYPE_ROUND)
      sampleTiny.length).lastLine = calcPrevLine sampleTiny 1 0 := by
  refine ⟨?_, ?_, sampleTiny_line, ?_, sampleTiny_length, ?_, sampleTiny_lastLine _⟩
  · rw [linePoses_eq]
    simp [sampleTiny, dropRepeats, dropRepeatsAfter_cons, dropRepeatsAfter_nil, sampleTiny_ne]
  · rw [sampleTiny, polygonPoses_eq]
    simp [dropRepeats, dropRepeatsAfter_cons, dropRepeatsAfter_nil, sampleTiny_ne]
  · rw [sampleTiny_line]
    intro h
    have h2 := congrArg MapVec.x h
    norm_num at h2
  · unfold calcPrevLineLength
    rw [sampleTiny_length, toFloat_subnormal _ 0 (by positivity) (by norm_num)
      (roundHalfEven_down _ 0 (by norm_num) (by norm_num))]
    norm_num

/-- C23: for every polyline, every style with stretch factor `> 0` and every position index
`i` with `1 ≤ i < n`, the texture coordinates appended for the quad of segment `i` (right
after those of the earlier iterations, in step with its four vertices) have the horizontal
components 0, 1, 0, 1; when the bitmap height is greater than 1 their vertical components are
`S(i-1)`, `S(i-1)`, `S(i)`, `S(i)`, where `S(0) = 0` and `S(k+1)` is `S(k)` plus the length of
segment `k+1`, the distance `sqrt((x[k+1] - x[k])^2 + (y[k+1] - y[k])^2)` of its two
positions, which `init` holds in a `float`, divided by `stretchFactor * bitmapHeight`; so the
vertical coordinate of a quad starts where that of the previous quad ends; when the bitmap
height is at most 1 they are the fixed values 0, 0, 1, 1. With non-negative square roots `S`
is non-decreasing along the line. -/
theorem quad_texture_coordinates (m : CMath F) (poses : List (MapPos F)) (style : LineStyle F)
    (i : Nat) (h1 : 1 ≤ i) (hi : i < poses.length) (hs : 0 < style.stretchFactor) :
    (tessLoop m poses style i).texCoords.length = (tessLoop m poses style i).coords.length ∧
    (1 < style.bitmapHeight →
      ∃ ts : List (Vec2 F), (tessellate m poses style).texCoords =
        (tessLoop m poses style i).texCoords ++
          [⟨0, texS m poses style (i - 1)⟩, ⟨1, texS m poses style (i - 1)⟩,
           ⟨0, texS m poses style i⟩, ⟨1, texS m poses style i⟩] ++ ts) ∧
    (style.bitmapHeight ≤ 1 →
      ∃ ts : List (Vec2 F), (tessellate m poses style).texCoords =
        (tessLoop m poses style i).texCoords ++ [⟨0, 0⟩, ⟨1, 0⟩, ⟨0, 1⟩, ⟨1, 1⟩] ++ ts) ∧
    texS m poses style 0 = 0 ∧
    (∀ k, texS m poses style (k + 1) =
      texS m poses style k +
        toFloat (m.sqrt
          (((poses.getD (k + 1) ⟨0, 0⟩).x - (poses.getD k ⟨0, 0⟩).x) *
              ((poses.getD (k + 1) ⟨0, 0⟩).x - (poses.getD k ⟨0, 0⟩).x) +
            ((poses.getD (k + 1) ⟨0, 0⟩).y - (poses.getD k ⟨0, 0⟩).y) *
              ((poses.getD (k + 1) ⟨0, 0⟩).y - (poses.getD k ⟨0, 0⟩).y))) /
          (style.stretchFactor * (style.bitmapHeight : F))) ∧
    ((∀ v : F, 0 ≤ m.sqrt v) →
      ∀ j k, j ≤ k → texS m poses style j ≤ texS m poses style k) := by
  obtain ⟨_, _, ⟨ts, hts⟩, _⟩ := quad_extends m poses style i h1 hi
  obtain ⟨w1, _, w3, _⟩ := (tessLoop_inv m poses style i (le_of_lt hi)).1
  refine ⟨by rw [w1, w3], ?_, ?_, texS_zero m poses style, ?_, ?_⟩
  · intro hh
    refine ⟨ts, ?_⟩
    have hy : (tessLoop m poses style i).texCoordY = texS m poses style (i - 1) := by
      have h := tessLoop_texCoordY m poses style hh (i - 1)
      rwa [show i - 1 + 1 = i by omega] at h
    have hsum : texS m poses style i =
        texS m poses style (i - 1) +
          calcPrevLineLength m (calcPrevLine poses i (i - 1)) * texCoordYScale style := by
      have h := texS_succ m poses style (i - 1)
      rw [show i - 1 + 1 = i by omega, segmentLength_eq] at h
      exact h
    rw [hts]
    simp only [lineBody]
    rw [if_pos (by simpa using hh), hy, hsum]
  · intro hh
    refine ⟨ts, ?_⟩
    rw [hts]
    simp only [lineBody]
    rw [if_neg (by simpa using hh)]
  · intro k
    rw [texS_succ]
    unfold texCoordYScale
    rw [mul_one_div]
    rfl
  · intro hsqrt j k hjk
    exact monotone_nat_of_le_succ (texS_le_succ m poses style hs hsqrt) hjk

theorem quad_texture_coordinates_witness :
    1 ≤ 2 ∧ 2 < sampleCorner.length ∧
    (0 : ℚ) < ({ sampleStyle 4 LineJointType.LINE_JOINT_TYPE_STRAIGHT
      LineEndType.LINE_END_TYPE_NONE with bitmapHeight := 2 } : LineStyle ℚ).stretchFactor ∧
    texS axisMath sampleCorner
      { sampleStyle 4 LineJointType.LINE_JOINT_TYPE_STRAIGHT
          LineEndType.LINE_END_TYPE_NONE with bitmapHeight := 2 } 1 = 5 ∧
    texS axisMath sampleCorner
      { sampleStyle 4 LineJointType.LINE_JOINT_TYPE_STRAIGHT
          LineEndType.LINE_END_TYPE_NONE with bitmapHeight := 2 } 2 = 10 ∧
    ∃ ts : List (Vec2 ℚ),
      (tessellate axisMath sampleCorner
        { sampleStyle 4 LineJointType.LINE_JOINT_TYPE_STRAIGHT
            LineEndType.LINE_END_TYPE_NONE with bitmapHeight := 2 }).texCoords =
        (tessLoop axisMath sampleCorner
          { sampleStyle 4 LineJointType.LINE_JOINT_TYPE_STRAIGHT
              LineEndType.LINE_END_TYPE_NONE with bitmapHeight := 2 } 2).texCoords ++
          [⟨0, 5⟩, ⟨1, 5⟩, ⟨0, 10⟩, ⟨1, 10⟩] ++ ts := by
  have hst : (0 : ℚ) < ({ sampleStyle 4 LineJointType.LINE_JOINT_TYPE_STRAIGHT
      LineEndType.LINE_END_TYPE_NONE with bitmapHeight := 2 } : LineStyle ℚ).stretchFactor := by
    norm_num [sampleStyle]
  obtain ⟨_, h2, _, h4, h5, _⟩ := quad_texture_coordinates axisMath sampleCorner
    { sampleStyle 4 LineJointType.LINE_JOINT_TYPE_STRAIGHT
        LineEndType.LINE_END_TYPE_NONE with bitmapHeight := 2 } 2 (by decide) (by decide) hst
  have hsq : axisMath.sqrt 100 = 10 := by
    have h := axisMath_sqrt_sq 10
    norm_num at h
    exact h
  have hfl : toFloat (10 : ℚ) = 10 := by
    rw [toFloat_eq (10 : ℚ) 3 10485760 (by norm_num) (by norm_num) (by norm_num)
      (roundHalfEven_down _ 10485760 (by norm_num) (by norm_num))]
    norm_num
  have e1 : texS axisMath sampleCorner
      { sampleStyle 4 LineJointType.LINE_JOINT_TYPE_STRAIGHT
          LineEndType.LINE_END_TYPE_NONE with bitmapHeight := 2 } 1 = 5 := by
    rw [h5 0, h4]
    norm_num [sampleCorner, sampleStyle, hsq, hfl]
  have e2 : texS axisMath sampleCorner
      { sampleStyle 4 LineJointType.LINE_JOINT_TYPE_STRAIGHT
          LineEndType.LINE_END_TYPE_NONE with bitmapHeight := 2 } 2 = 10 := by
    rw [h5 1, e1]
    norm_num [sampleCorner, sampleStyle, hsq, hfl]
  obtain ⟨ts, hts⟩ := h2 (by decide)
  rw [e2, show 2 - 1 = 1 from rfl, e1] at hts
  exact ⟨by decide, by decide, hst, e1, e2, ts, hts⟩

/-- C26 (evaluation of the code at two failing inputs). For the line `[(0,0), (5,0)]` with
width 2 and end-cap kind ROUND, the constructor binds the six vertices to the position
indices `0, 0, 1, 1, 1, 0` (the last vertex is the centre of the first cap, at position 0);
the copy constructor, which counts pointer changes from `index = -1`, binds the vertices of
the copy to `0, 0, 1, 1, 1, 2`: the last vertex is bound to index 2, which differs from 0 and
lies outside the two positions of the copy. For the polyline `[(0,0), (10,0), (10,10)]` split
into two buffers (limit 6), the second buffer is bound to the positions `1, 1, 2, 2` and its
copy to `0, 0, 1, 1`, because the count restarts at `-1` for every buffer. -/
theorem copy_rebinds_vertices :
    (∃ d, ofLineGeometry axisMath 65535 64 (fun p => p) sampleLine
        (sampleStyle 2 LineJointType.LINE_JOINT_TYPE_NONE LineEndType.LINE_END_TYPE_ROUND) =
        some d ∧
      d.poses.length = 2 ∧ (copy d).poses = d.poses ∧
      d.buffers.map DrawBuffer.coords = [[0, 0, 1, 1, 1, 0]] ∧
      (copy d).buffers.map DrawBuffer.coords = [[0, 0, 1, 1, 1, 2]]) ∧
    (∃ d, ofLineGeometry axisMath 6 64 (fun p => p) sampleCorner
        (sampleStyle 2 LineJointType.LINE_JOINT_TYPE_NONE LineEndType.LINE_END_TYPE_NONE) =
        some d ∧
      d.poses.length = 3 ∧ (copy d).poses = d.poses ∧
      d.buffers.map DrawBuffer.coords = [[0, 0, 1, 1], [1, 1, 2, 2]] ∧
      (copy d).buffers.map DrawBuffer.coords = [[0, 0, 1, 1], [0, 0, 1, 1]]) := by
  constructor
  · have hseg : ((1 : Nat) : Int) = endPointSegments
        (sampleStyle 2 LineJointType.LINE_JOINT_TYPE_NONE LineEndType.LINE_END_TYPE_ROUND) := by
      rw [endPointSegments_width_two _ rfl]
      rfl
    obtain ⟨hc, hi⟩ := tessellate_caps_shape axisMath sampleLine
      (sampleStyle 2 LineJointType.LINE_JOINT_TYPE_NONE LineEndType.LINE_END_TYPE_ROUND) 1
      (by decide) rfl hseg (le_refl _)
    have hc0 : (tessLoop axisMath sampleLine
        (sampleStyle 2 LineJointType.LINE_JOINT_TYPE_NONE LineEndType.LINE_END_TYPE_ROUND)
        sampleLine.length).coords = [0, 0, 1, 1] := by decide
    have hi0 : (tessLoop axisMath sampleLine
        (sampleStyle 2 LineJointType.LINE_JOINT_TYPE_NONE LineEndType.LINE_END_TYPE_ROUND)
        sampleLine.length).indices.length = 6 := by decide
    rw [hc0] at hc
    have hcoords : (tessellate axisMath sampleLine
        (sampleStyle 2 LineJointType.LINE_JOINT_TYPE_NONE
          LineEndType.LINE_END_TYPE_ROUND)).coords = [0, 0, 1, 1, 1, 0] := by
      rw [hc]
      decide
    have hlen : (tessellate axisMath sampleLine
        (sampleStyle 2 LineJointType.LINE_JOINT_TYPE_NONE
          LineEndType.LINE_END_TYPE_ROUND)).indices.length = 12 := by
      rw [hi]
      simp only [List.length_append, hi0, lastEndPointIndices_length,
        firstEndPointIndices_length]
    have hposes : linePoses (fun p => p) sampleLine = sampleLine := by decide
    have hinit : init axisMath 65535 sampleLine
        (sampleStyle 2 LineJointType.LINE_JOINT_TYPE_NONE LineEndType.LINE_END_TYPE_ROUND) =
        some [{ coords := [0, 0, 1, 1, 1, 0]
                normals := (tessellate axisMath sampleLine
                  (sampleStyle 2 LineJointType.LINE_JOINT_TYPE_NONE
                    LineEndType.LINE_END_TYPE_ROUND)).normals
                texCoords := (tessellate axisMath sampleLine
                  (sampleStyle 2 LineJointType.LINE_JOINT_TYPE_NONE
                    LineEndType.LINE_END_TYPE_ROUND)).texCoords
                indices := (tessellate axisMath sampleLine
                  (sampleStyle 2 LineJointType.LINE_JOINT_TYPE_NONE
                    LineEndType.LINE_END_TYPE_ROUND)).indices }] := by
      unfold init partitionBuffers
      rw [if_neg (by decide)]
      simp only
      rw [if_pos (by rw [hlen]; decide), hcoords]
    have hof : ofLineGeometry axisMath 65535 64 (fun p => p) sampleLine
        (sampleStyle 2 LineJointType.LINE_JOINT_TYPE_NONE LineEndType.LINE_END_TYPE_ROUND) =
        some { clickScale := lineClickScale 64
                 (sampleStyle 2 LineJointType.LINE_JOINT_TYPE_NONE
                   LineEndType.LINE_END_TYPE_ROUND)
               poses := sampleLine
               buffers := [{ coords := [0, 0, 1, 1, 1, 0]
                             normals := (tessellate axisMath sampleLine
                               (sampleStyle 2 LineJointType.LINE_JOINT_TYPE_NONE
                                 LineEndType.LINE_END_TYPE_ROUND)).normals
                             texCoords := (tessellate axisMath sampleLine
                               (sampleStyle 2 LineJointType.LINE_JOINT_TYPE_NONE
                                 LineEndType.LINE_END_TYPE_ROUND)).texCoords
                             indices := (tessellate axisMath sampleLine
                               (sampleStyle 2 LineJointType.LINE_JOINT_TYPE_NONE
                                 LineEndType.LINE_END_TYPE_ROUND)).indices }]
               isOffset := false } := by
      unfold ofLineGeometry
      rw [hposes, hinit]
      rfl
    exact ⟨_, hof, by decide, rfl, rfl, by decide⟩
  · have h : (ofLineGeometry axisMath 6 64 (fun p => p) sampleCorner
        (sampleStyle 2 LineJointType.LINE_JOINT_TYPE_NONE
          LineEndType.LINE_END_TYPE_NONE)).map
        (fun d => (d.poses.length, d.buffers.map DrawBuffer.coords,
          (copy d).buffers.map DrawBuffer.coords)) =
        some (3, [[0, 0, 1, 1], [1, 1, 2, 2]], [[0, 0, 1, 1], [0, 0, 1, 1]]) := by decide
    cases hd : ofLineGeometry axisMath 6 64 (fun p => p) sampleCorner
        (sampleStyle 2 LineJointType.LINE_JOINT_TYPE_NONE LineEndType.LINE_END_TYPE_NONE) with
    | none => rw [hd] at h; simp at h
    | some d =>
      rw [hd] at h
      simp only [Option.map_some', Option.some.injEq, Prod.mk.injEq] at h
      exact ⟨d, rfl, h.1, rfl, h.2.1, h.2.2⟩

/-- C27: for every polyline with `n ≥ 2` positions and every style, every index appended
for the joint of iteration `i` refers to a vertex bound to position `i`, or, for the
loop-closing joint at `i = n - 1`, to a vertex bound to position 0, which equals position
`n - 1`; the indices appended after the loop split in two halves of equal length, those of the
cap at the last position, which all refer to vertices bound to position `n - 1`, and those of
the cap at the first position, which all refer to vertices bound to position 0. So the three
vertices of every joint or cap triangle are bound to positions of one value. The quad of
segment `i` has its first two vertices bound to position `i - 1` and its last two bound to
position `i`, which differ for a preprocessed polyline, and each of its two triangles uses
both. -/
theorem joint_and_cap_triangles_are_degenerate (m : CMath F) (poses : List (MapPos F))
    (style : LineStyle F) (hn : 2 ≤ poses.length) :
    (∀ i, 1 ≤ i → i < poses.length → ∀ js : List Nat,
      (tessLoop m poses style (i + 1)).indices =
        (lineBody m poses style i (i - 1) (tessLoop m poses style i)).indices ++ js →
      ∀ x ∈ js, ∃ c, (tessellate m poses style).coords[x]? = some c ∧
        (c = i ∨ (c = 0 ∧ i = poses.length - 1 ∧ isLoopedLine poses = true)) ∧
        poses.getD c ⟨0, 0⟩ = poses.getD i ⟨0, 0⟩) ∧
    (∃ tri1 tri2 : List Nat,
      (tessellate m poses style).indices =
        (tessLoop m poses style poses.length).indices ++ tri1 ++ tri2 ∧
      tri1.length = tri2.length ∧
      (∀ x ∈ tri1, (tessellate m poses style).coords[x]? = some (poses.length - 1)) ∧
      (∀ x ∈ tri2, (tessellate m poses style).coords[x]? = some 0)) ∧
    (∀ i, 1 ≤ i → i < poses.length → ∃ b : Nat,
      b = (tessLoop m poses style i).vertexIndex ∧
      (lineBody m poses style i (i - 1) (tessLoop m poses style i)).indices =
        (tessLoop m poses style i).indices ++ [b, b + 1, b + 2, b + 1, b + 3, b + 2] ∧
      (tessellate m poses style).coords[b]? = some (i - 1) ∧
      (tessellate m poses style).coords[b + 1]? = some (i - 1) ∧
      (tessellate m poses style).coords[b + 2]? = some i ∧
      (tessellate m poses style).coords[b + 3]? = some i ∧
      (List.Chain' (fun a b => a ≠ b) poses →
        poses.getD (i - 1) ⟨0, 0⟩ ≠ poses.getD i ⟨0, 0⟩)) := by
  refine ⟨?_, ?_, ?_⟩
  · intro i h1 hi js hjs x hx
    have hsh := (tessLoop_shape m poses style i h1).2
    rw [hjs] at hsh
    have hjs2 := List.append_cancel_left hsh
    rw [hjs2] at hx
    exact joint_vertex_binding m poses style hn i h1 hi x hx
  · rcases lineEndPoints_cases m poses style (isLoopedLine poses)
      (tessLoop m poses style poses.length) with h | ⟨s, hs1, hs, hopen, he, _⟩
    · refine ⟨[], [], ?_, rfl, fun x hx => by simp at hx, fun x hx => by simp at hx⟩
      unfold tessellate
      rw [h]
      simp
    · obtain ⟨_, hidx⟩ := tessellate_caps_shape m poses style s hopen he hs hs1
      obtain ⟨b1, b2⟩ := cap_vertex_binding m poses style hn s hopen he hs hs1
      exact ⟨_, _, hidx,
        by rw [lastEndPointIndices_length, firstEndPointIndices_length], b1, b2⟩
  · intro i h1 hi
    obtain ⟨w1, _, _, _⟩ := (tessLoop_inv m poses style i (le_of_lt hi)).1
    obtain ⟨rest, hrest⟩ := tessellate_coords_window m poses style i h1 hi
    have hA : ((tessLoop m poses style i).coords ++ [i - 1, i - 1]).length =
        (tessLoop m poses style i).vertexIndex + 2 := by
      rw [List.length_append, w1]
      rfl
    refine ⟨_, rfl, rfl, ?_, ?_, ?_, ?_, ?_⟩
    · rw [hrest, List.append_assoc, List.append_assoc,
        List.getElem?_append_right (by rw [w1]), w1, Nat.sub_self]
      simp
    · rw [hrest, List.append_assoc, List.append_assoc,
        List.getElem?_append_right (by rw [w1]; omega), w1, Nat.add_sub_cancel_left]
      simp
    · rw [hrest]
      exact getElem?_replicate_window _ _ _ _ _ (by rw [hA]) (by rw [hA]; omega)
    · rw [hrest]
      exact getElem?_replicate_window _ _ _ _ _ (by rw [hA]; omega) (by rw [hA]; omega)
    · intro hc
      have h := chain_getD_ne ⟨0, 0⟩ poses hc (i - 1) (by omega)
      rwa [show i - 1 + 1 = i by omega] at h

theorem joint_and_cap_triangles_are_degenerate_witness :
    2 ≤ sampleCorner.length ∧
    ∃ tri1 tri2 : List Nat,
      (tessellate axisMath sampleCorner
        (sampleStyle 4 LineJointType.LINE_JOINT_TYPE_STRAIGHT
          LineEndType.LINE_END_TYPE_ROUND)).indices =
        (tessLoop axisMath sampleCorner
          (sampleStyle 4 LineJointType.LINE_JOINT_TYPE_STRAIGHT
            LineEndType.LINE_END_TYPE_ROUND) sampleCorner.length).indices ++ tri1 ++ tri2 ∧
      tri1.length = tri2.length ∧
      (∀ x ∈ tri1, (tessellate axisMath sampleCorner
        (sampleStyle 4 LineJointType.LINE_JOINT_TYPE_STRAIGHT
          LineEndType.LINE_END_TYPE_ROUND)).coords[x]? = some (sampleCorner.length - 1)) ∧
      (∀ x ∈ tri2, (tessellate axisMath sampleCorner
        (sampleStyle 4 LineJointType.LINE_JOINT_TYPE_STRAIGHT
          LineEndType.LINE_END_TYPE_ROUND)).coords[x]? = some 0) :=
  ⟨by decide,
    (joint_and_cap_triangles_are_degenerate axisMath sampleCorner
      (sampleStyle 4 LineJointType.LINE_JOINT_TYPE_STRAIGHT LineEndType.LINE_END_TYPE_ROUND)
      (by decide)).2.1⟩

end Claims

end LineDrawData

/-! ## TorqueFeatureIterator: lemmas and claim -/

namespace TorqueFeatureIterator

open LineDrawData

theorem exists_runs {V : Type} [DecidableEq V] (l : List V) :
    ∃ runs : List (V × Nat), List.Chain' (fun r q : V × Nat => r.1 ≠ q.1) runs ∧
      l = expandRuns runs := by
  induction l with
  | nil => exact ⟨[], List.chain'_nil, rfl⟩
  | cons a l ih =>
    obtain ⟨runs, hc, he⟩ := ih
    cases runs with
    | nil =>
      refine ⟨[(a, 0)], List.chain'_singleton _, ?_⟩
      rw [he, expandRuns_cons]
      rfl
    | cons r rs =>
      by_cases h : r.1 = a
      · refine ⟨(a, r.2 + 1) :: rs, ?_, ?_⟩
        · rw [List.chain'_cons'] at hc ⊢
          exact ⟨fun y hy => h ▸ hc.1 y hy, hc.2⟩
        · rw [he, expandRuns_cons, show r = (r.1, r.2) from rfl, expandRuns_cons, h]
          rfl
      · refine ⟨(a, 0) :: r :: rs, ?_, ?_⟩
        · rw [List.chain'_cons]
          exact ⟨fun e => h e.symm, hc⟩
        · rw [he, expandRuns_cons]
          rfl

theorem scan_run {V : Type} [DecidableEq V] (elements : List (Element V)) (a : V) (p k : Nat)
    (hrun : ∀ i, i ≤ k → (elements[p + i]?).map Element.value = some a)
    (hend : (elements[p + k + 1]?).map Element.value ≠ some a) :
    ∀ d j, j + d = k → scan elements p (p + j) = p + k + 1 := by
  have hlen : p + k + 1 ≤ elements.length := by
    have h := hrun k (le_refl _)
    by_contra hc
    rw [List.getElem?_eq_none (by omega)] at h
    simp at h
  intro d
  induction d with
  | zero =>
    intro j hj
    have hj : j = k := by omega
    subst hj
    rw [scan]
    by_cases h : p + j + 1 < elements.length
    · rw [if_pos h]
      have h0 := hrun 0 (Nat.zero_le _)
      rw [Nat.add_zero] at h0
      rw [if_pos (by rw [h0]; exact fun e => hend e.symm)]
    · rw [if_neg h]
  | succ d ih =>
    intro j hj
    rw [scan]
    have h0 := hrun 0 (Nat.zero_le _)
    rw [Nat.add_zero] at h0
    have h1 := hrun (j + 1) (by omega)
    rw [if_pos (by omega), if_neg (by rw [h0, ← Nat.add_assoc] at *; rw [h1]; simp)]
    have := ih (j + 1) (by omega)
    rw [← Nat.add_assoc] at this
    exact this

theorem runStart_zero {α : Type} (runs : List (α × Nat)) : runStart runs 0 = 0 := by
  simp [runStart]

theorem runStart_cons_succ {α : Type} (r : α × Nat) (rs : List (α × Nat)) (j : Nat) :
    runStart (r :: rs) (j + 1) = r.2 + 1 + runStart rs j := by
  simp [runStart]

theorem runStart_succ {α : Type} (runs : List (α × Nat)) (j : Nat) (r : α × Nat)
    (h : runs[j]? = some r) : runStart runs (j + 1) = runStart runs j + (r.2 + 1) := by
  unfold runStart
  rw [List.take_succ, h]
  simp

theorem runStart_length {α : Type} (runs : List (α × Nat)) :
    runStart runs runs.length = (expandRuns runs).length := by
  induction runs with
  | nil => simp [runStart, expandRuns]
  | cons r rs ih =>
    rw [List.length_cons, runStart_cons_succ, ih, show r = (r.1, r.2) from rfl, expandRuns_cons]
    simp
    omega

theorem scan_runs {V : Type} [DecidableEq V] (elements : List (Element V)) :
    ∀ (runs : List (V × Nat)) (pre : List V),
      List.Chain' (fun r q : V × Nat => r.1 ≠ q.1) runs →
      elements.map Element.value = pre ++ expandRuns runs →
      ∀ j r, runs[j]? = some r →
        (∀ i, i ≤ r.2 →
          (elements[pre.length + runStart runs j + i]?).map Element.value = some r.1) ∧
        scan elements (pre.length + runStart runs j) (pre.length + runStart runs j) =
          pre.length + runStart runs j + r.2 + 1 := by
  intro runs
  induction runs with
  | nil => intro pre _ _ j r h; simp at h
  | cons q rs ih =>
    intro pre hc he j r hj
    obtain ⟨a, k⟩ := q
    cases j with
    | zero =>
      simp only [List.getElem?_cons_zero, Option.some.injEq] at hj
      subst hj
      rw [runStart_zero, Nat.add_zero]
      have he2 : elements.map Element.value =
          pre ++ (List.replicate (k + 1) a ++ expandRuns rs) := by
        rw [he, expandRuns_cons, List.replicate_succ, List.cons_append]
      have hrun : ∀ i, i ≤ k → (elements[pre.length + i]?).map Element.value = some a := by
        intro i hi
        rw [← List.getElem?_map, he2, List.getElem?_append_right (by omega),
          List.getElem?_append_left (by simp; omega), List.getElem?_replicate,
          if_pos (by omega)]
      have hend : (elements[pre.length + k + 1]?).map Element.value ≠ some a := by
        rw [← List.getElem?_map, he2, List.getElem?_append_right (by omega),
          List.getElem?_append_right (by simp; omega)]
        simp only [List.length_replicate]
        rw [show pre.length + k + 1 - pre.length - (k + 1) = 0 by omega]
        cases rs with
        | nil => simp [expandRuns]
        | cons b rs2 =>
          rw [List.chain'_cons] at hc
          rw [show b = (b.1, b.2) from rfl, expandRuns_cons]
          simp only [List.getElem?_cons_zero, ne_eq, Option.some.injEq]
          exact fun e => hc.1 e.symm
      refine ⟨hrun, ?_⟩
      have h := scan_run elements a pre.length k hrun hend k 0 (by omega)
      rwa [Nat.add_zero] at h
    | succ j =>
      simp only [List.getElem?_cons_succ] at hj
      have hc2 : List.Chain' (fun r q : V × Nat => r.1 ≠ q.1) rs := by
        cases rs with
        | nil => exact List.chain'_nil
        | cons b rs2 => exact (List.chain'_cons.mp hc).2
      have he2 : elements.map Element.value =
          (pre ++ List.replicate (k + 1) a) ++ expandRuns rs := by
        rw [he, expandRuns_cons, List.replicate_succ]
        simp only [List.append_assoc, List.cons_append]
      have h := ih (pre ++ List.replicate (k + 1) a) hc2 he2 j r hj
      have e : (pre ++ List.replicate (k + 1) a).length + runStart rs j =
          pre.length + runStart ((a, k) :: rs) (j + 1) := by
        rw [runStart_cons_succ, List.length_append, List.length_replicate]
        omega
      rw [e] at h
      exact h

theorem stateAfter_succ {V : Type} [DecidableEq V] (elements : List (Element V)) (j : Nat) :
    stateAfter elements (j + 1) = advance elements (stateAfter elements j) :=
  Function.iterate_succ_apply' _ _ _

theorem stateAfter_run {V : Type} [DecidableEq V] (elements : List (Element V))
    (runs : List (V × Nat)) (hc : List.Chain' (fun r q : V × Nat => r.1 ≠ q.1) runs)
    (he : elements.map Element.value = expandRuns runs) :
    ∀ j r, runs[j]? = some r →
      stateAfter elements j =
        { index0 := runStart runs j, index1 := runStart runs j + (r.2 + 1) } := by
  intro j
  induction j with
  | zero =>
    intro r hr
    have h := (scan_runs elements runs [] hc (by simpa using he) 0 r hr).2
    simp only [List.length_nil, Nat.zero_add, runStart_zero] at h
    simp only [stateAfter, Function.iterate_zero, id_eq, construct, runStart_zero, h,
      Nat.zero_add]
  | succ j ih =>
    intro r hr
    have hlt : j < runs.length := by
      have := (List.getElem?_eq_some_iff.mp hr).1
      omega
    obtain ⟨r0, hr0⟩ := LineDrawData.getElem?_exists runs j hlt
    have h := (scan_runs elements runs [] hc (by simpa using he) (j + 1) r hr).2
    simp only [List.length_nil, Nat.zero_add] at h
    rw [stateAfter_succ, ih r0 hr0, advance]
    simp only
    rw [← runStart_succ runs j r0 hr0, h]
    rfl

theorem stateAfter_index0 {V : Type} [DecidableEq V] (elements : List (Element V))
    (runs : List (V × Nat)) (hc : List.Chain' (fun r q : V × Nat => r.1 ≠ q.1) runs)
    (he : elements.map Element.value = expandRuns runs) (j : Nat) (hj : j ≤ runs.length) :
    (stateAfter elements j).index0 = runStart runs j := by
  cases j with
  | zero => rw [runStart_zero]; rfl
  | succ j =>
    obtain ⟨r0, hr0⟩ := LineDrawData.getElem?_exists runs j (by omega)
    rw [stateAfter_succ, stateAfter_run elements runs hc he j r0 hr0,
      runStart_succ runs j r0 hr0]
    rfl

theorem visited_indices {V : Type} [DecidableEq V] (elements : List (Element V))
    (runs : List (V × Nat)) (hc : List.Chain' (fun r q : V × Nat => r.1 ≠ q.1) runs)
    (he : elements.map Element.value = expandRuns runs) (n : Nat) (hn : n ≤ runs.length) :
    (List.range n).flatMap (fun j => getGeometryIndices (stateAfter elements j)) =
      List.range' 0 (runStart runs n) := by
  induction n with
  | zero => simp [runStart_zero]
  | succ n ih =>
    obtain ⟨r0, hr0⟩ := LineDrawData.getElem?_exists runs n (by omega)
    rw [List.range_succ, List.flatMap_append, ih (by omega), runStart_succ runs n r0 hr0]
    simp only [List.flatMap_cons, List.flatMap_nil, List.append_nil]
    rw [stateAfter_run elements runs hc he n r0 hr0, getGeometryIndices]
    simp only [Nat.add_sub_cancel_left]
    have h := List.range'_append 0 (runStart runs n) (r0.2 + 1) 1
    rw [Nat.zero_add, Nat.one_mul] at h
    rw [h, Nat.add_comm]

/-- C30: for every list of Torque elements there is a list `runs` of (value, length - 1)
pairs, adjacent pairs having different values, that spells out the values of the elements
(so `runs` lists the maximal runs of consecutive elements with equal value), such that the
state after construction and `j` calls of `advance`, for each run index `j`, is valid and has
`[index0, index1)` equal to the index range of run `j`: it starts where the previous range
ends (at 0 for the first), is non-empty, and all its elements carry the value of the run.
The ranges visited while `valid` holds, concatenated in the order of the visits, are the
indices `0, 1, .., size - 1`, each exactly once; `valid` is false after as many calls of
`advance` as there are runs, and is false right after construction for the empty list. -/
theorem iterator_visits_maximal_runs {V : Type} [DecidableEq V] (elements : List (Element V)) :
    ∃ runs : List (V × Nat),
      List.Chain' (fun r q : V × Nat => r.1 ≠ q.1) runs ∧
      elements.map Element.value = LineDrawData.expandRuns runs ∧
      (∀ j r, runs[j]? = some r →
        valid elements (stateAfter elements j) = true ∧
        (stateAfter elements j).index0 = LineDrawData.runStart runs j ∧
        (stateAfter elements j).index1 = LineDrawData.runStart runs j + (r.2 + 1) ∧
        (stateAfter elements j).index1 = LineDrawData.runStart runs (j + 1) ∧
        getGeometryIndices (stateAfter elements j) =
          List.range' (LineDrawData.runStart runs j) (r.2 + 1) ∧
        ∀ i ∈ getGeometryIndices (stateAfter elements j),
          (elements[i]?).map Element.value = some r.1) ∧
      valid elements (stateAfter elements runs.length) = false ∧
      (List.range runs.length).flatMap
          (fun j => getGeometryIndices (stateAfter elements j)) =
        List.range elements.length ∧
      (elements = [] → valid elements (construct elements) = false) := by
  obtain ⟨runs, hc, he⟩ := exists_runs (elements.map Element.value)
  have hlen : runStart runs runs.length = elements.length := by
    rw [runStart_length, ← he, List.length_map]
  refine ⟨runs, hc, he, ?_, ?_, ?_, ?_⟩
  · intro j r hr
    have hst := stateAfter_run elements runs hc he j r hr
    obtain ⟨hrun, _⟩ := scan_runs elements runs [] hc (by simpa using he) j r hr
    simp only [List.length_nil, Nat.zero_add] at hrun
    have hgeo : getGeometryIndices (stateAfter elements j) =
        List.range' (runStart runs j) (r.2 + 1) := by
      rw [hst, getGeometryIndices]
      simp only [Nat.add_sub_cancel_left]
    refine ⟨?_, by rw [hst], by rw [hst], by rw [hst, runStart_succ runs j r hr], hgeo, ?_⟩
    · rw [hst]
      simp only [valid, decide_eq_true_eq]
      have h := hrun 0 (Nat.zero_le _)
      rw [Nat.add_zero] at h
      by_contra hcon
      rw [List.getElem?_eq_none (by omega)] at h
      simp at h
    · intro i hi
      rw [hgeo, List.mem_range'_1] at hi
      have h := hrun (i - runStart runs j) (by omega)
      rwa [show runStart runs j + (i - runStart runs j) = i by omega] at h
  · simp only [valid, decide_eq_false_iff_not]
    rw [stateAfter_index0 elements runs hc he runs.length (le_refl _), hlen]
    exact lt_irrefl _
  · rw [visited_indices elements runs hc he runs.length (le_refl _), hlen,
      List.range_eq_range']
  · intro h
    subst h
    rfl

end TorqueFeatureIterator
